import Mathlib

/-!
# Knock-knock joke server: a shallow embedding of `pds_assignment_1/server.cpp`

C++ `std::string` values are byte strings; they are modelled as `List Nat`
(one entry per byte, values `0..255`).  String literals of the source are
written with `bytes`, which maps an ASCII literal to its bytes; the two
non-ASCII literals of the source (both contain U+2019, encoded in the
source file as the bytes `E2 80 99`) are spelled out byte by byte.

The matrix service of `pds_assignment_2/matrixOp_server.c` follows in the
namespace `MatrixOp`.
-/

namespace JokeServer

/-! ## Byte strings -/

/-- Bytes of an ASCII string literal. -/
def bytes (s : String) : List Nat := s.data.map Char.toNat

/-- Membership in the set `" \t\r\n"` used by `trim`. -/
def isTrimChar (c : Nat) : Bool := c == 32 || c == 9 || c == 13 || c == 10

/-- The call `std::isspace` in the default "C" locale: space, `\t`, `\n`, `\v`, `\f`, `\r`. -/
def isspace (c : Nat) : Bool := c == 32 || (9 ≤ c && c ≤ 13)

/-- The call `std::tolower` in the default "C" locale: only `A..Z` are mapped. -/
def tolower (c : Nat) : Nat := if 65 ≤ c ∧ c ≤ 90 then c + 32 else c

/-- The call `s.find_first_not_of(" \t\r\n")`; `none` stands for `npos`. -/
def find_first_not_of : List Nat → Option Nat
  | [] => none
  | c :: t => if isTrimChar c then (find_first_not_of t).map (· + 1) else some 0

/-- The call `s.find_last_not_of(" \t\r\n")`; `none` stands for `npos`. -/
def find_last_not_of : List Nat → Option Nat
  | [] => none
  | c :: t =>
    match find_last_not_of t with
    | some i => some (i + 1)
    | none => if isTrimChar c then none else some 0

/-- The call `s.substr(pos, len)` for `pos ≤ s.size()`. -/
def substr (s : List Nat) (pos len : Nat) : List Nat := (s.drop pos).take len

/-- The call `s.substr(pos)` for `pos ≤ s.size()`. -/
def substrFrom (s : List Nat) (pos : Nat) : List Nat := s.drop pos

/-- Source `trim` (server.cpp 35-40).  When `b` is not `npos` neither is `e`
(`find_last_some_of_first`), so the inner `none` branch is never taken. -/
def trim (s : List Nat) : List Nat :=
  match find_first_not_of s with
  | none => []
  | some b =>
    match find_last_not_of s with
    | none => []
    | some e => substr s b (e - b + 1)

/-- First loop of `normalize` (server.cpp 72-81): each byte sequence
`E2 80 98` or `E2 80 99` becomes one ASCII apostrophe. -/
def mapQuotes : List Nat → List Nat
  | [] => []
  | [a] => [a]
  | [a, b] => a :: mapQuotes [b]
  | a :: b :: c :: rest =>
    if a = 0xE2 ∧ b = 0x80 ∧ (c = 0x98 ∨ c = 0x99) then 39 :: mapQuotes rest
    else a :: mapQuotes (b :: c :: rest)

/-- Second loop of `normalize` (server.cpp 83-91); the flag is `prev_space`. -/
def collapse (prev_space : Bool) : List Nat → List Nat
  | [] => []
  | c :: t =>
    if isspace c then
      (if prev_space then collapse true t else 32 :: collapse true t)
    else c :: collapse false t

/-- Source `normalize` (server.cpp 69-96). -/
def normalize (raw : List Nat) : List Nat :=
  let s := trim raw
  let tmp := mapQuotes s
  let collapsed := collapse false tmp
  let collapsed := collapsed.map tolower
  trim collapsed

/-- Source `is_whos_there` (server.cpp 98-101). -/
def is_whos_there (inp : List Nat) : Bool :=
  let s := normalize inp
  s == bytes "who's there?" || s == bytes "whos there?"

/-- Source `is_setup_who` (server.cpp 102-106). -/
def is_setup_who (inp setup : List Nat) : Bool :=
  let s := normalize inp
  let need := normalize setup ++ bytes " who?"
  s == need

/-- Source `is_yes` (server.cpp 107-110). -/
def is_yes (inp : List Nat) : Bool :=
  let s := normalize inp
  s == bytes "y" || s == bytes "yes"

/-! ## Connections -/

/-- Loop of `recv_line` (server.cpp 58-64) over the bytes the peer still
delivers.  Each `::recv(fd, &c, 1, 0)` takes the next byte of the stream; at
the end of the stream `recv` reports close or error (`n <= 0`).  The result is
the returned optional and the bytes not yet consumed. -/
def recv_line_loop (buf : List Nat) : List Nat → Option (List Nat) × List Nat
  | [] => (none, [])
  | c :: rest =>
    if c = 10 then (some buf, rest)
    else
      let buf := buf ++ [c]
      if buf.length > 4096 then (none, rest) else recv_line_loop buf rest

/-- Source `recv_line` (server.cpp 55-66). -/
def recv_line (inbound : List Nat) : Option (List Nat) × List Nat :=
  recv_line_loop [] inbound

/-- One client socket as the worker sees it: the bytes the peer will still
deliver, the outcome of each successive `send_all` call (numbered from 0), the
messages handed to `send_all` so far, and whether `::close` was called. -/
structure Conn where
  inbound : List Nat
  sendOk : Nat → Bool
  sent : List (List Nat)
  closed : Bool

/-- Source `send_all` (server.cpp 43-52), up to the kernel, for a call that
returns: the message is recorded and the call reports whether every byte went
out.  A call on which SIGPIPE ends the process does not return; it is
accounted for in `client_worker_proc`. -/
def send_all (c : Conn) (msg : List Nat) : Bool × Conn :=
  (c.sendOk c.sent.length, { c with sent := c.sent ++ [msg] })

/-! ## Session engine -/

structure Joke where
  setup : List Nat
  punch : List Nat
deriving DecidableEq

inductive State where
  | WAIT_WHO
  | WAIT_WHO_SETUP
  | WAIT_CONTINUE
deriving DecidableEq

/-- Process-wide counters `g_active` and `g_served_sessions`. -/
structure Globals where
  g_active : Int
  g_served_sessions : Int
deriving DecidableEq

/-- Local variables of `client_worker` that change during the loop. -/
structure Vars where
  idx : Nat
  st : State
  conn : Conn

/-- How one pass through the body of the `while` loop ends: `continue`
(or falling off the end of the body), `break`, `goto done`, or an
out-of-range access `jokes[order[idx]]` (undefined behaviour in C++). -/
inductive Flow where
  | next
  | brk
  | done
  | ub
deriving DecidableEq

def msgKnock : List Nat := bytes "Server: Knock knock!\n"

def msgAnother : List Nat := bytes "Server: Would you like to listen to another? (Y/N)\n"

def msgNoMore : List Nat := bytes "Server: I have no more jokes to tell.\n"

/-- The literal `" Let’s try again.\n"` of server.cpp 154; the apostrophe is
U+2019, bytes `E2 80 99` in the source file. -/
def litTryAgain : List Nat := bytes " Let" ++ [0xE2, 0x80, 0x99] ++ bytes "s try again.\n"

/-- The literal `"You are supposed to say, \"Who’s there?\""` of server.cpp
172; the apostrophe is U+2019, bytes `E2 80 99` in the source file. -/
def litSayWhosThere : List Nat :=
  bytes "You are supposed to say, \"Who" ++ [0xE2, 0x80, 0x99] ++ bytes "s there?\""

/-- Lambda `restart_joke` (server.cpp 153-157): both results of `send_all`
are discarded. -/
def restart_joke (v : Vars) (correction : List Nat) : Vars :=
  let c1 := (send_all v.conn (bytes "Server: " ++ correction ++ litTryAgain)).2
  let c2 := (send_all c1 msgKnock).2
  { v with conn := c2, st := State.WAIT_WHO }

/-- Body of the `while` loop of `client_worker` (server.cpp 163-204). -/
def loop_body (jokes : List Joke) (order : List Nat) (v : Vars) : Flow × Vars :=
  match order[v.idx]? >>= (jokes[·]?) with
  | none => (Flow.ub, v)
  | some J =>
    match recv_line v.conn.inbound with
    | (none, rest) => (Flow.brk, { v with conn := { v.conn with inbound := rest } })
    | (some line, rest) =>
      let v := { v with conn := { v.conn with inbound := rest } }
      let inp := trim line
      if inp = [] then (Flow.next, v)
      else
        match v.st with
        | State.WAIT_WHO =>
          if !is_whos_there inp then (Flow.next, restart_joke v litSayWhosThere)
          else
            let r := send_all v.conn (bytes "Server: " ++ J.setup ++ bytes ".\n")
            if !r.1 then (Flow.brk, { v with conn := r.2 })
            else (Flow.next, { v with conn := r.2, st := State.WAIT_WHO_SETUP })
        | State.WAIT_WHO_SETUP =>
          if !is_setup_who inp J.setup then
            (Flow.next,
              restart_joke v (bytes "You are supposed to say, \"" ++ J.setup ++ bytes " who?\""))
          else
            let r := send_all v.conn (bytes "Server: " ++ J.punch ++ bytes "\n")
            if !r.1 then (Flow.brk, { v with conn := r.2 })
            else
              let r := send_all r.2 msgAnother
              if !r.1 then (Flow.brk, { v with conn := r.2 })
              else (Flow.next, { v with conn := r.2, st := State.WAIT_CONTINUE })
        | State.WAIT_CONTINUE =>
          if is_yes inp then
            let v := { v with idx := v.idx + 1 }
            if v.idx ≥ order.length then (Flow.brk, v)
            else
              let r := send_all v.conn msgKnock
              if !r.1 then (Flow.brk, { v with conn := r.2 })
              else (Flow.next, { v with conn := r.2, st := State.WAIT_WHO })
          else (Flow.done, v)

/-- One evaluation of the loop condition `g_running && idx < order.size()`
(server.cpp 162) followed, when it holds, by the body.  `running` is the value
of `g_running` read by this evaluation. -/
def loop_step (jokes : List Joke) (order : List Nat) (running : Bool) (v : Vars) : Flow × Vars :=
  if running && decide (v.idx < order.length) then loop_body jokes order v
  else (Flow.brk, v)

/-- The `while` loop of `client_worker` (server.cpp 162-205).  `running k` is
the value of `g_running` read by the `k`-th evaluation of the loop condition;
`iter` counts the evaluations made so far.  The result is `none` only when
`fuel` passes were not enough. -/
def loop (jokes : List Joke) (order : List Nat) (running : Nat → Bool) :
    Nat → Nat → Vars → Option (Flow × Vars)
  | 0, _, _ => none
  | fuel + 1, iter, v =>
    match loop_step jokes order (running iter) v with
    | (Flow.next, v) => loop jokes order running fuel (iter + 1) v
    | r => some r

/-- Label `done` of `client_worker` (server.cpp 212-215): close the socket,
`g_active--`, `g_served_sessions++`. -/
def finish (g : Globals) (c : Conn) : Globals × Conn :=
  ({ g_active := g.g_active - 1, g_served_sessions := g.g_served_sessions + 1 },
   { c with closed := true })

/-- Code between the loop and the label `done` (server.cpp 207-210). -/
def after_loop (order : List Nat) (v : Vars) : Conn :=
  if v.idx ≥ order.length then (send_all v.conn msgNoMore).2 else v.conn

/-- What a run of `client_worker` amounts to: it returns, leaving the counters
and the socket in some state; or it makes an out-of-range access; or the model
ran out of passes (which never happens, see `client_worker`). -/
inductive Run where
  | returned (g : Globals) (c : Conn)
  | undefined_behaviour
  | out_of_fuel

/-- Source `client_worker` (server.cpp 136-221) for a session whose shuffled
index vector is `order`.  `g` holds the counters as the session finds them.
Every pass of the loop that continues has consumed at least one inbound byte,
so `inbound.length + 1` passes always suffice (`client_worker_fuel_suffices`). -/
def client_worker (jokes : List Joke) (order : List Nat) (running : Nat → Bool)
    (g : Globals) (cfd : Conn) : Run :=
  let g := { g with g_active := g.g_active + 1 }
  let r := send_all cfd msgKnock
  if !r.1 then Run.returned (finish g r.2).1 (finish g r.2).2
  else
    match loop jokes order running (cfd.inbound.length + 1) 0
        { idx := 0, st := State.WAIT_WHO, conn := r.2 } with
    | none => Run.out_of_fuel
    | some (Flow.ub, _) => Run.undefined_behaviour
    | some (Flow.done, v) => Run.returned (finish g v.conn).1 (finish g v.conn).2
    | some (_, v) =>
      Run.returned (finish g (after_loop order v)).1 (finish g (after_loop order v)).2

/-! ## Signals -/

/-- What one call of `send_all` comes to, seen from the process.  `::send` is
called with flags 0 (server.cpp 47) and `main` installs a handler for SIGINT
only (server.cpp 243), so SIGPIPE keeps its default action: when the peer has
gone and the kernel raises SIGPIPE, the process ends inside `::send` and
`send_all` does not return. -/
inductive SendResult where
  /-- Every byte went out: `send_all` returns `true`. -/
  | sent
  /-- The call `::send` returned `n <= 0` without a signal: `send_all` returns `false`. -/
  | failed
  /-- SIGPIPE is raised inside `::send`: the process is terminated. -/
  | sigpipe
deriving DecidableEq

/-- The first of the calls `0 .. calls-1` of `send_all` on which SIGPIPE is
raised. -/
def first_sigpipe (res : Nat → SendResult) (calls : Nat) : Option Nat :=
  (List.range calls).find? (fun k => decide (res k = SendResult.sigpipe))

/-- What becomes of the process during one run of `client_worker`: the worker
returns; or the process is terminated by SIGPIPE inside a call of `send_all`,
with the counters as they stand at that moment and the messages handed to
`send_all` up to and including that call; or an out-of-range access; or the
model ran out of passes. -/
inductive Proc where
  | returned (g : Globals) (c : Conn)
  | killed (g : Globals) (sent : List (List Nat))
  | undefined_behaviour
  | out_of_fuel

/-- Source `client_worker` (server.cpp 136-221) with the signal taken into
account; `res k` is what the `k`-th call of `send_all` comes to.  Up to the
first call on which SIGPIPE is raised the worker runs as `client_worker` does
when that call is taken to return `false`, so the process is terminated
exactly when one of the calls that run makes raises SIGPIPE, at the first of
them: `g_active` has been incremented (line 137) and the label `done`
(lines 212-215) is never reached.  Otherwise every call returns and the run is
the run of `client_worker`. -/
def client_worker_proc (jokes : List Joke) (order : List Nat) (running : Nat → Bool)
    (res : Nat → SendResult) (g : Globals) (inbound : List Nat) : Proc :=
  match client_worker jokes order running g
      { inbound := inbound, sendOk := fun k => decide (res k = SendResult.sent), sent := [],
        closed := false } with
  | Run.returned g1 c =>
    match first_sigpipe res c.sent.length with
    | some k => Proc.killed { g with g_active := g.g_active + 1 } (c.sent.take (k + 1))
    | none => Proc.returned g1 c
  | Run.undefined_behaviour => Proc.undefined_behaviour
  | Run.out_of_fuel => Proc.out_of_fuel

/-- The outcomes of the calls of `send_all` when the peer closes after its
first line: the opening prompt and the next message go out, and the call after
that raises SIGPIPE. -/
def peerGone (k : Nat) : SendResult :=
  if k < 2 then SendResult.sent else SendResult.sigpipe

/-! ## Joke store -/

/-- Loop `while (std::getline(f, line))` seen as the list of lines it yields:
the content is cut at each `\n`; a last line without `\n` is yielded when it is
not empty. -/
def getlines_loop (cur : List Nat) : List Nat → List (List Nat)
  | [] => if cur = [] then [] else [cur]
  | c :: t => if c = 10 then cur :: getlines_loop [] t else getlines_loop (cur ++ [c]) t

/-- The lines that successive calls of `std::getline` yield for a file. -/
def getlines (content : List Nat) : List (List Nat) := getlines_loop [] content

/-- The call `line.find(ch)`; `none` stands for `npos`. -/
def find (s : List Nat) (ch : Nat) : Option Nat :=
  match s with
  | [] => none
  | c :: t => if c = ch then some 0 else (find t ch).map (· + 1)

/-- Body of the loop of `load_jokes` (server.cpp 120-126) for one line: the
joke pushed onto `jokes`, or `none` when the line is skipped. -/
def parse_line (line : List Nat) : Option Joke :=
  let line := trim line
  if line = [] ∨ line.head? = some 35 then none
  else
    match find line 124 with
    | none => none
    | some p =>
      let j : Joke := { setup := trim (substr line 0 p), punch := trim (substrFrom line (p + 1)) }
      if j.setup ≠ [] ∧ j.punch ≠ [] then some j else none

/-- The two `std::runtime_error`s thrown by `load_jokes`: "Failed to open jokes
file: ..." and "Need at least 15 jokes in jokes.txt (have n)". -/
inductive LoadError where
  | cannot_open
  | too_few (have_ : Nat)
deriving DecidableEq

/-- Source `load_jokes` (server.cpp 113-131).  The file is `none` when it cannot
be opened and otherwise its content. -/
def load_jokes (file : Option (List Nat)) : Except LoadError (List Joke) :=
  match file with
  | none => Except.error LoadError.cannot_open
  | some content =>
    let jokes := (getlines content).foldl
      (fun jokes line =>
        match parse_line line with
        | some j => jokes ++ [j]
        | none => jokes) []
    if jokes.length < 15 then Except.error (LoadError.too_few jokes.length)
    else Except.ok jokes

/-! ## Start of `main` -/

/-- System calls made by `main` before the accept loop. -/
inductive Call where
  | signal
  | socket
  | setsockopt
  | inet_pton
  | bind
  | listen
deriving DecidableEq

/-- How `main` gets to the accept loop, or does not. -/
inductive Started where
  | threw (e : LoadError)
  | exited (code : Int)
  | listening (jokes : List Joke)

/-- Source `main` from the call of `load_jokes` to `listen` (server.cpp
241-254): the calls made, in order, and the outcome.  The four flags say
whether `socket`, `inet_pton`, `bind` and `listen` succeed.  The exception of
`load_jokes` is not caught, so it ends the process at line 241. -/
def main_startup (file : Option (List Nat)) (socketOk ptonOk bindOk listenOk : Bool) :
    List Call × Started :=
  match load_jokes file with
  | Except.error e => ([], Started.threw e)
  | Except.ok jokes =>
    if !socketOk then ([Call.signal, Call.socket], Started.exited 1)
    else if !ptonOk then
      ([Call.signal, Call.socket, Call.setsockopt, Call.inet_pton], Started.exited 1)
    else if !bindOk then
      ([Call.signal, Call.socket, Call.setsockopt, Call.inet_pton, Call.bind], Started.exited 1)
    else if !listenOk then
      ([Call.signal, Call.socket, Call.setsockopt, Call.inet_pton, Call.bind, Call.listen],
        Started.exited 1)
    else
      ([Call.signal, Call.socket, Call.setsockopt, Call.inet_pton, Call.bind, Call.listen],
        Started.listening jokes)

/-! ## Sample data -/

/-- A corpus of fifteen jokes. -/
def sampleJokes : List Joke :=
  [ { setup := bytes "Boo", punch := bytes "Don't cry, it's only a joke." },
    { setup := bytes "Lettuce", punch := bytes "Lettuce in, it's cold out here!" },
    { setup := bytes "Cow says", punch := bytes "No, a cow says moo!" },
    { setup := bytes "Tank", punch := bytes "You're welcome." },
    { setup := bytes "Atch", punch := bytes "Bless you!" },
    { setup := bytes "Olive", punch := bytes "Olive you too." },
    { setup := bytes "Nobel", punch := bytes "Nobel, that's why I knocked." },
    { setup := bytes "Harry", punch := bytes "Harry up and open the door." },
    { setup := bytes "Ice cream", punch := bytes "Ice cream if you don't let me in." },
    { setup := bytes "Justin", punch := bytes "Justin time for dinner." },
    { setup := bytes "Canoe", punch := bytes "Canoe help me with my homework?" },
    { setup := bytes "Orange", punch := bytes "Orange you glad to see me?" },
    { setup := bytes "Water", punch := bytes "Water you doing in my house?" },
    { setup := bytes "Annie", punch := bytes "Annie thing you can do, I can do better." },
    { setup := bytes "Dozen", punch := bytes "Dozen anybody want to let me in?" } ]

/-- One outcome of the shuffle for `sampleJokes`. -/
def sampleOrder : List Nat := [3, 0, 14, 7, 1, 12, 5, 9, 2, 11, 6, 13, 4, 10, 8]

/-- A session on `sampleJokes` at joke `idx` in state `st`, with `inbound`
still to come from the peer, nothing sent yet, and every `send_all` reporting
`ok`. -/
def sampleVars (idx : Nat) (st : State) (inbound : List Nat) (ok : Bool) : Vars :=
  { idx := idx, st := st,
    conn := { inbound := inbound, sendOk := fun _ => ok, sent := [], closed := false } }

/-! ## The specification's wording, for comparison with the code -/

/-- The correction for `WAIT_WHO` as the specification prints it (ASCII
apostrophes), without the line terminator. -/
def specCorrectionWho : List Nat :=
  bytes "Server: You are supposed to say, \"Who's there?\" Let's try again."

/-- The correction for `WAIT_WHO_SETUP` as the specification prints it (ASCII
apostrophe), without the line terminator. -/
def specCorrectionSetup (setup : List Nat) : List Nat :=
  bytes "Server: You are supposed to say, \"" ++ setup ++ bytes " who?\" Let's try again."

/-- The text before the first `|` of a line and the text after it; `none` when
the line has no `|`. -/
def splitBar (line : List Nat) : Option (List Nat × List Nat) :=
  if 124 ∈ line then
    some (line.takeWhile (· != 124), (line.dropWhile (· != 124)).drop 1)
  else none

/-- A blank line: nothing but whitespace. -/
def isBlank (line : List Nat) : Bool := line.all isspace

/-- A comment line in the specification's words: its first character is `#`. -/
def specComment (line : List Nat) : Bool := line.head? == some 35

/-- A comment line as the code sees it: the first character that is left
after trimming is `#`. -/
def trimmedComment (line : List Nat) : Bool := (trim line).head? == some 35

/-- The entry a line contributes when `comment` says which lines are comments:
none for a blank line, a comment or a line without `|`; otherwise the pair
(trim of the text before the first `|`, trim of the text after it) when both
are non-empty. -/
def lineEntry (comment : List Nat → Bool) (line : List Nat) : Option Joke :=
  if isBlank line || comment line then none
  else
    match splitBar line with
    | none => none
    | some (a, b) =>
      if trim a ≠ [] ∧ trim b ≠ [] then some { setup := trim a, punch := trim b } else none

/-- The corpus described by §4.1: the entries of the lines, in source order. -/
def corpusOf (comment : List Nat → Bool) (lines : List (List Nat)) : List Joke :=
  lines.filterMap (lineEntry comment)

/-- A file with one line `SETUP|PUNCHLINE` per joke of `sampleJokes`. -/
def sampleFile : List Nat :=
  sampleJokes.flatMap (fun j => j.setup ++ [124] ++ j.punch ++ [10])

/-- Fifteen lines ` #a|b`, each starting with a space. -/
def indentedHashFile : List Nat := (List.range 15).flatMap (fun _ => bytes " #a|b\n")

/-- The file `sampleFile` preceded by the line ` #a|b`. -/
def sampleFileWithIndentedHash : List Nat := bytes " #a|b\n" ++ sampleFile

/-! ## A client that answers every prompt as expected -/

/-- The lines the server sends for one joke that is told to the end. -/
def roundLines (J : Joke) : List (List Nat) :=
  [msgKnock, bytes "Server: " ++ J.setup ++ bytes ".\n", bytes "Server: " ++ J.punch ++ bytes "\n",
    msgAnother]

/-- The three replies of a client to one joke, without line terminators. -/
structure Replies where
  who : List Nat
  setupWho : List Nat
  again : List Nat
deriving DecidableEq

/-- The bytes of the three replies on the wire, each followed by a newline. -/
def Replies.wire (r : Replies) : List Nat :=
  r.who ++ 10 :: (r.setupWho ++ 10 :: (r.again ++ [10]))

/-- A reply that `recv_line` returns whole and that the worker does not skip:
no newline inside, at most 4096 bytes, not empty after `trim`. -/
def isReplyLine (l : List Nat) : Bool :=
  !l.contains 10 && decide (l.length ≤ 4096) && !(trim l == [])

/-- The three replies are accepted at each step for the joke `J`. -/
def accepted (J : Joke) (r : Replies) : Bool :=
  isReplyLine r.who && is_whos_there (trim r.who) &&
  isReplyLine r.setupWho && is_setup_who (trim r.setupWho) J.setup &&
  isReplyLine r.again && is_yes (trim r.again)

/-- The replies `r` are accepted for the joke of corpus index `i`. -/
def acceptedAt (jokes : List Joke) (i : Nat) (r : Replies) : Bool :=
  match jokes[i]? with
  | some J => accepted J r
  | none => false

/-- The jokes told when the session goes through `order` entirely. -/
def told (jokes : List Joke) (order : List Nat) : List Joke := order.filterMap (jokes[·]?)

/-- The replies a well-behaved client gives to the joke `J`. -/
def goodReplies (J : Joke) : Replies :=
  { who := bytes "Who's there?", setupWho := J.setup ++ bytes " who?", again := bytes "yes" }

/-- The replies of a well-behaved client to the jokes of `sampleJokes` taken
in the order `sampleOrder`. -/
def sampleReplies : List Replies := (told sampleJokes sampleOrder).map goodReplies

/-! ## Auxiliary definitions used in the proofs -/

/-- Trailing part of `trim`: what is kept when only the end is cut. -/
def rtrim (s : List Nat) : List Nat :=
  match find_last_not_of s with
  | none => []
  | some e => s.take (e + 1)

/-- The part of `normalize` that deals with quotes and whitespace, without the
first `trim` and without the lowercasing. -/
def squeeze (s : List Nat) : List Nat := trim (collapse false (mapQuotes s))

/-- Every byte of `w` is whitespace for `std::isspace`. -/
def AllSpace (w : List Nat) : Prop := ∀ c ∈ w, isspace c = true

/-! ## Order of the jokes within a session -/

/-- The call `std::iota(order.begin(), order.end(), 0)` on a vector of size `n`. -/
def iota (n : Nat) : List Nat := List.range n

/-- The call `std::iter_swap` on the positions `i` and `j` of `v`; both are in
range whenever `shuffle` calls it. -/
def iter_swap (v : List Nat) (i j : Nat) : List Nat :=
  match v[i]?, v[j]? with
  | some a, some b => (v.set i b).set j a
  | _, _ => v

/-- The call `std::shuffle(order.begin(), order.end(), rng)`, a library
function: for `i = 1, ..., n - 1` it swaps the element at position `i` with the
element at a position drawn in `[0, i]`.  `draw i` is the number the generator
delivers at step `i`; it is reduced to the range `[0, i]`. -/
def shuffle (draw : Nat → Nat) (v : List Nat) : List Nat :=
  (List.range' 1 (v.length - 1)).foldl (fun acc i => iter_swap acc i (draw i % (i + 1))) v

/-- The vector `order` that `client_worker` builds (server.cpp 145-148) when
the generator of the session delivers the numbers `draw`. -/
def session_order (draw : Nat → Nat) (jokes : List Joke) : List Nat :=
  shuffle draw (iota jokes.length)

/-- The vector `order` of a session whose generator was seeded with `seed`
(server.cpp 147): `gen seed` is the sequence of numbers that `std::mt19937`,
constructed from `seed`, delivers to `std::shuffle`; it depends on the seed
alone.  The seed is one value of `std::random_device`, below `2 ^ 32`. -/
def seeded_order (gen : Nat → Nat → Nat) (seed : Nat) (jokes : List Joke) : List Nat :=
  session_order (gen seed) jokes

/-! ## Accept loop of `main` -/

/-- Largest value of the 32-bit `int` in which `idle_ms` is kept. -/
def INT_MAX : Int := 2147483647

/-- The two options `--expected` and `--idle-exit-ms` as `main` stores them;
`-1` when the option is not given. -/
structure Config where
  g_expected_sessions : Int
  g_idle_exit_ms : Int
deriving DecidableEq

/-- What one pass of the accept loop reads from outside: `g_running` in the
loop condition (server.cpp 270), `g_served_sessions` at line 272, `g_active`
at line 273, whether `select` reports a connection (`rv > 0`), whether
`accept` then returns a socket (`cfd >= 0`), and `g_active` at line 292. -/
structure Tick where
  running : Bool
  served : Int
  active : Int
  ready : Bool
  accepted : Bool
  active_late : Int
deriving DecidableEq

/-- Local state of the accept loop: the accumulator `idle_ms`, the number of
calls of `select` made so far and the number of workers launched so far
(the size of `workers`). -/
structure AcceptVars where
  idle_ms : Int
  selects : Nat
  workers : Nat
deriving DecidableEq

/-- Lines 273-277 of server.cpp: `none` when the `break` is taken, otherwise
the value of `idle_ms` after the test. -/
def idle_check (cfg : Config) (t : Tick) (idle_ms : Int) : Option Int :=
  if cfg.g_idle_exit_ms > 0 ∧ t.active = 0 then
    if idle_ms ≥ cfg.g_idle_exit_ms then none else some idle_ms
  else some 0

/-- How one pass of the accept loop ends: the body ran to its end; the loop
was left (condition false or `break`); or `idle_ms += 200` went beyond
`INT_MAX` (signed overflow, undefined behaviour in C++). -/
inductive Pass where
  | again (s : AcceptVars)
  | stop (s : AcceptVars)
  | overflow
deriving DecidableEq

/-- One pass of the accept loop of `main` (server.cpp 270-294). -/
def accept_pass (cfg : Config) (t : Tick) (s : AcceptVars) : Pass :=
  if !t.running then Pass.stop s
  else if cfg.g_expected_sessions ≥ 0 ∧ t.served ≥ cfg.g_expected_sessions then Pass.stop s
  else
    match idle_check cfg t s.idle_ms with
    | none => Pass.stop s
    | some idle =>
      let s := { s with idle_ms := idle, selects := s.selects + 1 }
      if t.ready then
        if t.accepted then Pass.again { s with workers := s.workers + 1 }
        else Pass.again s
      else if cfg.g_idle_exit_ms > 0 ∧ t.active_late = 0 then
        if s.idle_ms + 200 > INT_MAX then Pass.overflow
        else Pass.again { s with idle_ms := s.idle_ms + 200 }
      else Pass.again s

/-- How the accept loop stands after a series of passes: it was left; it
overflowed; or it is still looping after the passes described. -/
inductive Ended where
  | stopped (s : AcceptVars)
  | overflow
  | looping (s : AcceptVars)
deriving DecidableEq

/-- The accept loop of `main` over the passes described by `ticks`. -/
def accept_loop (cfg : Config) : List Tick → AcceptVars → Ended
  | [], s => Ended.looping s
  | t :: ts, s =>
    match accept_pass cfg t s with
    | Pass.again s => accept_loop cfg ts s
    | Pass.stop s => Ended.stopped s
    | Pass.overflow => Ended.overflow

/-- A pass on which `g_running` is set, no session is active and no connection
arrives. -/
def isIdleTick (t : Tick) : Bool :=
  t.running && decide (t.active = 0) && !t.ready && decide (t.active_late = 0)

/-- A pass as `isIdleTick` describes. -/
def idleTick : Tick :=
  { running := true, served := 0, active := 0, ready := false, accepted := false,
    active_late := 0 }

/-- The number `ceil(D / 200)` for `D > 0`. -/
def ceilTicks (D : Int) : Nat := ((D + 199) / 200).toNat

/-! ## Normalization in the specification's words, and patterns -/

/-- Trimming in the specification's words: whitespace (`std::isspace`) is cut
from both ends. -/
def specTrim (s : List Nat) : List Nat := (s.dropWhile isspace).rdropWhile isspace

/-- Collapsing in the specification's words: every run of whitespace
characters becomes a single space. -/
def specCollapse : List Nat → List Nat
  | [] => []
  | c :: t =>
    if isspace c then 32 :: specCollapse (t.dropWhile isspace) else c :: specCollapse t
termination_by l => l.length
decreasing_by
  · have := (List.dropWhile_suffix (l := t) isspace).length_le
    simp only [List.length_cons]
    omega
  · simp

/-- Normalization as §4.2 describes it: trim, map the quotes, collapse runs of
whitespace, lowercase, trim again. -/
def specNormalize (s : List Nat) : List Nat :=
  specTrim ((specCollapse (mapQuotes (specTrim s))).map tolower)

/-- The list starts with the UTF-8 encoding of U+2018 or of U+2019. -/
def curlyAt : List Nat → Bool
  | a :: b :: c :: _ => a == 0xE2 && b == 0x80 && (c == 0x98 || c == 0x99)
  | _ => false

/-- The list starts with two spaces. -/
def doubleAt : List Nat → Bool
  | a :: b :: _ => a == 32 && b == 32
  | _ => false

/-- No suffix of the list starts in the way `bad` describes. -/
def NoPat (bad : List Nat → Bool) : List Nat → Prop
  | [] => True
  | a :: t => bad (a :: t) = false ∧ NoPat bad t

end JokeServer

namespace MatrixOp

/-!
# Matrix service: a shallow embedding of `pds_assignment_2/matrixOp_server.c`

The header `matrixOp.h` is generated and not part of the sources: the two
constants `MAX_MATRIX_ELEMENTS` and `ERROR_MESSAGE_LEN` it defines are
parameters (`MAX`, `LEN`) of the functions below, and the XDR types `matrix`,
`matrix_pair` and `matrix_result` are written after the way the server uses
their fields.  The element type `double` is a parameter `D`; transposition
only copies elements and addition applies a given operation `add` (the
addition of `double`) to two of them.
-/

/-- A value of `u_int` (32 bits) from the exact result of an operation. -/
def u32 (n : Nat) : Nat := n % 2 ^ 32

/-- A value of `unsigned long long` (64 bits) from the exact result of an
operation. -/
def u64 (n : Nat) : Nat := n % 2 ^ 64

/-- XDR type `matrix`: `rows`, `cols` and the array `data`, given by its length
`data_len` and its buffer `data_val` (`none` for `NULL`). -/
structure matrix (D : Type) where
  rows : Nat
  cols : Nat
  data_len : Nat
  data_val : Option (List D)

/-- XDR type `matrix_pair`. -/
structure matrix_pair (D : Type) where
  a : matrix D
  b : matrix D

/-- The static `result` together with the two static buffers it points to:
`status`, `value.rows`, `value.cols`, `value.data.data_len`, the string in
`message_buffer`, and the content of `result_buffer` (server.c 11-13). -/
structure matrix_result (D : Type) where
  status : Int
  rows : Nat
  cols : Nat
  data_len : Nat
  message : List Nat
  result_buffer : List D

/-- The elements of the returned matrix: the first `data_len` elements of
`result_buffer`, to which `value.data.data_val` points. -/
def matrix_result.data {D : Type} (r : matrix_result D) : List D :=
  r.result_buffer.take r.data_len

/-- Decimal digits of a number, as printed by `%u` and `%d`. -/
def dec (n : Nat) : List Nat := (Nat.toDigits 10 n).map Char.toNat

/-- The call `vsnprintf(message_buffer, ERROR_MESSAGE_LEN, ...)`: at most
`LEN - 1` bytes of the formatted text are stored before the terminator. -/
def vsnprintf (LEN : Nat) (formatted : List Nat) : List Nat := formatted.take (LEN - 1)

/-- Source `prepare_result` (server.c 15-25); `result_buffer` keeps what the
previous call left in it. -/
def prepare_result {D : Type} (result_buffer : List D) : matrix_result D :=
  { status := 0, rows := 0, cols := 0, data_len := 0, message := [],
    result_buffer := result_buffer }

/-- Source `set_error` (server.c 27-40); `formatted` is the text that the
format and its arguments give. -/
def set_error {D : Type} (LEN : Nat) (result : matrix_result D) (status : Int)
    (formatted : List Nat) : matrix_result D :=
  { result with status := status, rows := 0, cols := 0, data_len := 0,
                message := vsnprintf LEN formatted }

/-- Source `ensure_valid_matrix` (server.c 42-75); the matrix is `none` for a
`NULL` pointer.  The result is the returned `bool` and the static result. -/
def ensure_valid_matrix {D : Type} (MAX LEN : Nat) (result : matrix_result D)
    (m : Option (matrix D)) (name : List Nat) : Bool × matrix_result D :=
  match m with
  | none => (false, set_error LEN result 1 (name ++ JokeServer.bytes " is missing"))
  | some m =>
    if m.rows = 0 ∨ m.cols = 0 then
      (false, set_error LEN result 1 (name ++ JokeServer.bytes " must have positive dimensions"))
    else
      let expected := u64 (m.rows * m.cols)
      if expected = 0 ∨ expected > MAX then
        (false, set_error LEN result 1
          (name ++ JokeServer.bytes " exceeds maximum supported elements (" ++ dec MAX ++
            JokeServer.bytes ")"))
      else if m.data_len ≠ expected then
        (false, set_error LEN result 1
          (name ++ JokeServer.bytes " payload size (" ++ dec m.data_len ++
            JokeServer.bytes ") does not match " ++ dec m.rows ++ JokeServer.bytes " x " ++
            dec m.cols ++ JokeServer.bytes " matrix"))
      else if m.data_val.isNone ∧ expected > 0 then
        (false, set_error LEN result 1 (name ++ JokeServer.bytes " data buffer is missing"))
      else (true, result)

/-- Source `write_success_matrix` (server.c 77-85). -/
def write_success_matrix {D : Type} (result : matrix_result D) (rows cols elements : Nat) :
    matrix_result D :=
  { result with status := 0, rows := rows, cols := cols, data_len := elements, message := [] }

/-- The assignment `result_buffer[idx] = x`; `none` when `idx` is outside the
buffer (undefined behaviour in C). -/
def store {D : Type} (buf : List D) (idx : Nat) (x : D) : Option (List D) :=
  if idx < buf.length then some (buf.set idx x) else none

/-- Loop of `matrix_add_1_svc` (server.c 112-114); `none` for an access
outside one of the three buffers. -/
def add_loop {D : Type} (add : D → D → D) (elements : Nat) (a b : List D) (buf : List D) :
    Option (List D) :=
  (List.range elements).foldlM
    (fun buf i =>
      match a[i]?, b[i]? with
      | some x, some y => store buf i (add x y)
      | _, _ => none) buf

/-- Source `matrix_add_1_svc` (server.c 87-118).  `result_buffer` is the content
of the static buffer when the call starts; the result is `none` when the loop
leaves a buffer or dereferences `NULL`. -/
def matrix_add_1_svc {D : Type} (MAX LEN : Nat) (add : D → D → D) (result_buffer : List D)
    (argp : matrix_pair D) : Option (matrix_result D) :=
  let result := prepare_result result_buffer
  let va := ensure_valid_matrix MAX LEN result (some argp.a) (JokeServer.bytes "Matrix A")
  if !va.1 then some va.2
  else
    let vb := ensure_valid_matrix MAX LEN va.2 (some argp.b) (JokeServer.bytes "Matrix B")
    if !vb.1 then some vb.2
    else if argp.a.rows ≠ argp.b.rows ∨ argp.a.cols ≠ argp.b.cols then
      some (set_error LEN vb.2 1 (JokeServer.bytes "Matrix dimensions must match for addition"))
    else
      let elements := u32 (argp.a.rows * argp.a.cols)
      match argp.a.data_val, argp.b.data_val with
      | some a, some b =>
        match add_loop add elements a b vb.2.result_buffer with
        | some buf =>
          some (write_success_matrix { vb.2 with result_buffer := buf } argp.a.rows argp.a.cols
            elements)
        | none => none
      | _, _ => none

/-- The two nested loops of `matrix_transpose_1_svc` (server.c 189-193); `none`
for an access outside one of the two buffers. -/
def transpose_loops {D : Type} (rows cols : Nat) (input : List D) (buf : List D) :
    Option (List D) :=
  (List.range rows).foldlM
    (fun buf i =>
      (List.range cols).foldlM
        (fun buf j =>
          match input[u32 (i * cols + j)]? with
          | some x => store buf (u32 (j * rows + i)) x
          | none => none) buf) buf

/-- Source `matrix_transpose_1_svc` (server.c 171-198). -/
def matrix_transpose_1_svc {D : Type} (MAX LEN : Nat) (result_buffer : List D)
    (argp : Option (matrix D)) : Option (matrix_result D) :=
  let result := prepare_result result_buffer
  let v := ensure_valid_matrix MAX LEN result argp (JokeServer.bytes "Matrix")
  if !v.1 then some v.2
  else
    match argp with
    | none => none
    | some m =>
      let rows := m.rows
      let cols := m.cols
      match m.data_val with
      | none => none
      | some input =>
        match transpose_loops rows cols input v.2.result_buffer with
        | some buf =>
          some (write_success_matrix { v.2 with result_buffer := buf } cols rows
            (u32 (rows * cols)))
        | none => none

/-- A valid operand in the words of the claims: positive dimensions, at most
`MAX` elements, a payload length that matches, and a data buffer. -/
def validMatrix {D : Type} (MAX : Nat) (m : matrix D) : Prop :=
  0 < m.rows ∧ 0 < m.cols ∧ m.rows * m.cols ≤ MAX ∧ m.data_len = m.rows * m.cols ∧
    m.data_val.isSome = true

/-- The matrix a client sends back after it received `r`. -/
def matrix_result.value {D : Type} (r : matrix_result D) : matrix D :=
  { rows := r.rows, cols := r.cols, data_len := r.data_len, data_val := some r.data }

/-- The 2 x 3 matrix with the entries 1, 2, 3 / 4, 5, 6 (integers standing for
the doubles of the same value). -/
def sampleMatrix : matrix Int :=
  { rows := 2, cols := 3, data_len := 6, data_val := some [1, 2, 3, 4, 5, 6] }

/-- The 2 x 3 matrix with the entries 10, 20, 30 / 40, 50, 60. -/
def sampleMatrixB : matrix Int :=
  { rows := 2, cols := 3, data_len := 6, data_val := some [10, 20, 30, 40, 50, 60] }

end MatrixOp

namespace JokeServer

/-! ## Facts about `trim` -/

theorem find_first_none_iff (s : List Nat) :
    find_first_not_of s = none ↔ ∀ c ∈ s, isTrimChar c = true := by
  induction s with
  | nil => simp [find_first_not_of]
  | cons c t ih =>
    by_cases h : isTrimChar c = true
    · simp [find_first_not_of, h, ih]
    · simp [find_first_not_of, h]

theorem find_last_none_iff (s : List Nat) :
    find_last_not_of s = none ↔ ∀ c ∈ s, isTrimChar c = true := by
  induction s with
  | nil => simp [find_last_not_of]
  | cons c t ih =>
    cases hl : find_last_not_of t with
    | none =>
      have ht := ih.mp hl
      by_cases h : isTrimChar c = true
      · simp only [find_last_not_of, hl, h, if_true, true_iff]
        intro x hx
        rcases List.mem_cons.mp hx with rfl | hx
        · exact h
        · exact ht x hx
      · simp [find_last_not_of, hl, h]
    | some i =>
      have : ¬ ∀ c ∈ t, isTrimChar c = true := fun hh => by
        rw [ih.mpr hh] at hl; cases hl
      simp only [find_last_not_of, hl]
      constructor
      · intro h; cases h
      · intro h; exact absurd (fun x hx => h x (List.mem_cons_of_mem _ hx)) this

/-- When the first search succeeds so does the second (same set of bytes). -/
theorem find_last_some_of_first (s : List Nat) (b : Nat) (h : find_first_not_of s = some b) :
    ∃ e, find_last_not_of s = some e := by
  cases hl : find_last_not_of s with
  | some e => exact ⟨e, rfl⟩
  | none =>
    rw [(find_first_none_iff s).mpr ((find_last_none_iff s).mp hl)] at h
    cases h

theorem find_last_lt (s : List Nat) (e : Nat) (h : find_last_not_of s = some e) :
    e < s.length := by
  induction s generalizing e with
  | nil => simp [find_last_not_of] at h
  | cons c t ih =>
    cases hl : find_last_not_of t with
    | none =>
      simp only [find_last_not_of, hl] at h
      split at h
      · cases h
      · cases h; simp
    | some i =>
      simp only [find_last_not_of, hl] at h
      cases h
      simpa using ih i hl

theorem rtrim_cons (c : Nat) (t : List Nat) :
    rtrim (c :: t) = if rtrim t = [] ∧ isTrimChar c = true then [] else c :: rtrim t := by
  cases hl : find_last_not_of t with
  | none =>
    by_cases h : isTrimChar c = true
    · simp [rtrim, find_last_not_of, hl, h]
    · simp [rtrim, find_last_not_of, hl, h]
  | some i =>
    have hlt := find_last_lt t i hl
    have : t.take (i + 1) ≠ [] := by
      intro h0
      have hlen : (t.take (i + 1)).length = i + 1 := by
        rw [List.length_take]; omega
      rw [h0] at hlen
      simp at hlen
    simp [rtrim, find_last_not_of, hl, this]

theorem trim_cons_ws (c : Nat) (t : List Nat) (h : isTrimChar c = true) :
    trim (c :: t) = trim t := by
  cases hf : find_first_not_of t with
  | none => simp [trim, find_first_not_of, h, hf]
  | some b =>
    obtain ⟨e, he⟩ := find_last_some_of_first t b hf
    simp [trim, find_first_not_of, find_last_not_of, h, hf, he, substr]

theorem trim_cons_not_ws (c : Nat) (t : List Nat) (h : isTrimChar c = false) :
    trim (c :: t) = c :: rtrim t := by
  cases hl : find_last_not_of t with
  | none => simp [trim, rtrim, find_first_not_of, find_last_not_of, h, hl, substr]
  | some i => simp [trim, rtrim, find_first_not_of, find_last_not_of, h, hl, substr]

theorem rtrim_eq_rdropWhile (s : List Nat) : rtrim s = s.rdropWhile isTrimChar := by
  induction s using List.reverseRecOn with
  | nil => simp [rtrim, find_last_not_of]
  | append_singleton l a ih =>
    rw [List.rdropWhile_concat, ← ih]
    clear ih
    induction l with
    | nil =>
      by_cases h : isTrimChar a = true
      · simp [rtrim, find_last_not_of, h]
      · simp [rtrim, find_last_not_of, h]
    | cons c t ih2 =>
      rw [List.cons_append, rtrim_cons, ih2, rtrim_cons]
      by_cases h : isTrimChar a = true
      · simp [h]
      · simp [h]

/-- Source `trim` cuts the longest prefix and the longest suffix made of
bytes of `" \t\r\n"`. -/
theorem trim_eq (s : List Nat) :
    trim s = (s.dropWhile isTrimChar).rdropWhile isTrimChar := by
  induction s with
  | nil => simp [trim, find_first_not_of]
  | cons c t ih =>
    by_cases h : isTrimChar c = true
    · rw [trim_cons_ws c t h, ih, List.dropWhile_cons_of_pos h]
    · have h' : isTrimChar c = false := by simpa using h
      rw [trim_cons_not_ws c t h', List.dropWhile_cons_of_neg h, rtrim_eq_rdropWhile,
        ← rtrim_eq_rdropWhile (c :: t), rtrim_cons, rtrim_eq_rdropWhile]
      simp [h']

theorem rtrim_append_ws (s : List Nat) (c : Nat) (h : isTrimChar c = true) :
    rtrim (s ++ [c]) = rtrim s := by
  rw [rtrim_eq_rdropWhile, rtrim_eq_rdropWhile, List.rdropWhile_concat_pos _ _ _ h]

theorem trim_append_ws (s : List Nat) (c : Nat) (h : isTrimChar c = true) :
    trim (s ++ [c]) = trim s := by
  induction s with
  | nil => rw [List.nil_append, trim_cons_ws c [] h]
  | cons a t ih =>
    by_cases ha : isTrimChar a = true
    · rw [List.cons_append, trim_cons_ws a _ ha, trim_cons_ws a _ ha, ih]
    · have ha' : isTrimChar a = false := by simpa using ha
      rw [List.cons_append, trim_cons_not_ws a _ ha', trim_cons_not_ws a _ ha',
        rtrim_append_ws t c h]

theorem isTrimChar_tolower (c : Nat) : isTrimChar (tolower c) = isTrimChar c := by
  rw [Bool.eq_iff_iff]
  unfold tolower
  split_ifs with h
  · simp only [isTrimChar, Bool.or_eq_true, beq_iff_eq]; omega
  · rfl

theorem isspace_tolower (c : Nat) : isspace (tolower c) = isspace c := by
  rw [Bool.eq_iff_iff]
  unfold tolower
  split_ifs with h
  · simp only [isspace, Bool.or_eq_true, beq_iff_eq, Bool.and_eq_true, decide_eq_true_eq]; omega
  · rfl

theorem tolower_tolower (c : Nat) : tolower (tolower c) = tolower c := by
  unfold tolower
  split_ifs <;> omega

theorem isspace_of_isTrimChar (c : Nat) (h : isTrimChar c = true) : isspace c = true := by
  simp only [isTrimChar, Bool.or_eq_true, beq_iff_eq] at h
  rcases h with ((h | h) | h) | h <;> subst h <;> decide

theorem find_first_map_tolower (s : List Nat) :
    find_first_not_of (s.map tolower) = find_first_not_of s := by
  induction s with
  | nil => rfl
  | cons c t ih => simp [find_first_not_of, isTrimChar_tolower, ih]

theorem find_last_map_tolower (s : List Nat) :
    find_last_not_of (s.map tolower) = find_last_not_of s := by
  induction s with
  | nil => rfl
  | cons c t ih => simp [find_last_not_of, isTrimChar_tolower, ih]

theorem trim_map_tolower (s : List Nat) : trim (s.map tolower) = (trim s).map tolower := by
  unfold trim
  rw [find_first_map_tolower, find_last_map_tolower]
  cases find_first_not_of s with
  | none => rfl
  | some b =>
    cases find_last_not_of s with
    | none => rfl
    | some e => simp [substr, List.map_take, List.map_drop]

theorem tolower_eq_iff_of_ge (c k : Nat) (hk : 123 ≤ k) : tolower c = k ↔ c = k := by
  unfold tolower
  split <;> omega

theorem mapQuotes_map_tolower (s : List Nat) :
    mapQuotes (s.map tolower) = (mapQuotes s).map tolower := by
  induction s using mapQuotes.induct with
  | case1 => rfl
  | case2 a => rfl
  | case3 a b ih =>
    simp only [List.map_cons, List.map_nil, mapQuotes] at ih ⊢
  | case4 a b c rest h ih =>
    simp only [List.map_cons, mapQuotes]
    rw [if_pos, if_pos h, ih]
    · simp [tolower]
    · obtain ⟨ha, hb, hc⟩ := h
      subst ha hb
      rcases hc with hc | hc <;> subst hc <;> simp [tolower]
  | case5 a b c rest h ih =>
    have hneg : ¬ (tolower a = 0xE2 ∧ tolower b = 0x80 ∧
        (tolower c = 0x98 ∨ tolower c = 0x99)) := by
      rw [tolower_eq_iff_of_ge a _ (by norm_num), tolower_eq_iff_of_ge b _ (by norm_num),
        tolower_eq_iff_of_ge c _ (by norm_num), tolower_eq_iff_of_ge c _ (by norm_num)]
      exact h
    simp only [List.map_cons, mapQuotes, if_neg hneg, if_neg h] at ih ⊢
    rw [ih]

theorem collapse_map_tolower (p : Bool) (s : List Nat) :
    collapse p (s.map tolower) = (collapse p s).map tolower := by
  induction s generalizing p with
  | nil => rfl
  | cons c t ih =>
    simp only [List.map_cons, collapse, isspace_tolower]
    by_cases h : isspace c = true
    · cases p <;> simp [h, ih, tolower]
    · simp [h, ih]

/-! ## Facts about `normalize` -/

theorem not_quote_byte_of_isspace (c : Nat) (h : isspace c = true) :
    c ≠ 0xE2 ∧ c ≠ 0x80 ∧ c ≠ 0x98 ∧ c ≠ 0x99 := by
  simp only [isspace, Bool.or_eq_true, beq_iff_eq, Bool.and_eq_true, decide_eq_true_eq] at h
  omega

theorem mapQuotes_cons_of_ne (c : Nat) (s : List Nat) (h : c ≠ 0xE2) :
    mapQuotes (c :: s) = c :: mapQuotes s := by
  match s with
  | [] => rfl
  | [b] => simp [mapQuotes]
  | b :: d :: rest => simp [mapQuotes, h]

theorem mapQuotes_append_space (a : List Nat) (c : Nat) (b : List Nat)
    (h : isspace c = true) : mapQuotes (a ++ c :: b) = mapQuotes a ++ c :: mapQuotes b := by
  obtain ⟨h1, h2, h3, h4⟩ := not_quote_byte_of_isspace c h
  induction a using mapQuotes.induct with
  | case1 => simpa using mapQuotes_cons_of_ne c b h1
  | case2 x =>
    cases b with
    | nil => simp [mapQuotes]
    | cons d r =>
      simp only [List.cons_append, List.nil_append, mapQuotes]
      rw [if_neg (by intro hh; exact h2 hh.2.1), mapQuotes_cons_of_ne c (d :: r) h1]
  | case3 x y ih =>
    simp only [List.cons_append, List.nil_append, mapQuotes] at ih ⊢
    rw [if_neg (by intro hh; rcases hh.2.2 with h' | h'; exact h3 h'; exact h4 h'), ih]
  | case4 x y z rest hq ih =>
    simp only [List.cons_append, mapQuotes, if_pos hq, List.append_eq]
    rw [ih]
  | case5 x y z rest hq ih =>
    simp only [List.cons_append, mapQuotes, if_neg hq, List.append_eq] at ih ⊢
    rw [ih]

theorem mapQuotes_spaces_append (w s : List Nat) (hw : AllSpace w) :
    mapQuotes (w ++ s) = w ++ mapQuotes s := by
  induction w with
  | nil => rfl
  | cons c t ih =>
    have hc := hw c (List.mem_cons_self _ _)
    rw [List.cons_append, mapQuotes_cons_of_ne c _ (not_quote_byte_of_isspace c hc).1,
      ih (fun x hx => hw x (List.mem_cons_of_mem _ hx)), List.cons_append]

theorem mapQuotes_append_spaces (s w : List Nat) (hw : AllSpace w) :
    mapQuotes (s ++ w) = mapQuotes s ++ w := by
  cases w with
  | nil => simp
  | cons c t =>
    rw [mapQuotes_append_space s c t (hw c (List.mem_cons_self _ _))]
    have := mapQuotes_spaces_append t [] (fun x hx => hw x (List.mem_cons_of_mem _ hx))
    simp only [List.append_nil, mapQuotes] at this
    rw [this]

theorem collapse_false_eq (m : List Nat) :
    collapse false m = collapse true m ∨ collapse false m = 32 :: collapse true m := by
  cases m with
  | nil => left; rfl
  | cons c t =>
    by_cases h : isspace c = true
    · right; simp [collapse, h]
    · left; simp [collapse, h]

theorem collapse_append (p : Bool) (x : List Nat) :
    ∃ q, ∀ z, collapse p (x ++ z) = collapse p x ++ collapse q z := by
  induction x generalizing p with
  | nil => exact ⟨p, fun z => rfl⟩
  | cons c t ih =>
    by_cases h : isspace c = true
    · obtain ⟨q, hq⟩ := ih true
      refine ⟨q, fun z => ?_⟩
      cases p <;> simp [collapse, h, hq]
    · obtain ⟨q, hq⟩ := ih false
      refine ⟨q, fun z => ?_⟩
      simp [collapse, h, hq]

theorem collapse_spaces_append (p : Bool) (w y : List Nat) (hne : w ≠ []) (hw : AllSpace w) :
    collapse p (w ++ y) = (if p then [] else [32]) ++ collapse true y := by
  induction w generalizing p with
  | nil => exact absurd rfl hne
  | cons c t ih =>
    have hc := hw c (List.mem_cons_self _ _)
    have ht : AllSpace t := fun x hx => hw x (List.mem_cons_of_mem _ hx)
    cases t with
    | nil => cases p <;> simp [collapse, hc]
    | cons d r =>
      have e := ih true (by simp) ht
      rw [if_pos rfl, List.nil_append] at e
      rw [List.cons_append, collapse, if_pos hc, e]
      cases p <;> rfl

theorem collapse_spaces (p : Bool) (w : List Nat) (hw : AllSpace w) :
    collapse p w = [] ∨ collapse p w = [32] := by
  cases w with
  | nil => left; rfl
  | cons c t =>
    have := collapse_spaces_append p (c :: t) [] (by simp) hw
    simp only [List.append_nil, collapse] at this
    cases p
    · right; simpa [collapse] using this
    · left; simpa [collapse] using this

theorem isTrimChar_32 : isTrimChar 32 = true := by decide

theorem trim_collapse_true (m : List Nat) :
    trim (collapse true m) = trim (collapse false m) := by
  rcases collapse_false_eq m with h | h
  · rw [h]
  · rw [h, trim_cons_ws 32 _ isTrimChar_32]

theorem squeeze_cons_space (c : Nat) (s : List Nat) (h : isspace c = true) :
    squeeze (c :: s) = squeeze s := by
  unfold squeeze
  rw [mapQuotes_cons_of_ne c s (not_quote_byte_of_isspace c h).1]
  simp only [collapse, h, if_true]
  rw [show (if false = true then collapse true (mapQuotes s)
      else 32 :: collapse true (mapQuotes s)) = 32 :: collapse true (mapQuotes s) from rfl,
    trim_cons_ws 32 _ isTrimChar_32, trim_collapse_true]

theorem squeeze_append_spaces (s w : List Nat) (hw : AllSpace w) :
    squeeze (s ++ w) = squeeze s := by
  unfold squeeze
  rw [mapQuotes_append_spaces s w hw]
  obtain ⟨q, hq⟩ := collapse_append false (mapQuotes s)
  rw [hq w]
  rcases collapse_spaces q w hw with h | h
  · rw [h, List.append_nil]
  · rw [h, trim_append_ws _ 32 isTrimChar_32]

theorem squeeze_spaces_append (w s : List Nat) (hw : AllSpace w) :
    squeeze (w ++ s) = squeeze s := by
  induction w with
  | nil => rfl
  | cons c t ih =>
    rw [List.cons_append, squeeze_cons_space c _ (hw c (List.mem_cons_self _ _)),
      ih (fun x hx => hw x (List.mem_cons_of_mem _ hx))]

/-- Replacing a non-empty run of whitespace by another leaves `squeeze` unchanged. -/
theorem squeeze_replace_spaces (a b w w' : List Nat) (hne : w ≠ []) (hne' : w' ≠ [])
    (hw : AllSpace w) (hw' : AllSpace w') :
    squeeze (a ++ w ++ b) = squeeze (a ++ w' ++ b) := by
  have key : ∀ v : List Nat, v ≠ [] → AllSpace v →
      ∃ q : Bool, collapse false (mapQuotes (a ++ v ++ b)) =
        collapse false (mapQuotes a) ++ ((if q then [] else [32]) ++
          collapse true (mapQuotes b)) ∧
        ∀ z, collapse false (mapQuotes a ++ z) = collapse false (mapQuotes a) ++ collapse q z := by
    intro v hv hsp
    obtain ⟨q, hq⟩ := collapse_append false (mapQuotes a)
    refine ⟨q, ?_, hq⟩
    cases v with
    | nil => exact absurd rfl hv
    | cons c t =>
      rw [List.append_assoc, List.cons_append,
        mapQuotes_append_space a c (t ++ b) (hsp c (List.mem_cons_self _ _)),
        mapQuotes_spaces_append t b (fun x hx => hsp x (List.mem_cons_of_mem _ hx)),
        hq, ← List.cons_append, collapse_spaces_append q (c :: t) _ (by simp) hsp]
  obtain ⟨q, h1, hq⟩ := key w hne hw
  obtain ⟨q', h2, hq'⟩ := key w' hne' hw'
  have hqq : collapse q [32] = collapse q' [32] := by
    have e1 := hq [32]
    have e2 := hq' [32]
    rw [e1] at e2
    exact List.append_cancel_left e2
  have : q = q' := by
    cases q <;> cases q' <;> simp [collapse, isspace] at hqq ⊢
  subst this
  unfold squeeze
  rw [h1, h2]

theorem rtrim_decomp (s : List Nat) :
    ∃ q, (∀ c ∈ q, isTrimChar c = true) ∧ s = rtrim s ++ q := by
  induction s with
  | nil => exact ⟨[], by simp, by simp [rtrim, find_last_not_of]⟩
  | cons c t ih =>
    obtain ⟨q, hq, ht⟩ := ih
    rw [rtrim_cons]
    by_cases h : rtrim t = [] ∧ isTrimChar c = true
    · rw [if_pos h]
      refine ⟨c :: t, ?_, by simp⟩
      intro x hx
      rcases List.mem_cons.mp hx with rfl | hx
      · exact h.2
      · rw [ht, h.1, List.nil_append] at hx
        exact hq x hx
    · rw [if_neg h]
      exact ⟨q, hq, by rw [List.cons_append, ← ht]⟩

theorem trim_decomp (s : List Nat) :
    ∃ p q, (∀ c ∈ p, isTrimChar c = true) ∧ (∀ c ∈ q, isTrimChar c = true) ∧
      s = p ++ trim s ++ q := by
  induction s with
  | nil => exact ⟨[], [], by simp, by simp, by simp [trim, find_first_not_of]⟩
  | cons c t ih =>
    by_cases h : isTrimChar c = true
    · obtain ⟨p, q, hp, hq, ht⟩ := ih
      refine ⟨c :: p, q, ?_, hq, ?_⟩
      · intro x hx
        rcases List.mem_cons.mp hx with rfl | hx
        · exact h
        · exact hp x hx
      · rw [trim_cons_ws c t h, List.cons_append, List.cons_append, ← ht]
    · have h' : isTrimChar c = false := by simpa using h
      obtain ⟨q, hq, ht⟩ := rtrim_decomp t
      refine ⟨[], q, by simp, hq, ?_⟩
      rw [trim_cons_not_ws c t h', List.nil_append, List.cons_append, ← ht]

theorem squeeze_trim (s : List Nat) : squeeze (trim s) = squeeze s := by
  obtain ⟨p, q, hp, hq, hs⟩ := trim_decomp s
  conv_rhs => rw [hs]
  rw [squeeze_append_spaces _ q (fun c hc => isspace_of_isTrimChar c (hq c hc)),
    squeeze_spaces_append p _ (fun c hc => isspace_of_isTrimChar c (hp c hc))]

/-- Source `normalize` is `squeeze` followed by lowercasing. -/
theorem normalize_eq (s : List Nat) : normalize s = (squeeze s).map tolower := by
  show trim ((collapse false (mapQuotes (trim s))).map tolower) = _
  rw [trim_map_tolower]
  show (squeeze (trim s)).map tolower = _
  rw [squeeze_trim]

theorem squeeze_map_tolower (s : List Nat) :
    squeeze (s.map tolower) = (squeeze s).map tolower := by
  unfold squeeze
  rw [mapQuotes_map_tolower, collapse_map_tolower, trim_map_tolower]

theorem normalize_map_tolower (s : List Nat) : normalize (s.map tolower) = normalize s := by
  rw [normalize_eq, normalize_eq, squeeze_map_tolower, List.map_map]
  congr 1
  funext c
  exact tolower_tolower c

theorem normalize_case (s t : List Nat) (h : s.map tolower = t.map tolower) :
    normalize s = normalize t := by
  rw [← normalize_map_tolower s, ← normalize_map_tolower t, h]

theorem normalize_add_spaces (s w1 w2 : List Nat) (h1 : AllSpace w1) (h2 : AllSpace w2) :
    normalize (w1 ++ s ++ w2) = normalize s := by
  rw [normalize_eq, normalize_eq, squeeze_append_spaces _ w2 h2, squeeze_spaces_append w1 s h1]

theorem normalize_replace_spaces (a b w w' : List Nat) (hne : w ≠ []) (hne' : w' ≠ [])
    (hw : AllSpace w) (hw' : AllSpace w') :
    normalize (a ++ w ++ b) = normalize (a ++ w' ++ b) := by
  rw [normalize_eq, normalize_eq, squeeze_replace_spaces a b w w' hne hne' hw hw']

/-! ## C3: matching in `WAIT_WHO` -/

/-- C3: `is_whos_there` accepts `WHO'S   there?` and `whos there?`, rejects
`who's there`, and for every input its verdict is unchanged when ASCII letters
change case (`s` and `t` agree byte for byte up to `tolower`), when whitespace
is added in front or behind, and when a non-empty run of whitespace is replaced
by another non-empty run of whitespace. -/
theorem is_whos_there_insensitive :
    is_whos_there (bytes "WHO'S   there?") = true ∧
    is_whos_there (bytes "whos there?") = true ∧
    is_whos_there (bytes "who's there") = false ∧
    (∀ s t : List Nat, s.map tolower = t.map tolower → is_whos_there s = is_whos_there t) ∧
    (∀ s w1 w2 : List Nat, AllSpace w1 → AllSpace w2 →
      is_whos_there (w1 ++ s ++ w2) = is_whos_there s) ∧
    (∀ a b w w' : List Nat, w ≠ [] → w' ≠ [] → AllSpace w → AllSpace w' →
      is_whos_there (a ++ w ++ b) = is_whos_there (a ++ w' ++ b)) := by
  refine ⟨by decide, by decide, by decide, ?_, ?_, ?_⟩
  · intro s t h
    unfold is_whos_there
    rw [normalize_case s t h]
  · intro s w1 w2 h1 h2
    unfold is_whos_there
    rw [normalize_add_spaces s w1 w2 h1 h2]
  · intro a b w w' hne hne' hw hw'
    unfold is_whos_there
    rw [normalize_replace_spaces a b w w' hne hne' hw hw']

/-! ## C10: `recv_line` -/

theorem recv_line_loop_newline (buf pre post : List Nat) (h10 : 10 ∉ pre)
    (hlen : buf.length + pre.length ≤ 4096) :
    recv_line_loop buf (pre ++ 10 :: post) = (some (buf ++ pre), post) := by
  induction pre generalizing buf with
  | nil => simp [recv_line_loop]
  | cons c t ih =>
    have hc : ¬ c = 10 := fun h => h10 (by simp [h])
    have ht : 10 ∉ t := fun h => h10 (List.mem_cons_of_mem _ h)
    simp only [List.length_cons] at hlen
    have hb : ¬ (buf ++ [c]).length > 4096 := by simp; omega
    simp only [List.cons_append, recv_line_loop, if_neg hc, if_neg hb, List.append_eq]
    rw [ih (buf ++ [c]) ht (by simp; omega)]
    simp

theorem recv_line_loop_eof (buf pre : List Nat) (h10 : 10 ∉ pre)
    (hlen : buf.length + pre.length ≤ 4096) :
    recv_line_loop buf pre = (none, []) := by
  induction pre generalizing buf with
  | nil => rfl
  | cons c t ih =>
    have hc : ¬ c = 10 := fun h => h10 (by simp [h])
    have ht : 10 ∉ t := fun h => h10 (List.mem_cons_of_mem _ h)
    simp only [List.length_cons] at hlen
    have hb : ¬ (buf ++ [c]).length > 4096 := by simp; omega
    simp only [recv_line_loop, if_neg hc, if_neg hb]
    exact ih (buf ++ [c]) ht (by simp; omega)

theorem recv_line_loop_overflow (buf pre post : List Nat) (h10 : 10 ∉ pre)
    (hbuf : buf.length ≤ 4096) (hlen : buf.length + pre.length = 4097) :
    recv_line_loop buf (pre ++ post) = (none, post) := by
  induction pre generalizing buf with
  | nil => simp at hlen; omega
  | cons c t ih =>
    have hc : ¬ c = 10 := fun h => h10 (by simp [h])
    have ht : 10 ∉ t := fun h => h10 (List.mem_cons_of_mem _ h)
    simp only [List.length_cons] at hlen
    by_cases hb : (buf ++ [c]).length > 4096
    · have : t = [] := by
        apply List.eq_nil_of_length_eq_zero
        simp at hb
        omega
      subst this
      simp only [List.cons_append, recv_line_loop, if_neg hc, if_pos hb, List.nil_append,
        List.append_eq]
    · simp only [List.cons_append, recv_line_loop, if_neg hc, if_neg hb, List.append_eq]
      exact ih (buf ++ [c]) ht (by simp at hb ⊢; omega) (by simp; omega)

/-- C10: `recv_line` returns the bytes before the first newline when there are
at most 4096 of them (the rest of the stream stays unread); it reports
disconnection as soon as 4097 bytes have arrived without a newline (nothing
after them is read), and when the stream ends before a newline; a line of
exactly 4096 bytes is accepted and one of 4097 bytes is rejected. -/
theorem recv_line_limit :
    (∀ pre post : List Nat, 10 ∉ pre → pre.length ≤ 4096 →
      recv_line (pre ++ 10 :: post) = (some pre, post)) ∧
    (∀ pre post : List Nat, 10 ∉ pre → pre.length = 4097 →
      recv_line (pre ++ post) = (none, post)) ∧
    (∀ pre : List Nat, 10 ∉ pre → pre.length ≤ 4096 → recv_line pre = (none, [])) ∧
    recv_line (List.replicate 4096 97 ++ [10]) = (some (List.replicate 4096 97), []) ∧
    recv_line (List.replicate 4097 97 ++ [10]) = (none, [10]) := by
  have h97 : ∀ n, 10 ∉ List.replicate n 97 := by
    intro n h
    have := List.eq_of_mem_replicate h
    omega
  refine ⟨?_, ?_, ?_, ?_, ?_⟩
  · intro pre post h10 hlen
    have := recv_line_loop_newline [] pre post h10 (by simpa using hlen)
    simpa [recv_line] using this
  · intro pre post h10 hlen
    exact recv_line_loop_overflow [] pre post h10 (by simp) (by simpa using hlen)
  · intro pre h10 hlen
    exact recv_line_loop_eof [] pre h10 (by simpa using hlen)
  · have := recv_line_loop_newline [] (List.replicate 4096 97) [] (h97 _)
      (by rw [List.length_nil, List.length_replicate])
    rw [List.nil_append] at this
    exact this
  · exact recv_line_loop_overflow [] (List.replicate 4097 97) [10] (h97 _)
      (by rw [List.length_nil]; omega) (by rw [List.length_nil, List.length_replicate])

/-! ## Steps of the session engine -/

theorem normalize_trim (s : List Nat) : normalize (trim s) = normalize s := by
  rw [normalize_eq, normalize_eq, squeeze_trim]

/-- A wrong reply in `WAIT_WHO`. -/
theorem loop_body_wrong_who (jokes : List Joke) (order : List Nat) (v : Vars) (J : Joke)
    (line rest : List Nat)
    (hJ : (order[v.idx]? >>= (jokes[·]?)) = some J)
    (hrecv : recv_line v.conn.inbound = (some line, rest))
    (hne : trim line ≠ [])
    (hst : v.st = State.WAIT_WHO) (hno : is_whos_there (trim line) = false) :
    loop_body jokes order v =
      (Flow.next,
        { idx := v.idx, st := State.WAIT_WHO,
          conn := { inbound := rest, sendOk := v.conn.sendOk,
                    sent := v.conn.sent ++ [bytes "Server: " ++ litSayWhosThere ++ litTryAgain] ++
                      [msgKnock],
                    closed := v.conn.closed } }) := by
  unfold loop_body
  rw [hJ]
  simp only [hrecv, hne, if_false, hst, hno, Bool.not_false, if_true, restart_joke, send_all]

/-- A wrong reply in `WAIT_WHO_SETUP`. -/
theorem loop_body_wrong_setup (jokes : List Joke) (order : List Nat) (v : Vars) (J : Joke)
    (line rest : List Nat)
    (hJ : (order[v.idx]? >>= (jokes[·]?)) = some J)
    (hrecv : recv_line v.conn.inbound = (some line, rest))
    (hne : trim line ≠ [])
    (hst : v.st = State.WAIT_WHO_SETUP) (hno : is_setup_who (trim line) J.setup = false) :
    loop_body jokes order v =
      (Flow.next,
        { idx := v.idx, st := State.WAIT_WHO,
          conn := { inbound := rest, sendOk := v.conn.sendOk,
                    sent := v.conn.sent ++
                      [bytes "Server: " ++
                        (bytes "You are supposed to say, \"" ++ J.setup ++ bytes " who?\"") ++
                        litTryAgain] ++ [msgKnock],
                    closed := v.conn.closed } }) := by
  unfold loop_body
  rw [hJ]
  simp only [hrecv, hne, if_false, hst, hno, Bool.not_false, if_true, restart_joke, send_all]

/-- C2: for a non-empty input that is not accepted in `WAIT_WHO` or in
`WAIT_WHO_SETUP`, the step leaves `idx` unchanged, sets the state to `WAIT_WHO`,
hands to `send_all` a correction line and then the opening prompt, and ends
with `continue` (the session is not terminated). -/
theorem wrong_reply_restarts_same_joke (jokes : List Joke) (order : List Nat) (v : Vars)
    (J : Joke) (line rest : List Nat)
    (hJ : (order[v.idx]? >>= (jokes[·]?)) = some J)
    (hrecv : recv_line v.conn.inbound = (some line, rest))
    (hne : trim line ≠ [])
    (hwrong : (v.st = State.WAIT_WHO ∧ is_whos_there (trim line) = false) ∨
      (v.st = State.WAIT_WHO_SETUP ∧ is_setup_who (trim line) J.setup = false)) :
    ∃ correction : List Nat,
      (loop_body jokes order v).1 = Flow.next ∧
      (loop_body jokes order v).2.idx = v.idx ∧
      (loop_body jokes order v).2.st = State.WAIT_WHO ∧
      (loop_body jokes order v).2.conn.sent = v.conn.sent ++ [correction, msgKnock] ∧
      (loop_body jokes order v).2.conn.closed = v.conn.closed := by
  rcases hwrong with ⟨hst, hno⟩ | ⟨hst, hno⟩
  · rw [loop_body_wrong_who jokes order v J line rest hJ hrecv hne hst hno]
    exact ⟨_, rfl, rfl, rfl, List.append_assoc _ _ _, rfl⟩
  · rw [loop_body_wrong_setup jokes order v J line rest hJ hrecv hne hst hno]
    exact ⟨_, rfl, rfl, rfl, List.append_assoc _ _ _, rfl⟩

/-! ## C4: declining in `WAIT_CONTINUE` -/

/-- C4, as stated, fails: in `WAIT_CONTINUE` the empty line (normalized form
`""`, neither `y` nor `yes`) does not end the session; the body ends with
`continue`, in the same state. -/
theorem decline_empty_line_counterexample :
    ¬ ∀ (jokes : List Joke) (order : List Nat) (v : Vars) (J : Joke) (line rest : List Nat),
      (order[v.idx]? >>= (jokes[·]?)) = some J →
      recv_line v.conn.inbound = (some line, rest) →
      v.st = State.WAIT_CONTINUE →
      normalize line ≠ bytes "y" → normalize line ≠ bytes "yes" →
      (loop_body jokes order v).1 ≠ Flow.next := by
  intro h
  have := h sampleJokes sampleOrder (sampleVars 0 State.WAIT_CONTINUE [10] true)
    { setup := bytes "Tank", punch := bytes "You're welcome." } [] []
    (by decide) (by decide) rfl (by decide) (by decide)
  revert this
  decide

/-- C4, amended: in `WAIT_CONTINUE` a received line that is not empty after
trimming and whose normalized form is neither `y` nor `yes` makes the loop end
through `goto done` at that pass, with nothing handed to `send_all`
(`client_worker` then goes straight to `finish`); a line that is empty after
trimming is ignored: nothing is sent and state and cursor are unchanged. -/
theorem decline_ends_session (jokes : List Joke) (order : List Nat) (running : Nat → Bool)
    (fuel iter : Nat) (v : Vars) (J : Joke) (line rest : List Nat)
    (hJ : (order[v.idx]? >>= (jokes[·]?)) = some J)
    (hrun : running iter = true) (hidx : v.idx < order.length)
    (hrecv : recv_line v.conn.inbound = (some line, rest))
    (hst : v.st = State.WAIT_CONTINUE) :
    (trim line ≠ [] → normalize line ≠ bytes "y" → normalize line ≠ bytes "yes" →
      loop jokes order running (fuel + 1) iter v =
        some (Flow.done, { v with conn := { v.conn with inbound := rest } })) ∧
    (trim line = [] →
      loop_body jokes order v =
        (Flow.next, { v with conn := { v.conn with inbound := rest } })) := by
  constructor
  · intro hne hy hyes
    have hno : is_yes (trim line) = false := by
      simp only [is_yes, normalize_trim, Bool.or_eq_false_iff, beq_eq_false_iff_ne]
      exact ⟨hy, hyes⟩
    have hb : loop_body jokes order v =
        (Flow.done, { v with conn := { v.conn with inbound := rest } }) := by
      unfold loop_body
      rw [hJ]
      simp only [hrecv, hne, if_false, hst, hno, Bool.false_eq_true]
    simp only [loop, loop_step, hrun, hidx, decide_True, Bool.and_self, if_true, hb]
  · intro he
    unfold loop_body
    rw [hJ]
    simp only [hrecv, he, if_true]

theorem decline_ends_session_witness :
    recv_line (sampleVars 0 State.WAIT_CONTINUE (bytes "no\n") true).conn.inbound =
      (some (bytes "no"), []) ∧
    trim (bytes "no") ≠ [] ∧
    loop sampleJokes sampleOrder (fun _ => true) (0 + 1) 0
        (sampleVars 0 State.WAIT_CONTINUE (bytes "no\n") true) =
      some (Flow.done,
        { sampleVars 0 State.WAIT_CONTINUE (bytes "no\n") true with
          conn := { (sampleVars 0 State.WAIT_CONTINUE (bytes "no\n") true).conn with
            inbound := [] } }) :=
  ⟨by decide, by decide,
    (decline_ends_session sampleJokes sampleOrder (fun _ => true) 0 0
      (sampleVars 0 State.WAIT_CONTINUE (bytes "no\n") true)
      { setup := bytes "Tank", punch := bytes "You're welcome." } (bytes "no") []
      (by decide) rfl (by decide) (by decide) rfl).1 (by decide) (by decide) (by decide)⟩

/-! ## C2: witness -/

theorem wrong_reply_restarts_same_joke_witness :
    recv_line (sampleVars 0 State.WAIT_WHO_SETUP (bytes "Tank?\n") true).conn.inbound =
      (some (bytes "Tank?"), []) ∧
    is_setup_who (trim (bytes "Tank?")) (bytes "Tank") = false ∧
    ∃ correction : List Nat,
      (loop_body sampleJokes sampleOrder
        (sampleVars 0 State.WAIT_WHO_SETUP (bytes "Tank?\n") true)).1 = Flow.next ∧
      (loop_body sampleJokes sampleOrder
        (sampleVars 0 State.WAIT_WHO_SETUP (bytes "Tank?\n") true)).2.idx = 0 ∧
      (loop_body sampleJokes sampleOrder
        (sampleVars 0 State.WAIT_WHO_SETUP (bytes "Tank?\n") true)).2.st = State.WAIT_WHO ∧
      (loop_body sampleJokes sampleOrder
        (sampleVars 0 State.WAIT_WHO_SETUP (bytes "Tank?\n") true)).2.conn.sent =
          [] ++ [correction, msgKnock] ∧
      (loop_body sampleJokes sampleOrder
        (sampleVars 0 State.WAIT_WHO_SETUP (bytes "Tank?\n") true)).2.conn.closed = false :=
  ⟨by decide, by decide,
    wrong_reply_restarts_same_joke sampleJokes sampleOrder
      (sampleVars 0 State.WAIT_WHO_SETUP (bytes "Tank?\n") true)
      { setup := bytes "Tank", punch := bytes "You're welcome." } (bytes "Tank?") []
      (by decide) (by decide) (by decide) (Or.inr ⟨rfl, by decide⟩)⟩

/-! ## C5: text of the corrections -/

/-- C5, as stated, fails: after the wrong reply `hello` in `WAIT_WHO` the first
line handed to `send_all` is not the documented template followed by a
newline; after the wrong reply `Tank?` in `WAIT_WHO_SETUP` neither. -/
theorem correction_text_counterexample :
    (loop_body sampleJokes sampleOrder
        (sampleVars 0 State.WAIT_WHO (bytes "hello\n") true)).2.conn.sent ≠
      [specCorrectionWho ++ [10], msgKnock] ∧
    (loop_body sampleJokes sampleOrder
        (sampleVars 0 State.WAIT_WHO_SETUP (bytes "Tank?\n") true)).2.conn.sent ≠
      [specCorrectionSetup (bytes "Tank") ++ [10], msgKnock] := by
  decide

/-- C5, amended: the correction lines are the documented templates in which the
apostrophes of `Who’s` and `Let’s` are U+2019 (bytes `E2 80 99`), each
terminated by a newline and followed by the line `Server: Knock knock!`. -/
theorem correction_text (jokes : List Joke) (order : List Nat) (v : Vars) (J : Joke)
    (line rest : List Nat)
    (hJ : (order[v.idx]? >>= (jokes[·]?)) = some J)
    (hrecv : recv_line v.conn.inbound = (some line, rest))
    (hne : trim line ≠ []) :
    (v.st = State.WAIT_WHO → is_whos_there (trim line) = false →
      (loop_body jokes order v).2.conn.sent = v.conn.sent ++
        [bytes "Server: You are supposed to say, \"Who" ++ [0xE2, 0x80, 0x99] ++
            bytes "s there?\" Let" ++ [0xE2, 0x80, 0x99] ++ bytes "s try again.\n",
          bytes "Server: Knock knock!\n"]) ∧
    (v.st = State.WAIT_WHO_SETUP → is_setup_who (trim line) J.setup = false →
      (loop_body jokes order v).2.conn.sent = v.conn.sent ++
        [bytes "Server: You are supposed to say, \"" ++ J.setup ++ bytes " who?\" Let" ++
            [0xE2, 0x80, 0x99] ++ bytes "s try again.\n",
          bytes "Server: Knock knock!\n"]) := by
  constructor
  · intro hst hno
    rw [loop_body_wrong_who jokes order v J line rest hJ hrecv hne hst hno]
    have e : bytes "Server: " ++ litSayWhosThere ++ litTryAgain =
        bytes "Server: You are supposed to say, \"Who" ++ [0xE2, 0x80, 0x99] ++
          bytes "s there?\" Let" ++ [0xE2, 0x80, 0x99] ++ bytes "s try again.\n" := by decide
    show v.conn.sent ++ [bytes "Server: " ++ litSayWhosThere ++ litTryAgain] ++ [msgKnock] = _
    rw [e, List.append_assoc]
    rfl
  · intro hst hno
    rw [loop_body_wrong_setup jokes order v J line rest hJ hrecv hne hst hno]
    have e1 : bytes "Server: " ++ bytes "You are supposed to say, \"" =
        bytes "Server: You are supposed to say, \"" := by decide
    have e2 : bytes " who?\"" ++ litTryAgain =
        bytes " who?\" Let" ++ ([0xE2, 0x80, 0x99] ++ bytes "s try again.\n") := by decide
    have e : bytes "Server: " ++
          (bytes "You are supposed to say, \"" ++ J.setup ++ bytes " who?\"") ++ litTryAgain =
        bytes "Server: You are supposed to say, \"" ++ J.setup ++ bytes " who?\" Let" ++
          [0xE2, 0x80, 0x99] ++ bytes "s try again.\n" := by
      rw [← e1]
      simp only [List.append_assoc]
      rw [e2]
    show v.conn.sent ++ [bytes "Server: " ++
          (bytes "You are supposed to say, \"" ++ J.setup ++ bytes " who?\"") ++ litTryAgain] ++
        [msgKnock] = _
    rw [e, List.append_assoc]
    rfl

theorem correction_text_witness :
    is_whos_there (trim (bytes "hello")) = false ∧
    (loop_body sampleJokes sampleOrder
        (sampleVars 0 State.WAIT_WHO (bytes "hello\n") true)).2.conn.sent =
      [] ++ [bytes "Server: You are supposed to say, \"Who" ++ [0xE2, 0x80, 0x99] ++
            bytes "s there?\" Let" ++ [0xE2, 0x80, 0x99] ++ bytes "s try again.\n",
          bytes "Server: Knock knock!\n"] :=
  ⟨by decide,
    (correction_text sampleJokes sampleOrder (sampleVars 0 State.WAIT_WHO (bytes "hello\n") true)
      { setup := bytes "Tank", punch := bytes "You're welcome." } (bytes "hello") []
      (by decide) (by decide) (by decide)).1 rfl (by decide)⟩

/-! ## C6: the running flag inside a session -/

/-- C6, as stated, fails: in `WAIT_WHO` with `Who's there?` arriving, the step
taken when `g_running` is set sends the setup and continues, while the step
taken when the flag has been cleared leaves the loop and sends nothing.  And a
session in which the flag is cleared after the first pass ends there: the
client has sent `Who's there?`, `Tank who?` and `yes`, the server has sent the
opening prompt and the setup, and `client_worker` returns with the last two
lines unread. -/
theorem interrupt_changes_step_counterexample :
    (¬ ∀ (jokes : List Joke) (order : List Nat) (v : Vars),
      (loop_step jokes order false v).1 = (loop_step jokes order true v).1 ∧
      (loop_step jokes order false v).2.st = (loop_step jokes order true v).2.st ∧
      (loop_step jokes order false v).2.conn.sent =
        (loop_step jokes order true v).2.conn.sent) ∧
    client_worker sampleJokes sampleOrder (fun k => decide (k = 0))
        { g_active := 0, g_served_sessions := 0 }
        { inbound := bytes "Who's there?\nTank who?\nyes\n", sendOk := fun _ => true,
          sent := [], closed := false } =
      Run.returned { g_active := 0, g_served_sessions := 1 }
        { inbound := bytes "Tank who?\nyes\n", sendOk := fun _ => true,
          sent := [msgKnock, bytes "Server: Tank.\n"], closed := true } := by
  constructor
  · intro h
    have := (h sampleJokes sampleOrder
      (sampleVars 0 State.WAIT_WHO (bytes "Who's there?\n") true)).1
    revert this
    decide
  · rfl

/-- C6, amended: `client_worker` reads `g_running` at each evaluation of the
loop condition, before it receives the next line.  When the flag is found
cleared there, the session leaves the loop without reading any input and
without sending anything, and with jokes left (`idx < N`) the code after the
loop sends nothing either, so the run goes to `finish`; a pass whose loop
condition held runs the body, in which the flag is not read. -/
theorem interrupt_ends_session_at_loop_test (jokes : List Joke) (order : List Nat)
    (running : Nat → Bool) (fuel iter : Nat) (v : Vars)
    (hstop : running iter = false) :
    loop jokes order running (fuel + 1) iter v = some (Flow.brk, v) ∧
    (v.idx < order.length → after_loop order v = v.conn) ∧
    (v.idx < order.length → loop_step jokes order true v = loop_body jokes order v) := by
  refine ⟨?_, ?_, ?_⟩
  · simp [loop, loop_step, hstop]
  · intro h
    simp [after_loop, Nat.not_le.mpr h]
  · intro h
    simp [loop_step, h]

theorem interrupt_ends_session_at_loop_test_witness :
    loop sampleJokes sampleOrder (fun _ => false) (0 + 1) 0
        (sampleVars 0 State.WAIT_WHO (bytes "Who's there?\n") true) =
      some (Flow.brk, sampleVars 0 State.WAIT_WHO (bytes "Who's there?\n") true) ∧
    ((sampleVars 0 State.WAIT_WHO (bytes "Who's there?\n") true).idx < sampleOrder.length →
      after_loop sampleOrder (sampleVars 0 State.WAIT_WHO (bytes "Who's there?\n") true) =
        (sampleVars 0 State.WAIT_WHO (bytes "Who's there?\n") true).conn) ∧
    ((sampleVars 0 State.WAIT_WHO (bytes "Who's there?\n") true).idx < sampleOrder.length →
      loop_step sampleJokes sampleOrder true
          (sampleVars 0 State.WAIT_WHO (bytes "Who's there?\n") true) =
        loop_body sampleJokes sampleOrder
          (sampleVars 0 State.WAIT_WHO (bytes "Who's there?\n") true)) :=
  interrupt_ends_session_at_loop_test sampleJokes sampleOrder (fun _ => false) 0 0
    (sampleVars 0 State.WAIT_WHO (bytes "Who's there?\n") true) rfl

/-! ## C7: failed sends -/

/-- C7 at the failing input: in `WAIT_WHO`, with the wrong reply `hello` and
every `send_all` failing, the correction is handed to `send_all` (which
fails), then the opening prompt is handed to `send_all` all the same, and the
body ends with `continue`: the session is not terminated. -/
theorem restart_joke_ignores_send_failure :
    (send_all (sampleVars 0 State.WAIT_WHO (bytes "hello\n") false).conn
        (bytes "Server: " ++ litSayWhosThere ++ litTryAgain)).1 = false ∧
    (loop_body sampleJokes sampleOrder
        (sampleVars 0 State.WAIT_WHO (bytes "hello\n") false)).1 = Flow.next ∧
    (loop_body sampleJokes sampleOrder
        (sampleVars 0 State.WAIT_WHO (bytes "hello\n") false)).2.conn.sent =
      [bytes "Server: " ++ litSayWhosThere ++ litTryAgain, msgKnock] ∧
    (loop_body sampleJokes sampleOrder
        (sampleVars 0 State.WAIT_WHO (bytes "hello\n") false)).2.conn.closed = false := by
  decide

/-! ## Joke store: the loop of `load_jokes` line by line -/

theorem find_none_iff (s : List Nat) (ch : Nat) : find s ch = none ↔ ch ∉ s := by
  induction s with
  | nil => simp [find]
  | cons c t ih =>
    by_cases h : c = ch
    · simp [find, h]
    · have h' : ¬ ch = c := fun e => h e.symm
      simp [find, h, h', ih]

theorem find_some (s : List Nat) (ch p : Nat) (h : find s ch = some p) :
    s.take p = s.takeWhile (· != ch) ∧ s.drop (p + 1) = (s.dropWhile (· != ch)).drop 1 := by
  induction s generalizing p with
  | nil => simp [find] at h
  | cons c t ih =>
    by_cases hc : c = ch
    · simp only [find, hc, if_true, Option.some.injEq] at h
      subst h
      simp [hc]
    · simp only [find, hc, if_false, Option.map_eq_some'] at h
      obtain ⟨i, hi, rfl⟩ := h
      obtain ⟨h1, h2⟩ := ih i hi
      have hne : (c != ch) = true := by simpa using hc
      simp [List.takeWhile_cons, List.dropWhile_cons, hne, h1, h2]

theorem trim_eq_nil_iff (s : List Nat) : trim s = [] ↔ ∀ c ∈ s, isTrimChar c = true := by
  constructor
  · intro h
    obtain ⟨p, q, hp, hq, hs⟩ := trim_decomp s
    rw [h, List.append_nil] at hs
    intro c hc
    rw [hs] at hc
    rcases List.mem_append.mp hc with hc | hc
    · exact hp c hc
    · exact hq c hc
  · intro h
    simp [trim, (find_first_none_iff s).mpr h]

theorem trim_trimchars_append (p s : List Nat) (hp : ∀ c ∈ p, isTrimChar c = true) :
    trim (p ++ s) = trim s := by
  induction p with
  | nil => rfl
  | cons c t ih =>
    rw [List.cons_append, trim_cons_ws c _ (hp c (List.mem_cons_self _ _)),
      ih (fun x hx => hp x (List.mem_cons_of_mem _ hx))]

theorem trim_append_trimchars (s q : List Nat) (hq : ∀ c ∈ q, isTrimChar c = true) :
    trim (s ++ q) = trim s := by
  induction q using List.reverseRecOn with
  | nil => simp
  | append_singleton l a ih =>
    rw [← List.append_assoc, trim_append_ws _ a (hq a (by simp)),
      ih (fun x hx => hq x (by simp [hx]))]

theorem isTrimChar_ne_bar (c : Nat) (h : isTrimChar c = true) : (c != 124) = true := by
  simp only [isTrimChar, Bool.or_eq_true, beq_iff_eq] at h
  simp only [bne_iff_ne, ne_eq]
  omega

theorem isspace_ne_bar (c : Nat) (h : isspace c = true) : c ≠ 124 := by
  simp only [isspace, Bool.or_eq_true, beq_iff_eq, Bool.and_eq_true, decide_eq_true_eq] at h
  omega

/-- What `parse_line` does, in terms of the trimmed line. -/
theorem parse_line_eq (line : List Nat) :
    parse_line line =
      if trim line = [] ∨ (trim line).head? = some 35 then none
      else
        match splitBar (trim line) with
        | none => none
        | some (a, b) =>
          if trim a ≠ [] ∧ trim b ≠ [] then some { setup := trim a, punch := trim b }
          else none := by
  unfold parse_line
  simp only
  by_cases h : trim line = [] ∨ (trim line).head? = some 35
  · rw [if_pos h, if_pos h]
  · rw [if_neg h, if_neg h]
    cases hf : find (trim line) 124 with
    | none =>
      have := (find_none_iff _ _).mp hf
      simp [splitBar, this]
    | some p =>
      have hmem : 124 ∈ trim line := by
        by_contra hn
        rw [(find_none_iff _ _).mpr hn] at hf
        cases hf
      obtain ⟨h1, h2⟩ := find_some _ _ _ hf
      simp only [splitBar, hmem, if_true, substr, substrFrom, List.drop_zero, h1, h2]

/-- Cutting a line at its first `|` and trimming the two parts gives the same
whether or not the line was trimmed first. -/
theorem splitBar_trim (line : List Nat) (hmem : 124 ∈ trim line) :
    ∃ a b a' b', splitBar (trim line) = some (a, b) ∧ splitBar line = some (a', b') ∧
      trim a' = trim a ∧ trim b' = trim b := by
  obtain ⟨p, q, hp, hq, hs⟩ := trim_decomp line
  have hmem' : 124 ∈ line := by
    rw [hs]; simp [hmem]
  refine ⟨_, _, _, _, by simp only [splitBar, hmem, if_true]; rfl,
    by simp only [splitBar, hmem', if_true]; rfl, ?_, ?_⟩
  · have hp' : ∀ c ∈ p, (c != 124) = true := fun c hc => isTrimChar_ne_bar c (hp c hc)
    have e : line.takeWhile (· != 124) = p ++ (trim line).takeWhile (· != 124) := by
      conv_lhs => rw [hs]
      rw [List.append_assoc, List.takeWhile_append_of_pos hp', List.takeWhile_append]
      rw [if_neg]
      intro hlen
      have hall : (trim line).takeWhile (· != 124) = trim line :=
        (List.takeWhile_prefix _).eq_of_length hlen
      have := List.mem_takeWhile_imp (hall ▸ hmem)
      simp at this
    rw [e, trim_trimchars_append p _ hp]
  · have hp' : ∀ c ∈ p, (c != 124) = true := fun c hc => isTrimChar_ne_bar c (hp c hc)
    have hne : (trim line).dropWhile (· != 124) ≠ [] := by
      intro h0
      have := List.dropWhile_eq_nil_iff.mp h0 124 hmem
      simp at this
    have e : (line.dropWhile (· != 124)).drop 1 =
        ((trim line).dropWhile (· != 124)).drop 1 ++ q := by
      conv_lhs => rw [hs]
      rw [List.append_assoc, List.dropWhile_append_of_pos hp', List.dropWhile_append]
      have : ((trim line).dropWhile (· != 124)).isEmpty = false := by
        cases hd : (trim line).dropWhile (· != 124) with
        | nil => exact absurd hd hne
        | cons x y => rfl
      rw [this]
      simp only [Bool.false_eq_true, if_false]
      cases hd : (trim line).dropWhile (· != 124) with
      | nil => exact absurd hd hne
      | cons x y => simp
    rw [e, trim_append_trimchars _ q hq]

/-- The loop body of `load_jokes` keeps a line exactly when it is an entry in
the sense of §4.1 with comments recognised after trimming, and then pushes
that entry. -/
theorem parse_line_eq_lineEntry (line : List Nat) :
    parse_line line = lineEntry trimmedComment line := by
  rw [parse_line_eq]
  unfold lineEntry
  obtain ⟨p, q, hp, hq, hs⟩ := trim_decomp line
  by_cases hmem : 124 ∈ trim line
  · have hmem' : 124 ∈ line := by rw [hs]; simp [hmem]
    have hnb : isBlank line = false := by
      rw [Bool.eq_false_iff]
      intro hb
      exact isspace_ne_bar 124 (List.all_eq_true.mp hb 124 hmem') rfl
    have hne : trim line ≠ [] := fun h0 => by rw [h0] at hmem; simp at hmem
    obtain ⟨a, b, a', b', e1, e2, ha, hb⟩ := splitBar_trim line hmem
    simp only [hnb, Bool.false_or, trimmedComment, beq_iff_eq, hne, false_or, e1, e2, ha, hb]
  · have hmem' : 124 ∉ line := by
      intro h
      rw [hs] at h
      rcases List.mem_append.mp h with h | h
      · rcases List.mem_append.mp h with h | h
        · have := isTrimChar_ne_bar 124 (hp 124 h); simp at this
        · exact hmem h
      · have := isTrimChar_ne_bar 124 (hq 124 h); simp at this
    simp only [splitBar, hmem, hmem', if_false]
    split_ifs <;> rfl

theorem load_jokes_foldl (lines : List (List Nat)) (acc : List Joke) :
    lines.foldl
      (fun jokes line =>
        match parse_line line with
        | some j => jokes ++ [j]
        | none => jokes) acc = acc ++ lines.filterMap parse_line := by
  induction lines generalizing acc with
  | nil => simp
  | cons l t ih =>
    rw [List.foldl_cons, ih]
    cases h : parse_line l with
    | none => simp [List.filterMap_cons, h]
    | some j => simp [List.filterMap_cons, h]

/-- Source `load_jokes` on a readable file, with the loop written as a filter. -/
theorem load_jokes_eq (content : List Nat) :
    load_jokes (some content) =
      if (corpusOf trimmedComment (getlines content)).length < 15 then
        Except.error (LoadError.too_few (corpusOf trimmedComment (getlines content)).length)
      else Except.ok (corpusOf trimmedComment (getlines content)) := by
  have e : (getlines content).filterMap parse_line =
      corpusOf trimmedComment (getlines content) := by
    unfold corpusOf
    congr 1
    funext l
    exact parse_line_eq_lineEntry l
  simp only [load_jokes, load_jokes_foldl, List.nil_append, e]

/-! ## C8: fewer than fifteen valid entries -/

set_option maxRecDepth 100000 in
/-- C8, as stated, fails when a comment is a line whose first character is `#`:
the fifteen lines ` #a|b` (leading space) are then fifteen valid entries, and
`load_jokes` throws all the same. -/
theorem load_threshold_counterexample :
    ¬ ∀ content : List Nat,
      ((∃ e, load_jokes (some content) = Except.error e) ↔
        (getlines content).countP (fun l => (lineEntry specComment l).isSome) < 15) := by
  intro h
  have h1 : load_jokes (some indentedHashFile) = Except.error (LoadError.too_few 0) := by rfl
  have h2 : (getlines indentedHashFile).countP
      (fun l => (lineEntry specComment l).isSome) = 15 := by decide
  have := (h indentedHashFile).mp ⟨_, h1⟩
  omega

/-- C8, amended: with a comment being a line whose first character after
trimming is `#`, for every readable source `load_jokes` throws if and only if
fewer than 15 of its lines are valid entries, and otherwise returns a corpus of
length at least 15; when it throws, `main` ends there, before any call of
`socket`, `bind` or `listen` (no call at all has been made). -/
theorem load_threshold (content : List Nat) :
    ((∃ e, load_jokes (some content) = Except.error e) ↔
      (getlines content).countP (fun l => (lineEntry trimmedComment l).isSome) < 15) ∧
    (¬ (getlines content).countP (fun l => (lineEntry trimmedComment l).isSome) < 15 →
      ∃ jokes, load_jokes (some content) = Except.ok jokes ∧ 15 ≤ jokes.length) ∧
    (∀ (e : LoadError) (socketOk ptonOk bindOk listenOk : Bool),
      load_jokes (some content) = Except.error e →
      main_startup (some content) socketOk ptonOk bindOk listenOk = ([], Started.threw e)) := by
  have hc : (getlines content).countP (fun l => (lineEntry trimmedComment l).isSome) =
      (corpusOf trimmedComment (getlines content)).length := by
    unfold corpusOf
    rw [List.length_filterMap_eq_countP]
  rw [hc, load_jokes_eq]
  refine ⟨?_, ?_, ?_⟩
  · constructor
    · rintro ⟨e, he⟩
      by_contra hn
      rw [if_neg hn] at he
      cases he
    · intro hlt
      exact ⟨_, if_pos hlt⟩
  · intro hn
    exact ⟨_, if_neg hn, Nat.le_of_not_lt hn⟩
  · intro e a b c d he
    unfold main_startup
    rw [load_jokes_eq, he]

/-! ## C9: content of the corpus -/

set_option maxRecDepth 100000 in
/-- C9, as stated, fails when a comment is a line whose first character is `#`:
for `sampleFile` preceded by the line ` #a|b` (leading space) `load_jokes`
returns the fifteen jokes of `sampleFile`, while the lines that are not blank,
not comments and have the form `SETUP|PUNCHLINE` give sixteen entries. -/
theorem corpus_content_counterexample :
    ¬ ∀ (content : List Nat) (jokes : List Joke),
      load_jokes (some content) = Except.ok jokes →
      jokes = corpusOf specComment (getlines content) := by
  intro h
  have h1 : load_jokes (some sampleFileWithIndentedHash) = Except.ok sampleJokes := by rfl
  have h2 : (corpusOf specComment (getlines sampleFileWithIndentedHash)).length = 16 := by
    decide
  rw [← h _ _ h1] at h2
  revert h2
  decide

/-- C9, amended: with a comment being a line whose first character after
trimming is `#`, when `load_jokes` succeeds the corpus is exactly the list, in
source order and without deduplication, of the pairs (trim of the text before
the first `|`, trim of the text after it) over the lines that are not blank,
not comments, contain `|` and have both trimmed parts non-empty; a line without
`|`, or with an empty trimmed setup or punchline, pushes nothing. -/
theorem corpus_content (content : List Nat) (jokes : List Joke)
    (hok : load_jokes (some content) = Except.ok jokes) :
    jokes = corpusOf trimmedComment (getlines content) ∧
    (∀ line : List Nat, 124 ∉ line → parse_line line = none) ∧
    (∀ line a b : List Nat, splitBar line = some (a, b) → trim a = [] ∨ trim b = [] →
      parse_line line = none) := by
  refine ⟨?_, ?_, ?_⟩
  · rw [load_jokes_eq] at hok
    split_ifs at hok
    cases hok
    rfl
  · intro line hmem
    rw [parse_line_eq_lineEntry]
    simp [lineEntry, splitBar, hmem]
  · intro line a b hs hab
    rw [parse_line_eq_lineEntry]
    unfold lineEntry
    rw [hs]
    have : ¬ (trim a ≠ [] ∧ trim b ≠ []) := by
      rintro ⟨h1, h2⟩
      rcases hab with h | h
      · exact h1 h
      · exact h2 h
    simp only [this, if_false]
    split_ifs <;> rfl

set_option maxRecDepth 100000 in
theorem corpus_content_witness :
    load_jokes (some sampleFileWithIndentedHash) = Except.ok sampleJokes ∧
    sampleJokes = corpusOf trimmedComment (getlines sampleFileWithIndentedHash) :=
  ⟨by rfl, (corpus_content sampleFileWithIndentedHash sampleJokes (by rfl)).1⟩

/-! ## The loop of `client_worker` always ends -/

theorem recv_line_loop_consumes (buf inbound line rest : List Nat)
    (h : recv_line_loop buf inbound = (some line, rest)) : rest.length < inbound.length := by
  induction inbound generalizing buf with
  | nil => simp [recv_line_loop] at h
  | cons c t ih =>
    simp only [recv_line_loop] at h
    split_ifs at h with h1 h2
    · simp only [Prod.mk.injEq] at h
      rw [← h.2]
      simp
    · simp at h
    · have := ih _ h
      simp only [List.length_cons]
      omega

/-- A pass of the loop that ends with `continue` has consumed at least one
inbound byte. -/
theorem loop_body_next_consumes (jokes : List Joke) (order : List Nat) (v w : Vars)
    (h : loop_body jokes order v = (Flow.next, w)) :
    w.conn.inbound.length < v.conn.inbound.length := by
  unfold loop_body at h
  split at h
  · simp at h
  · split at h
    · simp at h
    · next line rest hrecv =>
      have hlt := recv_line_loop_consumes [] _ _ _ hrecv
      simp only at h
      cases hst : v.st <;> simp only [hst] at h <;> split_ifs at h <;>
        first
        | (simp only [Prod.mk.injEq, reduceCtorEq, false_and] at h; done)
        | (simp only [Prod.mk.injEq, true_and] at h
           rw [← h]
           simpa [restart_joke, send_all] using hlt)

theorem loop_fuel_suffices (jokes : List Joke) (order : List Nat) (running : Nat → Bool) :
    ∀ (fuel iter : Nat) (v : Vars), v.conn.inbound.length < fuel →
      ∃ r, loop jokes order running fuel iter v = some r := by
  intro fuel
  induction fuel with
  | zero => intro iter v h; omega
  | succ n ih =>
    intro iter v h
    unfold loop
    rcases hs : loop_step jokes order (running iter) v with ⟨fl, w⟩
    cases fl
    · have hb : loop_body jokes order v = (Flow.next, w) := by
        unfold loop_step at hs
        split_ifs at hs
        · exact hs
        · simp at hs
      have := loop_body_next_consumes jokes order v w hb
      exact ih (iter + 1) w (by omega)
    · exact ⟨_, rfl⟩
    · exact ⟨_, rfl⟩
    · exact ⟨_, rfl⟩

/-- The passes allowed in `client_worker` are always enough. -/
theorem client_worker_fuel_suffices (jokes : List Joke) (order : List Nat)
    (running : Nat → Bool) (g : Globals) (cfd : Conn) :
    client_worker jokes order running g cfd ≠ Run.out_of_fuel := by
  unfold client_worker
  simp only
  split_ifs
  · simp
  · obtain ⟨r, hr⟩ := loop_fuel_suffices jokes order running (cfd.inbound.length + 1) 0
      { idx := 0, st := State.WAIT_WHO, conn := (send_all cfd msgKnock).2 }
      (by simp [send_all])
    rw [hr]
    rcases r with ⟨fl, w⟩
    cases fl <;> simp

/-! ## C1: a session that goes through the whole corpus -/

theorem recv_line_newline (pre post : List Nat) (h10 : 10 ∉ pre) (hlen : pre.length ≤ 4096) :
    recv_line (pre ++ 10 :: post) = (some pre, post) := by
  have := recv_line_loop_newline [] pre post h10 (by simpa using hlen)
  simpa [recv_line] using this

theorem isReplyLine_iff (l : List Nat) :
    isReplyLine l = true ↔ 10 ∉ l ∧ l.length ≤ 4096 ∧ trim l ≠ [] := by
  simp [isReplyLine, and_assoc]

/-- An accepted reply in `WAIT_WHO`, the send succeeding. -/
theorem loop_body_who_ok (jokes : List Joke) (order : List Nat) (v : Vars) (J : Joke)
    (line rest : List Nat)
    (hJ : (order[v.idx]? >>= (jokes[·]?)) = some J)
    (hrecv : recv_line v.conn.inbound = (some line, rest))
    (hne : trim line ≠ [])
    (hst : v.st = State.WAIT_WHO) (hyes : is_whos_there (trim line) = true)
    (hsend : ∀ k, v.conn.sendOk k = true) :
    loop_body jokes order v =
      (Flow.next,
        { idx := v.idx, st := State.WAIT_WHO_SETUP,
          conn := { inbound := rest, sendOk := v.conn.sendOk,
                    sent := v.conn.sent ++ [bytes "Server: " ++ J.setup ++ bytes ".\n"],
                    closed := v.conn.closed } }) := by
  unfold loop_body
  rw [hJ]
  simp only [hrecv, hne, if_false, hst, hyes, Bool.not_true, send_all, hsend,
    Bool.false_eq_true]

/-- An accepted reply in `WAIT_WHO_SETUP`, both sends succeeding. -/
theorem loop_body_setup_ok (jokes : List Joke) (order : List Nat) (v : Vars) (J : Joke)
    (line rest : List Nat)
    (hJ : (order[v.idx]? >>= (jokes[·]?)) = some J)
    (hrecv : recv_line v.conn.inbound = (some line, rest))
    (hne : trim line ≠ [])
    (hst : v.st = State.WAIT_WHO_SETUP) (hyes : is_setup_who (trim line) J.setup = true)
    (hsend : ∀ k, v.conn.sendOk k = true) :
    loop_body jokes order v =
      (Flow.next,
        { idx := v.idx, st := State.WAIT_CONTINUE,
          conn := { inbound := rest, sendOk := v.conn.sendOk,
                    sent := v.conn.sent ++ [bytes "Server: " ++ J.punch ++ bytes "\n"] ++
                      [msgAnother],
                    closed := v.conn.closed } }) := by
  unfold loop_body
  rw [hJ]
  simp only [hrecv, hne, if_false, hst, hyes, Bool.not_true, send_all, hsend,
    Bool.false_eq_true]

/-- The reply `yes` in `WAIT_CONTINUE`, the send (if any) succeeding. -/
theorem loop_body_yes (jokes : List Joke) (order : List Nat) (v : Vars) (J : Joke)
    (line rest : List Nat)
    (hJ : (order[v.idx]? >>= (jokes[·]?)) = some J)
    (hrecv : recv_line v.conn.inbound = (some line, rest))
    (hne : trim line ≠ [])
    (hst : v.st = State.WAIT_CONTINUE) (hyes : is_yes (trim line) = true)
    (hsend : ∀ k, v.conn.sendOk k = true) :
    loop_body jokes order v =
      if v.idx + 1 ≥ order.length then
        (Flow.brk,
          { idx := v.idx + 1, st := State.WAIT_CONTINUE,
            conn := { inbound := rest, sendOk := v.conn.sendOk, sent := v.conn.sent,
                      closed := v.conn.closed } })
      else
        (Flow.next,
          { idx := v.idx + 1, st := State.WAIT_WHO,
            conn := { inbound := rest, sendOk := v.conn.sendOk,
                      sent := v.conn.sent ++ [msgKnock], closed := v.conn.closed } }) := by
  unfold loop_body
  rw [hJ]
  simp only [hrecv, hne, if_false, hst, hyes, if_true, send_all, hsend, Bool.not_true,
    Bool.false_eq_true]

theorem loop_next (jokes : List Joke) (order : List Nat) (running : Nat → Bool)
    (fuel iter : Nat) (v w : Vars) (hrun : running iter = true) (hidx : v.idx < order.length)
    (hb : loop_body jokes order v = (Flow.next, w)) :
    loop jokes order running (fuel + 1) iter v = loop jokes order running fuel (iter + 1) w := by
  simp only [loop, loop_step, hrun, hidx, decide_True, Bool.and_self, if_true, hb]

theorem loop_brk (jokes : List Joke) (order : List Nat) (running : Nat → Bool)
    (fuel iter : Nat) (v w : Vars) (hrun : running iter = true) (hidx : v.idx < order.length)
    (hb : loop_body jokes order v = (Flow.brk, w)) :
    loop jokes order running (fuel + 1) iter v = some (Flow.brk, w) := by
  simp only [loop, loop_step, hrun, hidx, decide_True, Bool.and_self, if_true, hb]

/-- The three passes of the loop for one joke answered as expected. -/
theorem loop_round (jokes : List Joke) (order : List Nat) (running : Nat → Bool)
    (sendOk : Nat → Bool) (fuel iter k i : Nat) (J : Joke) (r : Replies)
    (tail : List Nat) (sent : List (List Nat))
    (hrun : ∀ n, running n = true) (hsend : ∀ n, sendOk n = true)
    (hk : order[k]? = some i) (hJ : jokes[i]? = some J) (hacc : accepted J r = true) :
    loop jokes order running (fuel + 3) iter
        { idx := k, st := State.WAIT_WHO,
          conn := { inbound := r.wire ++ tail, sendOk := sendOk, sent := sent ++ [msgKnock],
                    closed := false } } =
      if k + 1 ≥ order.length then
        some (Flow.brk,
          { idx := k + 1, st := State.WAIT_CONTINUE,
            conn := { inbound := tail, sendOk := sendOk, sent := sent ++ roundLines J,
                      closed := false } })
      else
        loop jokes order running fuel (iter + 3)
          { idx := k + 1, st := State.WAIT_WHO,
            conn := { inbound := tail, sendOk := sendOk,
                      sent := (sent ++ roundLines J) ++ [msgKnock], closed := false } } := by
  have hlt : k < order.length := by
    by_contra hn
    rw [List.getElem?_eq_none (Nat.le_of_not_lt hn)] at hk
    cases hk
  have hJ' : (order[k]? >>= (jokes[·]?)) = some J := by
    rw [hk]; exact hJ
  simp only [accepted, Bool.and_eq_true, isReplyLine_iff] at hacc
  obtain ⟨⟨⟨⟨⟨⟨h1a, h1b, h1c⟩, h1⟩, ⟨h2a, h2b, h2c⟩⟩, h2⟩, ⟨h3a, h3b, h3c⟩⟩, h3⟩ := hacc
  have hw : r.wire ++ tail = r.who ++ 10 :: (r.setupWho ++ 10 :: (r.again ++ 10 :: tail)) := by
    simp [Replies.wire]
  rw [hw]
  rw [loop_next jokes order running (fuel + 2) iter _ _ (hrun iter) hlt
    (loop_body_who_ok jokes order _ J r.who _ hJ' (recv_line_newline _ _ h1a h1b) h1c rfl h1
      hsend)]
  rw [loop_next jokes order running (fuel + 1) (iter + 1) _ _ (hrun _) hlt
    (loop_body_setup_ok jokes order _ J r.setupWho _ hJ' (recv_line_newline _ _ h2a h2b) h2c rfl
      h2 hsend)]
  have h3' := loop_body_yes jokes order
    { idx := k, st := State.WAIT_CONTINUE,
      conn := { inbound := r.again ++ 10 :: tail, sendOk := sendOk,
                sent := sent ++ [msgKnock] ++ [bytes "Server: " ++ J.setup ++ bytes ".\n"] ++
                  [bytes "Server: " ++ J.punch ++ bytes "\n"] ++ [msgAnother],
                closed := false } }
    J r.again tail hJ' (recv_line_newline _ _ h3a h3b) h3c rfl h3 hsend
  have hs : sent ++ [msgKnock] ++ [bytes "Server: " ++ J.setup ++ bytes ".\n"] ++
      [bytes "Server: " ++ J.punch ++ bytes "\n"] ++ [msgAnother] = sent ++ roundLines J := by
    simp [roundLines]
  by_cases hend : k + 1 ≥ order.length
  · rw [if_pos hend] at h3' ⊢
    rw [loop_brk jokes order running fuel (iter + 1 + 1) _ _ (hrun _) hlt h3']
    simp only [hs]
  · rw [if_neg hend] at h3' ⊢
    rw [loop_next jokes order running fuel (iter + 1 + 1) _ _ (hrun _) hlt h3']
    simp only [hs]

theorem loop_mono (jokes : List Joke) (order : List Nat) (running : Nat → Bool)
    (fuel extra iter : Nat) (v : Vars) (r : Flow × Vars)
    (h : loop jokes order running fuel iter v = some r) :
    loop jokes order running (fuel + extra) iter v = some r := by
  induction fuel generalizing iter v with
  | zero => simp [loop] at h
  | succ n ih =>
    rw [Nat.add_right_comm]
    unfold loop at h ⊢
    revert h
    rcases loop_step jokes order (running iter) v with ⟨fl, w⟩
    intro h
    cases fl
    · exact ih _ _ h
    · exact h
    · exact h
    · exact h

theorem wire_length_le (rs : List Replies) : 3 * rs.length ≤ (rs.flatMap Replies.wire).length := by
  induction rs with
  | nil => simp
  | cons r t ih =>
    simp only [List.flatMap_cons, List.length_append, List.length_cons, Replies.wire]
    omega

/-- The loop for the jokes that remain, every one answered as expected. -/
theorem loop_rounds (jokes : List Joke) (order : List Nat) (running : Nat → Bool)
    (sendOk : Nat → Bool) (rest : List Nat)
    (hrun : ∀ n, running n = true) (hsend : ∀ n, sendOk n = true) :
    ∀ (suf pre : List Nat) (rs : List Replies) (sent : List (List Nat)) (iter : Nat),
      suf ≠ [] → order = pre ++ suf →
      List.Forall₂ (fun i r => acceptedAt jokes i r = true) suf rs →
      loop jokes order running (3 * suf.length) iter
          { idx := pre.length, st := State.WAIT_WHO,
            conn := { inbound := rs.flatMap Replies.wire ++ rest, sendOk := sendOk,
                      sent := sent ++ [msgKnock], closed := false } } =
        some (Flow.brk,
          { idx := order.length, st := State.WAIT_CONTINUE,
            conn := { inbound := rest, sendOk := sendOk,
                      sent := sent ++ (told jokes suf).flatMap roundLines,
                      closed := false } }) := by
  intro suf
  induction suf with
  | nil => intro pre rs sent iter hne; exact absurd rfl hne
  | cons i suf ih =>
    intro pre rs sent iter _ hord hall
    cases hall with
    | cons hacc hrest =>
      rename_i r rs
      have hk : order[pre.length]? = some i := by
        rw [hord, List.getElem?_append_right (le_refl _)]; simp
      obtain ⟨J, hJ, haccJ⟩ : ∃ J, jokes[i]? = some J ∧ accepted J r = true := by
        unfold acceptedAt at hacc
        cases hj : jokes[i]? with
        | none => rw [hj] at hacc; cases hacc
        | some J => rw [hj] at hacc; exact ⟨J, rfl, hacc⟩
      have hfuel : 3 * (i :: suf).length = 3 * suf.length + 3 := by
        simp only [List.length_cons]; omega
      have hin : (r :: rs).flatMap Replies.wire ++ rest =
          r.wire ++ (rs.flatMap Replies.wire ++ rest) := by
        simp [List.flatMap_cons]
      have htold : told jokes (i :: suf) = J :: told jokes suf := by
        simp [told, List.filterMap_cons, hJ]
      rw [hfuel, hin,
        loop_round jokes order running sendOk (3 * suf.length) iter pre.length i J r _ sent
          hrun hsend hk hJ haccJ]
      cases suf with
      | nil =>
        cases hrest
        have hlen : order.length = pre.length + 1 := by rw [hord]; simp
        rw [if_pos (by omega), hlen, htold]
        simp [told]
      | cons j suf' =>
        have hlen : ¬ pre.length + 1 ≥ order.length := by rw [hord]; simp
        rw [if_neg hlen]
        have := ih (pre ++ [i]) rs (sent ++ roundLines J) (iter + 3) (by simp)
          (by rw [hord]; simp) hrest
        rw [List.length_append, List.length_singleton] at this
        rw [this, htold]
        simp

theorem told_forall₂ (jokes : List Joke) (order : List Nat)
    (hin : ∀ i ∈ order, i < jokes.length) :
    List.Forall₂ (fun i J => jokes[i]? = some J) order (told jokes order) := by
  unfold told
  induction order with
  | nil => exact List.Forall₂.nil
  | cons i t ih =>
    have hi := hin i (List.mem_cons_self _ _)
    have hget : jokes[i]? = some jokes[i] := List.getElem?_eq_getElem hi
    rw [List.filterMap_cons, hget]
    exact List.Forall₂.cons hget (ih (fun x hx => hin x (List.mem_cons_of_mem _ hx)))

/-- The run of a session that goes through the whole corpus, in terms of
`roundLines` and `told`. -/
theorem full_session_run (jokes : List Joke) (order : List Nat)
    (rs : List Replies) (running : Nat → Bool) (sendOk : Nat → Bool) (g : Globals)
    (rest : List Nat)
    (hN : 15 ≤ jokes.length) (hperm : order.Perm (List.range jokes.length))
    (hrun : ∀ n, running n = true) (hsend : ∀ n, sendOk n = true)
    (hlen : rs.length = order.length)
    (hacc : ∀ p ∈ order.zip rs, acceptedAt jokes p.1 p.2 = true) :
    client_worker jokes order running g
        { inbound := rs.flatMap Replies.wire ++ rest, sendOk := sendOk, sent := [],
          closed := false } =
      Run.returned
        { g_active := g.g_active, g_served_sessions := g.g_served_sessions + 1 }
        { inbound := rest, sendOk := sendOk,
          sent := (told jokes order).flatMap roundLines ++ [msgNoMore], closed := true } ∧
    List.Forall₂ (fun i J => jokes[i]? = some J) order (told jokes order) ∧
    (∀ i, i < jokes.length → order.count i = 1) := by
  have hlenN : order.length = jokes.length := by
    rw [hperm.length_eq, List.length_range]
  have hne : order ≠ [] := by
    intro h0
    rw [h0] at hlenN
    simp at hlenN
    omega
  have hall : List.Forall₂ (fun i r => acceptedAt jokes i r = true) order rs := by
    rw [List.forall₂_iff_zip]
    exact ⟨hlen.symm, fun {a b} hab => hacc (a, b) hab⟩
  have hloop := loop_rounds jokes order running sendOk rest hrun hsend order [] rs [] 0 hne
    (by simp) hall
  have hfuel : 3 * order.length ≤ (rs.flatMap Replies.wire ++ rest).length + 1 := by
    have := wire_length_le rs
    rw [List.length_append]
    omega
  obtain ⟨extra, hextra⟩ := Nat.exists_eq_add_of_le hfuel
  have hloop' := loop_mono jokes order running _ extra _ _ _ hloop
  rw [← hextra] at hloop'
  refine ⟨?_, ?_, ?_⟩
  · unfold client_worker
    simp only [send_all, hsend, Bool.not_true, Bool.false_eq_true, if_false, List.length_nil,
      List.nil_append]
    simp only [List.nil_append, List.length_nil] at hloop'
    rw [hloop']
    simp only [finish, after_loop, send_all, ge_iff_le, le_refl, if_true, List.nil_append]
    congr 2
    omega
  · exact told_forall₂ jokes order (fun i hi => List.mem_range.mp (hperm.mem_iff.mp hi))
  · intro i hi
    rw [hperm.count_eq]
    exact List.count_eq_one_of_mem (List.nodup_range _) (List.mem_range.mpr hi)


/-- C1: for a corpus of `N ≥ 15` jokes and a permutation `order` of `0..N-1`,
with `g_running` set at every test and every send succeeding, a client whose
three replies to each joke are accepted receives, for each `k` in turn, the
four lines `Server: Knock knock!`, `Server: <setup of jokes[order[k]]>.`,
`Server: <punchline of jokes[order[k]]>` and
`Server: Would you like to listen to another? (Y/N)`, then after the `N`-th
`yes` the line `Server: I have no more jokes to tell.`; `client_worker` then
returns with the socket closed, the bytes that follow the replies unread,
`g_active` as before and `g_served_sessions` one higher; the jokes told are
`jokes[order[0]]`, ..., `jokes[order[N-1]]`, every corpus index exactly once. -/
theorem full_session_tells_every_joke_once (jokes : List Joke) (order : List Nat)
    (rs : List Replies) (running : Nat → Bool) (sendOk : Nat → Bool) (g : Globals)
    (rest : List Nat)
    (hN : 15 ≤ jokes.length) (hperm : order.Perm (List.range jokes.length))
    (hrun : ∀ n, running n = true) (hsend : ∀ n, sendOk n = true)
    (hlen : rs.length = order.length)
    (hacc : ∀ p ∈ order.zip rs, acceptedAt jokes p.1 p.2 = true) :
    client_worker jokes order running g
        { inbound := rs.flatMap Replies.wire ++ rest, sendOk := sendOk, sent := [],
          closed := false } =
      Run.returned
        { g_active := g.g_active, g_served_sessions := g.g_served_sessions + 1 }
        { inbound := rest, sendOk := sendOk,
          sent := (order.filterMap (jokes[·]?)).flatMap (fun J =>
              [bytes "Server: Knock knock!\n",
                bytes "Server: " ++ J.setup ++ bytes ".\n",
                bytes "Server: " ++ J.punch ++ bytes "\n",
                bytes "Server: Would you like to listen to another? (Y/N)\n"]) ++
            [bytes "Server: I have no more jokes to tell.\n"],
          closed := true } ∧
    List.Forall₂ (fun i J => jokes[i]? = some J) order (order.filterMap (jokes[·]?)) ∧
    (∀ i, i < jokes.length → order.count i = 1) :=
  full_session_run jokes order rs running sendOk g rest hN hperm hrun hsend hlen hacc

set_option maxRecDepth 100000 in
theorem full_session_tells_every_joke_once_witness :
    sampleOrder.Perm (List.range sampleJokes.length) ∧
    (∀ p ∈ sampleOrder.zip sampleReplies, acceptedAt sampleJokes p.1 p.2 = true) ∧
    client_worker sampleJokes sampleOrder (fun _ => true)
        { g_active := 0, g_served_sessions := 0 }
        { inbound := sampleReplies.flatMap Replies.wire ++ [], sendOk := fun _ => true,
          sent := [], closed := false } =
      Run.returned
        { g_active := 0, g_served_sessions := 0 + 1 }
        { inbound := [], sendOk := fun _ => true,
          sent := (sampleOrder.filterMap (sampleJokes[·]?)).flatMap (fun J =>
              [bytes "Server: Knock knock!\n",
                bytes "Server: " ++ J.setup ++ bytes ".\n",
                bytes "Server: " ++ J.punch ++ bytes "\n",
                bytes "Server: Would you like to listen to another? (Y/N)\n"]) ++
            [bytes "Server: I have no more jokes to tell.\n"],
          closed := true } :=
  ⟨by decide, by decide,
    (full_session_tells_every_joke_once sampleJokes sampleOrder sampleReplies (fun _ => true)
      (fun _ => true) { g_active := 0, g_served_sessions := 0 } []
      (by decide) (by decide) (fun _ => rfl) (fun _ => rfl) (by decide) (by decide)).1⟩

/-! ## The shuffled order is a permutation -/

theorem iter_swap_perm (v : List Nat) (i j : Nat) : (iter_swap v i j).Perm v := by
  unfold iter_swap
  cases hi : v[i]? with
  | none => exact List.Perm.refl _
  | some a =>
    cases hj : v[j]? with
    | none => exact List.Perm.refl _
    | some b =>
      obtain ⟨hil, hia⟩ := List.getElem?_eq_some.mp hi
      obtain ⟨hjl, hjb⟩ := List.getElem?_eq_some.mp hj
      simp only
      rw [List.perm_iff_count]
      intro x
      have hjl' : j < (v.set i b).length := by simpa using hjl
      rw [List.count_set _ _ _ _ hjl', List.count_set _ _ _ _ hil]
      have hget : (v.set i b)[j] = b := by
        rw [List.getElem_set]
        split
        · rfl
        · exact hjb
      rw [hget, hia]
      have hle : (if (a == x) = true then 1 else 0) ≤ List.count x v := by
        split
        · next h =>
          have hax : a = x := by simpa using h
          have : x ∈ v := by rw [← hax, ← hia]; exact List.getElem_mem _
          exact List.count_pos_iff.mpr this
        · exact Nat.zero_le _
      omega

theorem foldl_iter_swap_perm (f : Nat → Nat) (steps : List Nat) (v : List Nat) :
    (steps.foldl (fun acc i => iter_swap acc i (f i)) v).Perm v := by
  induction steps generalizing v with
  | nil => exact List.Perm.refl _
  | cons i t ih =>
    rw [List.foldl_cons]
    exact (ih _).trans (iter_swap_perm v i (f i))

theorem shuffle_perm (draw : Nat → Nat) (v : List Nat) : (shuffle draw v).Perm v :=
  foldl_iter_swap_perm (fun i => draw i % (i + 1)) _ v

theorem session_order_perm (draw : Nat → Nat) (jokes : List Joke) :
    (session_order draw jokes).Perm (List.range jokes.length) :=
  shuffle_perm draw (iota jokes.length)

theorem session_order_lt (draw : Nat → Nat) (jokes : List Joke) :
    ∀ i ∈ session_order draw jokes, i < jokes.length := fun _ hi =>
  List.mem_range.mp ((session_order_perm draw jokes).mem_iff.mp hi)

/-! ## No out-of-range access -/

theorem jokeAt_some (jokes : List Joke) (order : List Nat) (idx : Nat)
    (hin : ∀ i ∈ order, i < jokes.length) (hidx : idx < order.length) :
    ∃ J, (order[idx]? >>= (jokes[·]?)) = some J := by
  have hi : order[idx] < jokes.length := hin _ (List.getElem_mem _)
  refine ⟨jokes[order[idx]], ?_⟩
  rw [List.getElem?_eq_getElem hidx]
  exact List.getElem?_eq_getElem hi

theorem loop_body_no_ub (jokes : List Joke) (order : List Nat) (v : Vars)
    (hin : ∀ i ∈ order, i < jokes.length) (hidx : v.idx < order.length) :
    (loop_body jokes order v).1 ≠ Flow.ub := by
  obtain ⟨J, hJ⟩ := jokeAt_some jokes order v.idx hin hidx
  unfold loop_body
  rw [hJ]
  simp only
  rcases recv_line v.conn.inbound with ⟨_ | line, rest⟩
  · simp
  · simp only
    cases v.st <;> simp only <;> split_ifs <;> simp

theorem loop_no_ub (jokes : List Joke) (order : List Nat) (running : Nat → Bool)
    (hin : ∀ i ∈ order, i < jokes.length) :
    ∀ (fuel iter : Nat) (v : Vars) (r : Flow × Vars),
      loop jokes order running fuel iter v = some r → r.1 ≠ Flow.ub := by
  intro fuel
  induction fuel with
  | zero => intro iter v r h; simp [loop] at h
  | succ n ih =>
    intro iter v r h
    unfold loop at h
    have hstep : (loop_step jokes order (running iter) v).1 ≠ Flow.ub := by
      unfold loop_step
      split_ifs with hc
      · simp only [Bool.and_eq_true, decide_eq_true_eq] at hc
        exact loop_body_no_ub jokes order v hin hc.2
      · simp
    revert h hstep
    rcases loop_step jokes order (running iter) v with ⟨fl, w⟩
    intro h hstep
    cases fl
    · exact ih _ _ _ h
    · simp only [Option.some.injEq] at h; rw [← h]; simp
    · simp only [Option.some.injEq] at h; rw [← h]; simp
    · exact absurd rfl hstep

/-- Whatever happens on the connection, a run of `client_worker` with an
in-range `order` returns, with `g_active` back at its value and
`g_served_sessions` one higher, and the socket closed. -/
theorem client_worker_returns (jokes : List Joke) (order : List Nat) (running : Nat → Bool)
    (g : Globals) (cfd : Conn) (hin : ∀ i ∈ order, i < jokes.length) :
    ∃ c, client_worker jokes order running g cfd =
        Run.returned { g_active := g.g_active, g_served_sessions := g.g_served_sessions + 1 } c ∧
      c.closed = true := by
  have hg : g.g_active + 1 - 1 = g.g_active := by omega
  unfold client_worker
  simp only
  split_ifs
  · exact ⟨(finish g (send_all cfd msgKnock).2).2, by simp only [finish, hg], rfl⟩
  · obtain ⟨r, hr⟩ := loop_fuel_suffices jokes order running (cfd.inbound.length + 1) 0
      { idx := 0, st := State.WAIT_WHO, conn := (send_all cfd msgKnock).2 }
      (by simp [send_all])
    have hub := loop_no_ub jokes order running hin _ _ _ _ hr
    rw [hr]
    rcases r with ⟨fl, w⟩
    cases fl
    · exact ⟨(finish g (after_loop order w)).2, by simp only [finish, hg], rfl⟩
    · exact ⟨(finish g (after_loop order w)).2, by simp only [finish, hg], rfl⟩
    · exact ⟨(finish g w.conn).2, by simp only [finish, hg], rfl⟩
    · exact absurd rfl hub

/-! ## The accept loop on idle passes -/

theorem isIdleTick_iff (t : Tick) :
    isIdleTick t = true ↔
      t.running = true ∧ t.active = 0 ∧ t.ready = false ∧ t.active_late = 0 := by
  simp [isIdleTick, and_assoc]

/-- An idle pass below the limit adds 200 ms. -/
theorem accept_pass_idle (E D : Int) (t : Tick) (s : AcceptVars) (hE : E < 0) (hD : 0 < D)
    (ht : isIdleTick t = true) (hlt : s.idle_ms < D) (hmax : s.idle_ms + 200 ≤ INT_MAX) :
    accept_pass { g_expected_sessions := E, g_idle_exit_ms := D } t s =
      Pass.again { idle_ms := s.idle_ms + 200, selects := s.selects + 1, workers := s.workers } := by
  obtain ⟨h1, h2, h3, h4⟩ := (isIdleTick_iff t).mp ht
  have hE' : ¬ (E ≥ 0 ∧ t.served ≥ E) := by omega
  have hge : ¬ s.idle_ms ≥ D := by omega
  have hov : ¬ s.idle_ms + 200 > INT_MAX := by omega
  simp only [accept_pass, idle_check, h1, h2, h3, h4, hE', hD, hge, hov, Bool.not_true,
    Bool.false_eq_true, if_false, if_true, and_self, gt_iff_lt]

/-- An idle pass at or above the limit leaves the loop. -/
theorem accept_pass_idle_stop (E D : Int) (t : Tick) (s : AcceptVars) (hD : 0 < D)
    (ht : isIdleTick t = true) (hge : s.idle_ms ≥ D) :
    accept_pass { g_expected_sessions := E, g_idle_exit_ms := D } t s = Pass.stop s := by
  obtain ⟨h1, h2, h3, h4⟩ := (isIdleTick_iff t).mp ht
  simp only [accept_pass, idle_check, h1, h2, hD, hge, Bool.not_true, Bool.false_eq_true,
    if_false, if_true, and_self, gt_iff_lt]
  split_ifs <;> rfl

/-- A run of idle passes, none of which reaches the limit or overflows. -/
theorem accept_loop_idle_run (E D : Int) (hE : E < 0) (hD : 0 < D) :
    ∀ (ticks rest : List Tick) (s : AcceptVars),
      (∀ t ∈ ticks, isIdleTick t = true) →
      s.idle_ms + 200 * (ticks.length : Int) < D + 200 →
      s.idle_ms + 200 * (ticks.length : Int) ≤ INT_MAX →
      accept_loop { g_expected_sessions := E, g_idle_exit_ms := D } (ticks ++ rest) s =
        accept_loop { g_expected_sessions := E, g_idle_exit_ms := D } rest
          { idle_ms := s.idle_ms + 200 * (ticks.length : Int),
            selects := s.selects + ticks.length, workers := s.workers } := by
  intro ticks
  induction ticks with
  | nil => intro rest s _ _ _; simp
  | cons t ts ih =>
    intro rest s hall hlt hmax
    simp only [List.length_cons, Nat.cast_add, Nat.cast_one] at hlt hmax
    have hpass := accept_pass_idle E D t s hE hD (hall t (List.mem_cons_self _ _))
      (by omega) (by omega)
    rw [List.cons_append, accept_loop, hpass]
    simp only
    rw [ih rest _ (fun x hx => hall x (List.mem_cons_of_mem _ hx)) (by simp only; omega)
      (by simp only; omega)]
    simp only [List.length_cons, Nat.cast_add, Nat.cast_one]
    congr 2
    · ring
    · omega

theorem ceilTicks_spec (D : Int) (hD : 0 < D) :
    200 * ((ceilTicks D : Nat) : Int) < D + 200 ∧ D ≤ 200 * ((ceilTicks D : Nat) : Int) := by
  unfold ceilTicks
  omega

/-! ## C13: idle exit -/

/-- Where `idle_ms` stays within `int`: with an idle-exit duration `D`,
`0 < D ≤ 2147483600`, no expected-session-count, and passes on which
`g_running` is set, no session is active and no connection arrives, the
accumulator is `200 * k` after `k` timeout ticks and the loop is still running
as long as `k ≤ ceil(D / 200)`; the evaluation that follows the tick number
`ceil(D / 200)` leaves the loop, with `200 * ceil(D / 200)` accumulated (3
ticks and 600 ms for `D = 500`); and an evaluation that reads a nonzero
`g_active` sets the accumulator to zero. -/
theorem idle_exit_within_int_range (E D : Int) (hE : E < 0) (hD : 0 < D)
    (hmax : D ≤ 2147483600) :
    (∀ ticks : List Tick, (∀ t ∈ ticks, isIdleTick t = true) →
      ticks.length ≤ ceilTicks D →
      accept_loop { g_expected_sessions := E, g_idle_exit_ms := D } ticks
          { idle_ms := 0, selects := 0, workers := 0 } =
        Ended.looping
          { idle_ms := 200 * (ticks.length : Int), selects := ticks.length, workers := 0 }) ∧
    (∀ (ticks : List Tick) (t : Tick) (post : List Tick),
      (∀ t ∈ ticks, isIdleTick t = true) → isIdleTick t = true →
      ticks.length = ceilTicks D →
      accept_loop { g_expected_sessions := E, g_idle_exit_ms := D } (ticks ++ t :: post)
          { idle_ms := 0, selects := 0, workers := 0 } =
        Ended.stopped
          { idle_ms := 200 * (ceilTicks D : Int), selects := ceilTicks D, workers := 0 }) ∧
    (200 * (ceilTicks D : Int) < D + 200 ∧ D ≤ 200 * (ceilTicks D : Int)) ∧
    (ceilTicks 500 = 3) ∧
    (∀ (t : Tick) (idle_ms : Int), t.active ≠ 0 →
      idle_check { g_expected_sessions := E, g_idle_exit_ms := D } t idle_ms = some 0) := by
  obtain ⟨hc1, hc2⟩ := ceilTicks_spec D hD
  have hI : INT_MAX = 2147483647 := rfl
  refine ⟨?_, ?_, ⟨hc1, hc2⟩, by decide, ?_⟩
  · intro ticks hall hlen
    have hlen' : (ticks.length : Int) ≤ (ceilTicks D : Int) := by exact_mod_cast hlen
    have := accept_loop_idle_run E D hE hD ticks [] { idle_ms := 0, selects := 0, workers := 0 }
      hall (by simp only; omega) (by simp only; omega)
    rw [List.append_nil] at this
    rw [this]
    simp [accept_loop]
  · intro ticks t post hall ht hlen
    have hlen' : (ticks.length : Int) = (ceilTicks D : Int) := by exact_mod_cast hlen
    rw [accept_loop_idle_run E D hE hD ticks (t :: post)
      { idle_ms := 0, selects := 0, workers := 0 } hall (by simp only; omega)
      (by simp only; omega)]
    rw [accept_loop, accept_pass_idle_stop E D t _ hD ht (by simp only; omega)]
    simp only [hlen, zero_add, Ended.stopped.injEq, AcceptVars.mk.injEq, and_true]
  · intro t idle_ms hact
    simp [idle_check, hact]

/-- C13 at the failing input: with `--idle-exit-ms 2147483647`, no
expected-session-count and nothing but idle passes, `ceil(D / 200)` is
10737419; after 10737418 timeout ticks the accumulator holds 2147483600, which
is below `D`, so the loop goes on, and the next `idle_ms += 200` goes beyond
`INT_MAX`: the loop does not stop after 10737419 ticks with 2147483800 ms
accumulated. -/
theorem idle_exit_overflows_near_int_max :
    ceilTicks 2147483647 = 10737419 ∧
    accept_loop { g_expected_sessions := -1, g_idle_exit_ms := 2147483647 }
        (List.replicate 10737418 idleTick)
        { idle_ms := 0, selects := 0, workers := 0 } =
      Ended.looping { idle_ms := 2147483600, selects := 10737418, workers := 0 } ∧
    accept_loop { g_expected_sessions := -1, g_idle_exit_ms := 2147483647 }
        (List.replicate 10737418 idleTick ++ [idleTick])
        { idle_ms := 0, selects := 0, workers := 0 } =
      Ended.overflow := by
  have hrun := fun rest => accept_loop_idle_run (-1) 2147483647 (by decide) (by decide)
    (List.replicate 10737418 idleTick) rest
    { idle_ms := 0, selects := 0, workers := 0 }
    (fun t ht => by rw [List.eq_of_mem_replicate ht]; rfl)
    (by rw [List.length_replicate]; decide)
    (by rw [List.length_replicate]; decide)
  refine ⟨by decide, ?_, ?_⟩
  · have h := hrun []
    rw [List.append_nil, List.length_replicate] at h
    rw [h]
    decide
  · rw [hrun [idleTick], List.length_replicate]
    decide

/-! ## C12: expected session count -/

/-- A pass that does not leave the loop launches at most one worker. -/
theorem accept_pass_workers (cfg : Config) (t : Tick) (s s1 : AcceptVars)
    (h : accept_pass cfg t s = Pass.again s1) :
    s1.workers = s.workers ∨
      (s1.workers = s.workers + 1 ∧ t.ready = true ∧ t.accepted = true) := by
  unfold accept_pass at h
  cases hi : idle_check cfg t s.idle_ms with
  | none =>
    rw [hi] at h
    split_ifs at h
  | some idle =>
    rw [hi] at h
    simp only at h
    split_ifs at h with h1 h2 h3 h4 h5 h6 <;> cases h <;>
      first
      | exact Or.inl rfl
      | exact Or.inr ⟨rfl, h3, h4⟩

/-- C12, as stated, fails: with `E = 2` the loop reads `g_served_sessions` once
per pass, at line 272, and not again before `accept`.  A pass that read one
completed session goes on to `select`; when the second session completes
while `select` waits (`served_at_accept = 2` is the counter at the moment
`accept` returns) and a connection then arrives, the pass accepts it and
launches a worker.  Of three workers the third is launched on such a pass, and
the loop stops at the next evaluation. -/
theorem accept_after_two_completed_counterexample :
    (¬ ∀ (t : Tick) (served_at_accept : Int) (s s1 : AcceptVars),
      t.served ≤ served_at_accept → 2 ≤ served_at_accept →
      accept_pass { g_expected_sessions := 2, g_idle_exit_ms := -1 } t s = Pass.again s1 →
      s1.workers = s.workers) ∧
    accept_loop { g_expected_sessions := 2, g_idle_exit_ms := -1 }
        [{ running := true, served := 1, active := 1, ready := true, accepted := true,
           active_late := 1 },
         { running := true, served := 2, active := 1, ready := true, accepted := true,
           active_late := 1 }]
        { idle_ms := 0, selects := 7, workers := 2 } =
      Ended.stopped { idle_ms := 0, selects := 8, workers := 3 } := by
  constructor
  · intro h
    have := h { running := true, served := 1, active := 1, ready := true, accepted := true,
                 active_late := 1 } 2
      { idle_ms := 0, selects := 7, workers := 2 }
      { idle_ms := 0, selects := 8, workers := 3 } (by decide) (by decide) (by decide)
    revert this
    decide
  · decide

/-- C12, amended: with an expected-session-count `E ≥ 0` configured, the served
count is read once per pass, at the top.  A pass that reads a count `≥ E`
leaves the loop before `select` and `accept` (state unchanged).  A pass that
reads a count `< E`, with `g_running` set and the idle limit not reached, does
not leave the loop, calls `select`, and launches a worker when a connection is
there and `accept` returns it, whatever the count has become by then.  When a
pass has run to its end and the next evaluation reads a count `≥ E`, the loop
stops there, whatever arrives afterwards: between a read `< E` and the stop at
most one worker is launched, so at most one connection is accepted after the
count has reached `E`. -/
theorem expected_sessions_stop (E D : Int) (t : Tick) (s : AcceptVars) (hE : 0 ≤ E) :
    (t.served ≥ E →
      accept_pass { g_expected_sessions := E, g_idle_exit_ms := D } t s = Pass.stop s) ∧
    (t.served < E → t.running = true →
      idle_check { g_expected_sessions := E, g_idle_exit_ms := D } t s.idle_ms ≠ none →
      (∀ s', accept_pass { g_expected_sessions := E, g_idle_exit_ms := D } t s ≠ Pass.stop s') ∧
      (t.ready = true → t.accepted = true →
        ∃ idle, accept_pass { g_expected_sessions := E, g_idle_exit_ms := D } t s =
          Pass.again { idle_ms := idle, selects := s.selects + 1, workers := s.workers + 1 })) ∧
    (t.served ≥ E → ∀ post : List Tick,
      accept_loop { g_expected_sessions := E, g_idle_exit_ms := D } (t :: post) s =
        Ended.stopped s) ∧
    (∀ (s1 : AcceptVars) (t2 : Tick) (post : List Tick),
      accept_pass { g_expected_sessions := E, g_idle_exit_ms := D } t s = Pass.again s1 →
      t2.served ≥ E →
      accept_loop { g_expected_sessions := E, g_idle_exit_ms := D } (t :: t2 :: post) s =
        Ended.stopped s1 ∧
      (s1.workers = s.workers ∨
        (s1.workers = s.workers + 1 ∧ t.ready = true ∧ t.accepted = true))) := by
  have hstop : ∀ (t : Tick) (s : AcceptVars), t.served ≥ E →
      accept_pass { g_expected_sessions := E, g_idle_exit_ms := D } t s = Pass.stop s := by
    intro t s h
    have hc : E ≥ 0 ∧ t.served ≥ E := ⟨hE, h⟩
    simp only [accept_pass, hc, and_self, if_true]
    split_ifs <;> rfl
  refine ⟨hstop t s, ?_, ?_, ?_⟩
  · intro hlt hrun hidle
    have hE' : ¬ (E ≥ 0 ∧ t.served ≥ E) := by omega
    cases hi : idle_check { g_expected_sessions := E, g_idle_exit_ms := D } t s.idle_ms with
    | none => exact absurd hi hidle
    | some idle =>
      constructor
      · intro s'
        simp only [accept_pass, hrun, hE', hi, Bool.not_true, Bool.false_eq_true, if_false]
        split_ifs <;> simp
      · intro hready hacc
        exact ⟨idle, by
          simp only [accept_pass, hrun, hE', hi, hready, hacc, Bool.not_true,
            Bool.false_eq_true, if_false, if_true]⟩
  · intro h post
    rw [accept_loop, hstop t s h]
  · intro s1 t2 post h1 h2
    refine ⟨?_, accept_pass_workers _ t s s1 h1⟩
    rw [accept_loop, h1]
    simp only
    rw [accept_loop, hstop t2 s1 h2]

theorem expected_sessions_stop_witness :
    accept_loop { g_expected_sessions := 2, g_idle_exit_ms := -1 }
        ({ running := true, served := 1, active := 1, ready := true, accepted := true,
           active_late := 1 } ::
         { running := true, served := 2, active := 0, ready := true, accepted := true,
           active_late := 0 } :: [idleTick])
        { idle_ms := 0, selects := 7, workers := 2 } =
      Ended.stopped { idle_ms := 0, selects := 8, workers := 3 } :=
  ((expected_sessions_stop 2 (-1)
    { running := true, served := 1, active := 1, ready := true, accepted := true,
      active_late := 1 }
    { idle_ms := 0, selects := 7, workers := 2 } (by decide)).2.2.2
    { idle_ms := 0, selects := 8, workers := 3 }
    { running := true, served := 2, active := 0, ready := true, accepted := true,
      active_late := 0 } [idleTick] (by decide) (by decide)).1

/-! ## C14: a connection accepted while idle time has accumulated -/

/-- C14, as stated, fails: with idle-exit 500 ms and 400 ms accumulated, a pass
that reads `g_active = 0` and then accepts a connection ends with 400 ms
still accumulated. -/
theorem accept_keeps_idle_counterexample :
    ¬ ∀ (t : Tick) (s s' : AcceptVars), t.running = true → t.ready = true →
      t.accepted = true → s.idle_ms = 400 →
      accept_pass { g_expected_sessions := -1, g_idle_exit_ms := 500 } t s = Pass.again s' →
      s'.idle_ms = 0 := by
  intro h
  have := h { running := true, served := 0, active := 0, ready := true, accepted := true,
               active_late := 0 }
    { idle_ms := 400, selects := 2, workers := 0 }
    { idle_ms := 400, selects := 3, workers := 1 } rfl rfl rfl rfl (by decide)
  revert this
  decide

/-- C14, amended: with idle-exit configured, a pass on which a connection is
accepted does not touch the accumulator after the evaluation at the top of the
pass: when that evaluation read `g_active = 0` (and the limit was not reached)
the accumulated idle time is unchanged at the end of the pass, 400 ms staying
400 ms for a limit of 500 ms; it is zero at the end of the pass when the
evaluation read a nonzero `g_active`, which is what a started worker
(`g_active++` at server.cpp 137) makes a later evaluation read. -/
theorem accept_leaves_idle_unchanged (E D : Int) (t : Tick) (s : AcceptVars)
    (hD : 0 < D) (hrun : t.running = true) (hE : ¬ (E ≥ 0 ∧ t.served ≥ E))
    (hready : t.ready = true) (hacc : t.accepted = true) :
    (t.active = 0 → s.idle_ms < D →
      accept_pass { g_expected_sessions := E, g_idle_exit_ms := D } t s =
        Pass.again { idle_ms := s.idle_ms, selects := s.selects + 1,
                     workers := s.workers + 1 }) ∧
    (t.active ≠ 0 →
      accept_pass { g_expected_sessions := E, g_idle_exit_ms := D } t s =
        Pass.again { idle_ms := 0, selects := s.selects + 1, workers := s.workers + 1 }) := by
  constructor
  · intro h0 hlt
    have hge : ¬ s.idle_ms ≥ D := by omega
    simp only [accept_pass, idle_check, hrun, hE, hready, hacc, h0, hD, hge, Bool.not_true,
      Bool.false_eq_true, if_false, if_true, and_self, gt_iff_lt]
  · intro h0
    simp only [accept_pass, idle_check, hrun, hE, hready, hacc, h0, Bool.not_true,
      Bool.false_eq_true, if_false, if_true, and_false]

theorem accept_leaves_idle_unchanged_witness :
    accept_pass { g_expected_sessions := -1, g_idle_exit_ms := 500 }
        { running := true, served := 0, active := 0, ready := true, accepted := true,
          active_late := 0 }
        { idle_ms := 400, selects := 2, workers := 0 } =
      Pass.again { idle_ms := 400, selects := 2 + 1, workers := 0 + 1 } :=
  (accept_leaves_idle_unchanged (-1) 500
    { running := true, served := 0, active := 0, ready := true, accepted := true,
      active_late := 0 }
    { idle_ms := 400, selects := 2, workers := 0 }
    (by decide) rfl (by decide) rfl rfl).1 rfl (by decide)

/-! ## C11: counters of a session -/

theorem first_sigpipe_some (res : Nat → SendResult) (calls k : Nat)
    (h : first_sigpipe res calls = some k) :
    k < calls ∧ res k = SendResult.sigpipe ∧ ∀ i, i < k → res i ≠ SendResult.sigpipe := by
  induction calls with
  | zero => simp [first_sigpipe] at h
  | succ n ih =>
    unfold first_sigpipe at h ih
    rw [List.range_succ, List.find?_append] at h
    cases hn : (List.range n).find? (fun k => decide (res k = SendResult.sigpipe)) with
    | some j =>
      rw [hn] at h
      simp at h
      subst h
      obtain ⟨h1, h2, h3⟩ := ih hn
      exact ⟨Nat.lt_succ_of_lt h1, h2, h3⟩
    | none =>
      rw [hn] at h
      have hk : res n = SendResult.sigpipe ∧ n = k := by
        by_cases hr : res n = SendResult.sigpipe
        · simp [List.find?, hr] at h
          exact ⟨hr, h⟩
        · simp [List.find?, hr] at h
      obtain ⟨hr, rfl⟩ := hk
      refine ⟨Nat.lt_succ_self _, hr, ?_⟩
      intro i hi
      have := List.find?_eq_none.mp hn i (List.mem_range.mpr hi)
      simpa using this

theorem first_sigpipe_none (res : Nat → SendResult) (calls : Nat)
    (h : first_sigpipe res calls = none) : ∀ k, k < calls → res k ≠ SendResult.sigpipe := by
  unfold first_sigpipe at h
  intro k hk
  have := List.find?_eq_none.mp h k (List.mem_range.mpr hk)
  simpa using this

/-- C11 fails for a session whose peer has gone.  The peer sends the line
`hello` and closes; the worker sends the opening prompt, reads the line, and
`restart_joke` sends the correction and then the opening prompt again: on that
call SIGPIPE is raised and ends the process.  `g_active` stays incremented and
`g_served_sessions` is not incremented: the label `done` is not reached.  In
general, for every session, either no call of `send_all` that the worker
makes raises SIGPIPE, and the worker returns with `g_served_sessions` one
higher, `g_active` at the value it had before and the socket closed; or one
does, and the process ends inside that call with `g_active` one higher and
`g_served_sessions` unchanged. -/
theorem sigpipe_ends_process_before_done :
    client_worker_proc sampleJokes sampleOrder (fun _ => true) peerGone
        { g_active := 0, g_served_sessions := 0 } (bytes "hello\n") =
      Proc.killed { g_active := 1, g_served_sessions := 0 }
        [bytes "Server: Knock knock!\n",
          bytes "Server: You are supposed to say, \"Who" ++ [0xE2, 0x80, 0x99] ++
            bytes "s there?\" Let" ++ [0xE2, 0x80, 0x99] ++ bytes "s try again.\n",
          bytes "Server: Knock knock!\n"] ∧
    ∀ (jokes : List Joke) (draw : Nat → Nat) (running : Nat → Bool) (res : Nat → SendResult)
      (g : Globals) (inbound : List Nat),
      (∃ c, client_worker_proc jokes (session_order draw jokes) running res g inbound =
          Proc.returned
            { g_active := g.g_active, g_served_sessions := g.g_served_sessions + 1 } c ∧
        c.closed = true ∧ ∀ k, k < c.sent.length → res k ≠ SendResult.sigpipe) ∨
      (∃ sent k, client_worker_proc jokes (session_order draw jokes) running res g inbound =
          Proc.killed
            { g_active := g.g_active + 1, g_served_sessions := g.g_served_sessions } sent ∧
        sent.length = k + 1 ∧ res k = SendResult.sigpipe ∧
        ∀ i, i < k → res i ≠ SendResult.sigpipe) := by
  constructor
  · rfl
  · intro jokes draw running res g inbound
    obtain ⟨c, hc, hclosed⟩ := client_worker_returns jokes (session_order draw jokes) running g
      { inbound := inbound, sendOk := fun k => decide (res k = SendResult.sent), sent := [],
        closed := false } (session_order_lt draw jokes)
    unfold client_worker_proc
    rw [hc]
    simp only
    cases hf : first_sigpipe res c.sent.length with
    | none =>
      exact Or.inl ⟨c, rfl, hclosed, first_sigpipe_none res _ hf⟩
    | some k =>
      obtain ⟨hk, hres, hmin⟩ := first_sigpipe_some res _ k hf
      refine Or.inr ⟨c.sent.take (k + 1), k, rfl, ?_, hres, hmin⟩
      rw [List.length_take]
      omega

/-! ## C15: the order of a session is a permutation -/

/-- C15: whatever numbers the shuffle draws, the vector `order` is a
permutation of `0..N-1`: it has length `N` and no repeats, every access
`jokes[order[idx]]` with `idx < N` is in range, no run of `client_worker` makes
an out-of-range access, and no corpus index occurs twice in the order in which
the jokes are told. -/
theorem session_order_is_permutation (jokes : List Joke) (draw : Nat → Nat) :
    (session_order draw jokes).Perm (List.range jokes.length) ∧
    (session_order draw jokes).length = jokes.length ∧
    (session_order draw jokes).Nodup ∧
    (∀ idx, idx < jokes.length →
      ∃ i J, (session_order draw jokes)[idx]? = some i ∧ i < jokes.length ∧
        jokes[i]? = some J) ∧
    (∀ (running : Nat → Bool) (g : Globals) (cfd : Conn),
      client_worker jokes (session_order draw jokes) running g cfd ≠
        Run.undefined_behaviour) := by
  have hperm := session_order_perm draw jokes
  have hlen : (session_order draw jokes).length = jokes.length := by
    rw [hperm.length_eq, List.length_range]
  refine ⟨hperm, hlen, hperm.nodup_iff.mpr (List.nodup_range _), ?_, ?_⟩
  · intro idx hidx
    have hidx' : idx < (session_order draw jokes).length := by rw [hlen]; exact hidx
    have hi := session_order_lt draw jokes _ (List.getElem_mem hidx')
    exact ⟨_, _, List.getElem?_eq_getElem hidx', hi, List.getElem?_eq_getElem hi⟩
  · intro running g cfd
    obtain ⟨c, hc, _⟩ := client_worker_returns jokes (session_order draw jokes) running g cfd
      (session_order_lt draw jokes)
    rw [hc]
    simp

/-! ## C16: the orders a 32-bit seed can produce -/

theorem factorial_15_gt : 2 ^ 32 < Nat.factorial 15 := by
  norm_num [Nat.factorial]

/-- With at least 15 jokes some permutation of the corpus indices is the order
of no seed. -/
theorem some_order_never_drawn (gen : Nat → Nat → Nat) (jokes : List Joke)
    (hN : 15 ≤ jokes.length) :
    ∃ p : List Nat, p.Perm (List.range jokes.length) ∧
      ∀ seed, seed < 2 ^ 32 → seeded_order gen seed jokes ≠ p := by
  by_contra hcon
  push_neg at hcon
  have hsub : (List.range jokes.length).permutations.toFinset ⊆
      (Finset.range (2 ^ 32)).image (fun seed => seeded_order gen seed jokes) := by
    intro p hp
    rw [List.mem_toFinset, List.mem_permutations] at hp
    obtain ⟨seed, hs, he⟩ := hcon p hp
    exact Finset.mem_image.mpr ⟨seed, Finset.mem_range.mpr hs, he⟩
  have h1 := Finset.card_le_card hsub
  have h2 : ((Finset.range (2 ^ 32)).image (fun seed => seeded_order gen seed jokes)).card ≤
      2 ^ 32 := by
    calc _ ≤ (Finset.range (2 ^ 32)).card := Finset.card_image_le
      _ = 2 ^ 32 := Finset.card_range _
  have h3 : (List.range jokes.length).permutations.toFinset.card =
      Nat.factorial jokes.length := by
    rw [List.toFinset_card_of_nodup (List.nodup_permutations _ (List.nodup_range _)),
      List.length_permutations, List.length_range]
  have h4 : Nat.factorial 15 ≤ Nat.factorial jokes.length := Nat.factorial_le hN
  have h5 := factorial_15_gt
  omega

/-- C16, as stated, fails: whatever the generator does with its seed, for the
fifteen jokes of `sampleJokes` not every permutation of `0..14` is the order of
some seed below `2 ^ 32`. -/
theorem shuffle_uniform_counterexample :
    ¬ ∃ gen : Nat → Nat → Nat, ∀ p : List Nat, p.Perm (List.range sampleJokes.length) →
      ∃ seed, seed < 2 ^ 32 ∧ seeded_order gen seed sampleJokes = p := by
  rintro ⟨gen, h⟩
  obtain ⟨p, hp, hne⟩ := some_order_never_drawn gen sampleJokes (by decide)
  obtain ⟨seed, hs, he⟩ := h p hp
  exact hne seed hs he

/-- C16, amended: every seed gives a permutation of the corpus indices, and the
order of a session is determined by its seed; for `N ≥ 15` there are more
permutations of `0..N-1` than seeds (`15! > 2 ^ 32`), so some permutation is
the order of no seed: the permutations are not equally likely. -/
theorem shuffle_reaches_few_orders (gen : Nat → Nat → Nat) (jokes : List Joke)
    (hN : 15 ≤ jokes.length) :
    (∀ seed, (seeded_order gen seed jokes).Perm (List.range jokes.length)) ∧
    ∃ p : List Nat, p.Perm (List.range jokes.length) ∧
      ∀ seed, seed < 2 ^ 32 → seeded_order gen seed jokes ≠ p :=
  ⟨fun seed => session_order_perm (gen seed) jokes, some_order_never_drawn gen jokes hN⟩

theorem shuffle_reaches_few_orders_witness :
    15 ≤ sampleJokes.length ∧
    ∃ p : List Nat, p.Perm (List.range sampleJokes.length) ∧
      ∀ seed, seed < 2 ^ 32 → seeded_order (fun seed i => seed + i) seed sampleJokes ≠ p :=
  ⟨by decide, (shuffle_reaches_few_orders (fun seed i => seed + i) sampleJokes (by decide)).2⟩

/-! ## Shape of the result of `normalize` -/

theorem NoPat_of_append_left (bad : List Nat → Bool) (p m : List Nat)
    (h : NoPat bad (p ++ m)) : NoPat bad m := by
  induction p with
  | nil => exact h
  | cons a t ih => exact ih h.2

theorem NoPat_of_append_right (bad : List Nat → Bool)
    (hbad : ∀ m q : List Nat, bad m = true → bad (m ++ q) = true) (m q : List Nat)
    (h : NoPat bad (m ++ q)) : NoPat bad m := by
  induction m with
  | nil => trivial
  | cons a t ih =>
    refine ⟨?_, ih h.2⟩
    by_contra hb
    have hb' : bad (a :: t) = true := by simpa using hb
    have := hbad (a :: t) q hb'
    have h1 : bad ((a :: t) ++ q) = false := h.1
    rw [h1] at this
    cases this

theorem NoPat_not_infix (bad : List Nat → Bool) (pat l : List Nat) (hne : pat ≠ [])
    (hpat : ∀ q : List Nat, bad (pat ++ q) = true) (h : NoPat bad l) : ¬ pat <:+: l := by
  rintro ⟨a, b, hl⟩
  rw [← hl, List.append_assoc] at h
  have h2 := NoPat_of_append_left bad a (pat ++ b) h
  cases hp : pat ++ b with
  | nil => exact hne (List.append_eq_nil.mp hp).1
  | cons x t =>
    rw [hp] at h2
    have := hpat b
    rw [hp, h2.1] at this
    cases this

theorem curlyAt_append (m q : List Nat) (h : curlyAt m = true) : curlyAt (m ++ q) = true := by
  match m, h with
  | a :: b :: c :: r, h => simpa [curlyAt] using h

theorem doubleAt_append (m q : List Nat) (h : doubleAt m = true) : doubleAt (m ++ q) = true := by
  match m, h with
  | a :: b :: r, h => simpa [doubleAt] using h

theorem curlyAt_map_tolower (l : List Nat) : curlyAt (l.map tolower) = curlyAt l := by
  match l with
  | [] => rfl
  | [a] => rfl
  | [a, b] => rfl
  | a :: b :: c :: r =>
    simp only [List.map_cons, curlyAt]
    rw [Bool.eq_iff_iff]
    simp only [Bool.and_eq_true, Bool.or_eq_true, beq_iff_eq]
    rw [tolower_eq_iff_of_ge a _ (by norm_num), tolower_eq_iff_of_ge b _ (by norm_num),
      tolower_eq_iff_of_ge c _ (by norm_num), tolower_eq_iff_of_ge c _ (by norm_num)]

theorem tolower_eq_32 (c : Nat) : tolower c = 32 ↔ c = 32 := by
  unfold tolower
  split <;> omega

theorem doubleAt_map_tolower (l : List Nat) : doubleAt (l.map tolower) = doubleAt l := by
  match l with
  | [] => rfl
  | [a] => rfl
  | a :: b :: r =>
    simp only [List.map_cons, doubleAt]
    rw [Bool.eq_iff_iff]
    simp only [Bool.and_eq_true, beq_iff_eq, tolower_eq_32]

theorem NoPat_map_tolower (bad : List Nat → Bool)
    (hbad : ∀ l : List Nat, bad (l.map tolower) = bad l) (l : List Nat) (h : NoPat bad l) :
    NoPat bad (l.map tolower) := by
  induction l with
  | nil => trivial
  | cons a t ih =>
    refine ⟨?_, ih h.2⟩
    have := hbad (a :: t)
    rw [List.map_cons] at this
    rw [this]
    exact h.1

theorem NoPat_trim (bad : List Nat → Bool)
    (hbad : ∀ m q : List Nat, bad m = true → bad (m ++ q) = true) (l : List Nat)
    (h : NoPat bad l) : NoPat bad (trim l) := by
  obtain ⟨p, q, _, _, hl⟩ := trim_decomp l
  rw [hl, List.append_assoc] at h
  exact NoPat_of_append_right bad hbad _ q (NoPat_of_append_left bad p _ h)

/-- The first byte of `mapQuotes l` is the first byte of `l` or an apostrophe. -/
theorem mapQuotes_head (l : List Nat) (x : Nat) (h : (mapQuotes l).head? = some x) :
    x = 39 ∨ l.head? = some x := by
  match l with
  | [] => simp [mapQuotes] at h
  | [a] => right; simpa [mapQuotes] using h
  | [a, b] => right; simpa [mapQuotes] using h
  | a :: b :: c :: r =>
    simp only [mapQuotes] at h
    split_ifs at h
    · left; simpa using h.symm
    · right; simpa using h

theorem mapQuotes_noCurly (l : List Nat) : NoPat curlyAt (mapQuotes l) := by
  induction l using mapQuotes.induct with
  | case1 => trivial
  | case2 a => exact ⟨rfl, trivial⟩
  | case3 a b ih =>
    simp only [mapQuotes] at ih ⊢
    exact ⟨rfl, ih⟩
  | case4 a b c rest h ih =>
    simp only [mapQuotes, if_pos h]
    refine ⟨?_, ih⟩
    cases hm : mapQuotes rest with
    | nil => rfl
    | cons x t =>
      cases t with
      | nil => rfl
      | cons y t' => simp [curlyAt]
  | case5 a b c rest h ih =>
    simp only [mapQuotes, if_neg h] at ih ⊢
    refine ⟨?_, ih⟩
    by_cases ha : a = 0xE2
    · by_cases hb : b = 0x80
      · have hc : ¬ (c = 0x98 ∨ c = 0x99) := fun hc => h ⟨ha, hb, hc⟩
        have hbne : b ≠ 0xE2 := by omega
        rw [mapQuotes_cons_of_ne b _ hbne]
        cases hm : mapQuotes (c :: rest) with
        | nil => rfl
        | cons x t =>
          have hx := mapQuotes_head (c :: rest) x (by rw [hm]; rfl)
          simp only [curlyAt, Bool.and_eq_false_iff, Bool.or_eq_false_iff, beq_eq_false_iff_ne]
          right
          rcases hx with hx | hx
          · subst hx; constructor <;> decide
          · simp only [List.head?_cons, Option.some.injEq] at hx
            subst hx
            exact ⟨fun e => hc (Or.inl e), fun e => hc (Or.inr e)⟩
      · cases hm : mapQuotes (b :: c :: rest) with
        | nil => rfl
        | cons x t =>
          have hx := mapQuotes_head (b :: c :: rest) x (by rw [hm]; rfl)
          cases t with
          | nil => rfl
          | cons y t' =>
            simp only [curlyAt, Bool.and_eq_false_iff, Bool.or_eq_false_iff, beq_eq_false_iff_ne]
            left; right
            rcases hx with hx | hx
            · subst hx; decide
            · simp only [List.head?_cons, Option.some.injEq] at hx
              subst hx
              exact hb
    · cases hm : mapQuotes (b :: c :: rest) with
      | nil => rfl
      | cons x t =>
        cases t with
        | nil => rfl
        | cons y t' => simp [curlyAt, ha]

theorem collapse_mem_space (p : Bool) (l : List Nat) :
    ∀ c ∈ collapse p l, isspace c = true → c = 32 := by
  induction l generalizing p with
  | nil => intro c hc; simp [collapse] at hc
  | cons a t ih =>
    intro c hc hs
    by_cases ha : isspace a = true
    · cases p
      · simp only [collapse, ha, if_true, Bool.false_eq_true, if_false, List.mem_cons] at hc
        rcases hc with rfl | hc
        · rfl
        · exact ih true c hc hs
      · simp only [collapse, ha, if_true] at hc
        exact ih true c hc hs
    · simp only [collapse, ha, Bool.false_eq_true, if_false, List.mem_cons] at hc
      rcases hc with rfl | hc
      · exact absurd hs ha
      · exact ih false c hc hs

theorem collapse_true_head (l : List Nat) (x : Nat) (h : (collapse true l).head? = some x) :
    isspace x = false := by
  induction l with
  | nil => simp [collapse] at h
  | cons a t ih =>
    by_cases ha : isspace a = true
    · simp only [collapse, ha, if_true] at h
      exact ih h
    · simp only [collapse, ha, Bool.false_eq_true, if_false, List.head?_cons,
        Option.some.injEq] at h
      subst h
      simpa using ha

theorem doubleAt_cons_false (a : Nat) (t : List Nat)
    (h : a ≠ 32 ∨ ∀ x, t.head? = some x → x ≠ 32) : doubleAt (a :: t) = false := by
  cases t with
  | nil => rfl
  | cons b r =>
    simp only [doubleAt, Bool.and_eq_false_iff, beq_eq_false_iff_ne]
    rcases h with h | h
    · exact Or.inl h
    · exact Or.inr (h b rfl)

theorem collapse_noDouble (p : Bool) (l : List Nat) : NoPat doubleAt (collapse p l) := by
  induction l generalizing p with
  | nil => trivial
  | cons a t ih =>
    by_cases ha : isspace a = true
    · cases p
      · simp only [collapse, ha, if_true, Bool.false_eq_true, if_false]
        refine ⟨doubleAt_cons_false _ _ (Or.inr ?_), ih true⟩
        intro x hx h32
        have := collapse_true_head t x hx
        rw [h32] at this
        exact absurd this (by decide)
      · simp only [collapse, ha, if_true]
        exact ih true
    · simp only [collapse, ha, Bool.false_eq_true, if_false]
      refine ⟨doubleAt_cons_false _ _ (Or.inl ?_), ih false⟩
      intro h32
      rw [h32] at ha
      exact ha (by decide)

theorem curlyAt_first (a : Nat) (r : List Nat) (ha : a ≠ 0xE2) : curlyAt (a :: r) = false := by
  match r with
  | [] => rfl
  | [b] => rfl
  | b :: c :: r' => simp [curlyAt, ha]

theorem curlyAt_second (a x : Nat) (r : List Nat) (hx : x ≠ 0x80) :
    curlyAt (a :: x :: r) = false := by
  cases r with
  | nil => rfl
  | cons y r' => simp [curlyAt, hx]

theorem curlyAt_third (a b y : Nat) (r : List Nat) (hy : y ≠ 0x98 ∧ y ≠ 0x99) :
    curlyAt (a :: b :: y :: r) = false := by
  simp [curlyAt, hy.1, hy.2]

theorem collapse_cons_space (p : Bool) (c : Nat) (t : List Nat) (hc : isspace c = true) :
    collapse p (c :: t) = if p then collapse true t else 32 :: collapse true t := by
  rw [collapse, if_pos hc]

theorem collapse_cons_other (p : Bool) (c : Nat) (t : List Nat) (hc : ¬ isspace c = true) :
    collapse p (c :: t) = c :: collapse false t := by
  rw [collapse, if_neg hc]

theorem collapse_noCurly (p : Bool) (l : List Nat) (h : NoPat curlyAt l) :
    NoPat curlyAt (collapse p l) := by
  induction l generalizing p with
  | nil => trivial
  | cons a t ih =>
    by_cases ha : isspace a = true
    · rw [collapse_cons_space p a t ha]
      cases p
      · exact ⟨curlyAt_first _ _ (by decide), ih true h.2⟩
      · exact ih true h.2
    · rw [collapse_cons_other p a t ha]
      refine ⟨?_, ih false h.2⟩
      match t, h with
      | [], _ => rfl
      | [d], _ =>
        by_cases hd : isspace d = true
        · rw [collapse_cons_space false d [] hd]; rfl
        · rw [collapse_cons_other false d [] hd]; rfl
      | d :: e :: r, h =>
        by_cases hd : isspace d = true
        · rw [collapse_cons_space false d _ hd]
          exact curlyAt_second _ _ _ (by decide)
        · rw [collapse_cons_other false d _ hd]
          by_cases he : isspace e = true
          · rw [collapse_cons_space false e _ he]
            exact curlyAt_third _ _ _ _ (by decide)
          · rw [collapse_cons_other false e _ he]
            have h1 : curlyAt (a :: d :: e :: r) = false := h.1
            simpa [curlyAt] using h1

theorem collapse_true_eq (t : List Nat) :
    collapse true t = collapse false (t.dropWhile isspace) := by
  induction t with
  | nil => rfl
  | cons d r ih =>
    by_cases hd : isspace d = true
    · rw [List.dropWhile_cons_of_pos hd, ← ih]
      simp [collapse, hd]
    · rw [List.dropWhile_cons_of_neg hd]
      simp [collapse, hd]

/-- The loop of the source collapses every run of whitespace to one space. -/
theorem collapse_eq_specCollapse (l : List Nat) : collapse false l = specCollapse l := by
  induction l using specCollapse.induct with
  | case1 => simp [collapse, specCollapse]
  | case2 c t hc ih =>
    rw [specCollapse, if_pos hc, ← ih, ← collapse_true_eq]
    simp [collapse, hc]
  | case3 c t hc ih =>
    rw [specCollapse, if_neg hc, ← ih]
    simp [collapse, hc]

theorem trim_head_not_ws (s : List Nat) (c : Nat) (h : (trim s).head? = some c) :
    isTrimChar c = false := by
  induction s with
  | nil => simp [trim, find_first_not_of] at h
  | cons a t ih =>
    by_cases ha : isTrimChar a = true
    · rw [trim_cons_ws a t ha] at h
      exact ih h
    · have ha' : isTrimChar a = false := by simpa using ha
      rw [trim_cons_not_ws a t ha'] at h
      simp only [List.head?_cons, Option.some.injEq] at h
      subst h
      exact ha'

theorem trim_last_not_ws (s : List Nat) (c : Nat) (h : (trim s).getLast? = some c) :
    isTrimChar c = false := by
  rw [trim_eq] at h
  have hne : (s.dropWhile isTrimChar).rdropWhile isTrimChar ≠ [] := by
    intro h0
    rw [h0] at h
    simp at h
  have := List.rdropWhile_last_not isTrimChar (s.dropWhile isTrimChar) hne
  rw [List.getLast?_eq_getLast _ hne, Option.some.injEq] at h
  rw [h] at this
  simpa using this

theorem mem_trim (s : List Nat) (c : Nat) (h : c ∈ trim s) : c ∈ s := by
  obtain ⟨p, q, _, _, hs⟩ := trim_decomp s
  rw [hs]
  simp [h]

theorem specTrim_decomp (s : List Nat) :
    ∃ p q, AllSpace p ∧ AllSpace q ∧ s = p ++ specTrim s ++ q := by
  refine ⟨s.takeWhile isspace, (s.dropWhile isspace).rtakeWhile isspace, ?_, ?_, ?_⟩
  · intro c hc
    exact List.mem_takeWhile_imp hc
  · intro c hc
    exact List.mem_rtakeWhile_imp hc
  · have h1 : (s.dropWhile isspace).rdropWhile isspace ++
        (s.dropWhile isspace).rtakeWhile isspace = s.dropWhile isspace := by
      simp only [List.rdropWhile, List.rtakeWhile, ← List.reverse_append,
        List.takeWhile_append_dropWhile, List.reverse_reverse]
    rw [specTrim, List.append_assoc, h1, List.takeWhile_append_dropWhile]

theorem dropWhile_isspace_eq (l : List Nat) (h : ∀ c ∈ l, isspace c = true → c = 32) :
    l.dropWhile isspace = l.dropWhile isTrimChar := by
  induction l with
  | nil => rfl
  | cons a t ih =>
    have iht := ih (fun c hc => h c (List.mem_cons_of_mem _ hc))
    by_cases ha : isspace a = true
    · have h32 := h a (List.mem_cons_self _ _) ha
      subst h32
      rw [List.dropWhile_cons_of_pos ha, List.dropWhile_cons_of_pos isTrimChar_32, iht]
    · have ha' : ¬ isTrimChar a = true := fun hh => ha (isspace_of_isTrimChar a hh)
      rw [List.dropWhile_cons_of_neg ha, List.dropWhile_cons_of_neg ha']

/-- On a list whose only whitespace is the space, the two ways of trimming agree. -/
theorem specTrim_eq_trim (l : List Nat) (h : ∀ c ∈ l, isspace c = true → c = 32) :
    specTrim l = trim l := by
  rw [trim_eq, specTrim, dropWhile_isspace_eq l h]
  have h2 : ∀ c ∈ (l.dropWhile isTrimChar).reverse, isspace c = true → c = 32 := by
    intro c hc
    exact h c ((List.dropWhile_sublist _).subset (List.mem_reverse.mp hc))
  simp only [List.rdropWhile, dropWhile_isspace_eq _ h2]

theorem normalize_unfold (s : List Nat) :
    normalize s = trim ((collapse false (mapQuotes (trim s))).map tolower) := rfl

theorem lowered_space (l : List Nat) (h : ∀ c ∈ l, isspace c = true → c = 32) :
    ∀ c ∈ l.map tolower, isspace c = true → c = 32 := by
  intro c hc hs
  obtain ⟨d, hd, rfl⟩ := List.mem_map.mp hc
  rw [isspace_tolower] at hs
  have := h d hd hs
  subst this
  rfl

theorem normalize_eq_specNormalize (s : List Nat) : normalize s = specNormalize s := by
  obtain ⟨p, q, hp, hq, hs⟩ := specTrim_decomp s
  have hsq : squeeze (specTrim s) = squeeze s := by
    conv_rhs => rw [hs]
    rw [squeeze_append_spaces _ q hq, squeeze_spaces_append p _ hp]
  rw [normalize_eq, specNormalize, ← collapse_eq_specCollapse,
    specTrim_eq_trim _ (lowered_space _ (collapse_mem_space false _)), trim_map_tolower]
  show _ = (squeeze (specTrim s)).map tolower
  rw [hsq]

/-! ## C17: what `normalize` returns -/

/-- C17: for every input the result of `normalize` has no whitespace at either
end, has the space as its only whitespace character and never two spaces in a
row, has no ASCII uppercase letter and contains neither `E2 80 98` nor
`E2 80 99` (for instance `‘Tis’` written with U+2018 and U+2019 becomes
`'tis'`); it is the source's pipeline (trim, quote mapping, collapsing,
lowercasing, trim) and equals the pipeline of §4.2 in which trimming cuts all
whitespace and collapsing turns every run of whitespace into one space. -/
theorem normalize_shape (s : List Nat) :
    (∀ c, (normalize s).head? = some c → isspace c = false) ∧
    (∀ c, (normalize s).getLast? = some c → isspace c = false) ∧
    (∀ c ∈ normalize s, isspace c = true → c = 32) ∧
    ¬ [32, 32] <:+: normalize s ∧
    (∀ c ∈ normalize s, ¬ (65 ≤ c ∧ c ≤ 90)) ∧
    ¬ [0xE2, 0x80, 0x98] <:+: normalize s ∧
    ¬ [0xE2, 0x80, 0x99] <:+: normalize s ∧
    normalize ([0xE2, 0x80, 0x98] ++ bytes "Tis" ++ [0xE2, 0x80, 0x99]) = bytes "'tis'" ∧
    normalize s = trim ((collapse false (mapQuotes (trim s))).map tolower) ∧
    normalize s = specNormalize s := by
  have hY := lowered_space _ (collapse_mem_space false (mapQuotes (trim s)))
  have hsp : ∀ c ∈ normalize s, isspace c = true → c = 32 := by
    intro c hc
    exact hY c (mem_trim _ c hc)
  have hnot : ∀ c, isTrimChar c = false → c ∈ normalize s → isspace c = false := by
    intro c hc hm
    by_contra hs
    have h32 := hsp c hm (by simpa using hs)
    subst h32
    exact absurd hc (by decide)
  have hdouble : NoPat doubleAt (normalize s) :=
    NoPat_trim doubleAt doubleAt_append _
      (NoPat_map_tolower doubleAt doubleAt_map_tolower _ (collapse_noDouble false _))
  have hcurly : NoPat curlyAt (normalize s) :=
    NoPat_trim curlyAt curlyAt_append _
      (NoPat_map_tolower curlyAt curlyAt_map_tolower _
        (collapse_noCurly false _ (mapQuotes_noCurly _)))
  refine ⟨?_, ?_, hsp, ?_, ?_, ?_, ?_, by decide, rfl, normalize_eq_specNormalize s⟩
  · intro c hc
    exact hnot c (trim_head_not_ws _ c hc) (List.mem_of_mem_head? hc)
  · intro c hc
    exact hnot c (trim_last_not_ws _ c hc) (List.mem_of_mem_getLast? hc)
  · exact NoPat_not_infix doubleAt [32, 32] _ (by simp) (fun q => rfl) hdouble
  · intro c hc
    have hm := mem_trim _ c hc
    obtain ⟨d, _, rfl⟩ := List.mem_map.mp hm
    unfold tolower
    split <;> omega
  · exact NoPat_not_infix curlyAt [0xE2, 0x80, 0x98] _ (by simp) (fun q => rfl) hcurly
  · exact NoPat_not_infix curlyAt [0xE2, 0x80, 0x99] _ (by simp) (fun q => rfl) hcurly

/-! ## C18: empty lines -/

/-- C18: in `WAIT_WHO` (and in the other two states alike) a received line that
is empty after trimming makes the body end with `continue` with nothing handed
to `send_all` and with state and cursor unchanged; with `g_running` set the
next pass of the loop then receives from the bytes that follow the line. -/
theorem empty_line_ignored (jokes : List Joke) (order : List Nat) (running : Nat → Bool)
    (fuel iter : Nat) (v : Vars) (J : Joke) (line rest : List Nat)
    (hJ : (order[v.idx]? >>= (jokes[·]?)) = some J)
    (hrecv : recv_line v.conn.inbound = (some line, rest))
    (hempty : trim line = []) :
    loop_body jokes order v =
      (Flow.next,
        { idx := v.idx, st := v.st,
          conn := { inbound := rest, sendOk := v.conn.sendOk, sent := v.conn.sent,
                    closed := v.conn.closed } }) ∧
    (running iter = true → v.idx < order.length →
      loop jokes order running (fuel + 1) iter v =
        loop jokes order running fuel (iter + 1)
          { idx := v.idx, st := v.st,
            conn := { inbound := rest, sendOk := v.conn.sendOk, sent := v.conn.sent,
                      closed := v.conn.closed } }) := by
  have hb : loop_body jokes order v =
      (Flow.next,
        { idx := v.idx, st := v.st,
          conn := { inbound := rest, sendOk := v.conn.sendOk, sent := v.conn.sent,
                    closed := v.conn.closed } }) := by
    unfold loop_body
    rw [hJ]
    simp only [hrecv, hempty, if_true]
  exact ⟨hb, fun hrun hidx => loop_next jokes order running fuel iter v _ hrun hidx hb⟩

theorem empty_line_ignored_witness :
    recv_line (sampleVars 0 State.WAIT_WHO (bytes " \t\r\nWho's there?\n") true).conn.inbound =
      (some (bytes " \t\r"), bytes "Who's there?\n") ∧
    trim (bytes " \t\r") = [] ∧
    loop_body sampleJokes sampleOrder
        (sampleVars 0 State.WAIT_WHO (bytes " \t\r\nWho's there?\n") true) =
      (Flow.next,
        { idx := 0, st := State.WAIT_WHO,
          conn := { inbound := bytes "Who's there?\n", sendOk := fun _ => true, sent := [],
                    closed := false } }) :=
  ⟨by decide, by decide,
    (empty_line_ignored sampleJokes sampleOrder (fun _ => true) 0 0
      (sampleVars 0 State.WAIT_WHO (bytes " \t\r\nWho's there?\n") true)
      { setup := bytes "Tank", punch := bytes "You're welcome." } (bytes " \t\r")
      (bytes "Who's there?\n") (by decide) (by decide) (by decide)).1⟩

/-! ## C19: comment lines -/

/-- C19, as stated, fails: the line ` #a|b` does not begin with `#` (its first
character is a space) and has the form `SETUP|PUNCHLINE` with the non-empty
trimmed parts `#a` and `b`, yet `load_jokes` skips it as a comment. -/
theorem comment_first_character_counterexample :
    ¬ ∀ line a b : List Nat, specComment line = false → splitBar line = some (a, b) →
      trim a ≠ [] → trim b ≠ [] →
      parse_line line = some { setup := trim a, punch := trim b } := by
  intro h
  have := h (bytes " #a|b") (bytes " #a") (bytes "b") (by decide) (by decide) (by decide)
    (by decide)
  revert this
  decide

/-- C19, amended: `load_jokes` skips a line as a comment when its first
character after trimming (space, tab, CR, LF) is `#`, which includes every line
whose first character is `#`; a line whose first character after trimming is
not `#` and that has the form `SETUP|PUNCHLINE` with non-empty trimmed parts
contributes that joke; so a line of that form is skipped if and only if its
first character after trimming is `#`. -/
theorem comment_after_trim (line : List Nat) :
    (trimmedComment line = true → parse_line line = none) ∧
    (specComment line = true → trimmedComment line = true) ∧
    (∀ a b : List Nat, trimmedComment line = false → splitBar line = some (a, b) →
      trim a ≠ [] → trim b ≠ [] →
      parse_line line = some { setup := trim a, punch := trim b }) ∧
    (∀ a b : List Nat, splitBar line = some (a, b) → trim a ≠ [] → trim b ≠ [] →
      (parse_line line = none ↔ trimmedComment line = true)) := by
  have hform : ∀ a b : List Nat, trimmedComment line = false → splitBar line = some (a, b) →
      trim a ≠ [] → trim b ≠ [] →
      parse_line line = some { setup := trim a, punch := trim b } := by
    intro a b hc hs ha hb
    have hmem : 124 ∈ line := by
      by_contra hn
      simp [splitBar, hn] at hs
    have hnb : isBlank line = false := by
      rw [Bool.eq_false_iff]
      intro hbl
      exact isspace_ne_bar 124 (List.all_eq_true.mp hbl 124 hmem) rfl
    rw [parse_line_eq_lineEntry]
    simp only [lineEntry, hnb, hc, Bool.or_self, Bool.false_eq_true, if_false, hs, ne_eq, ha,
      not_false_eq_true, hb, and_self, if_true]
  have hskip : trimmedComment line = true → parse_line line = none := by
    intro hc
    rw [parse_line_eq_lineEntry]
    simp [lineEntry, hc]
  refine ⟨hskip, ?_, hform, ?_⟩
  · intro hc
    cases line with
    | nil => simp [specComment] at hc
    | cons c t =>
      have hc35 : c = 35 := by simpa [specComment] using hc
      subst hc35
      rw [trimmedComment, trim_cons_not_ws 35 t (by decide)]
      rfl
  · intro a b hs ha hb
    constructor
    · intro hnone
      by_contra hc
      have hc' : trimmedComment line = false := by simpa using hc
      rw [hform a b hc' hs ha hb] at hnone
      cases hnone
    · exact hskip

/-! ## C20: a setup that no reply matches -/

/-- C20 at the failing input: the line made of a vertical tab, `|` and `Boo`
is admitted by `load_jokes` with the setup `\v` (not empty after `trim`, which
leaves `\v` alone); for that setup the reply `\v who?` is rejected, and so is
every reply, because `normalize` never returns a string that begins with a
space while the expected phrase is `" who?"`.  The phrase `Who’s there?`
written with U+2019 is accepted by `is_whos_there`. -/
theorem vertical_tab_setup_not_completable :
    parse_line ([11] ++ bytes "|Boo") = some { setup := [11], punch := bytes "Boo" } ∧
    trim [11] ≠ [] ∧
    is_setup_who (trim ([11] ++ bytes " who?")) [11] = false ∧
    (∀ reply : List Nat, is_setup_who reply [11] = false) ∧
    is_whos_there (bytes "Who" ++ [0xE2, 0x80, 0x99] ++ bytes "s there?") = true := by
  refine ⟨by decide, by decide, by decide, ?_, by decide⟩
  intro reply
  have hneed : normalize [11] ++ bytes " who?" = 32 :: bytes "who?" := by decide
  simp only [is_setup_who, hneed, beq_eq_false_iff_ne, ne_eq]
  intro heq
  have h := trim_head_not_ws ((collapse false (mapQuotes (trim reply))).map tolower) 32
    (by rw [← normalize_unfold, heq]; rfl)
  exact absurd h (by decide)

/-! ## `normalize` applied to its own result -/

theorem normalize_space (s : List Nat) : ∀ c ∈ normalize s, isspace c = true → c = 32 := by
  intro c hc
  exact lowered_space _ (collapse_mem_space false (mapQuotes (trim s))) c (mem_trim _ c hc)

theorem normalize_noDouble (s : List Nat) : NoPat doubleAt (normalize s) :=
  NoPat_trim doubleAt doubleAt_append _
    (NoPat_map_tolower doubleAt doubleAt_map_tolower _ (collapse_noDouble false _))

theorem normalize_noCurly (s : List Nat) : NoPat curlyAt (normalize s) :=
  NoPat_trim curlyAt curlyAt_append _
    (NoPat_map_tolower curlyAt curlyAt_map_tolower _
      (collapse_noCurly false _ (mapQuotes_noCurly _)))

theorem normalize_lowered (s : List Nat) : ∀ c ∈ normalize s, tolower c = c := by
  intro c hc
  obtain ⟨d, _, rfl⟩ := List.mem_map.mp (mem_trim _ c hc)
  exact tolower_tolower d

theorem trim_eq_self (l : List Nat)
    (hhead : ∀ c, l.head? = some c → isTrimChar c = false)
    (hlast : ∀ c, l.getLast? = some c → isTrimChar c = false) : trim l = l := by
  cases l with
  | nil => rfl
  | cons a t =>
    have ha : ¬ isTrimChar a = true := by
      rw [hhead a rfl]; simp
    rw [trim_eq, List.dropWhile_cons_of_neg ha, List.rdropWhile_eq_self_iff]
    intro hl
    have := hlast _ (List.getLast?_eq_getLast _ hl)
    rw [this]
    simp

theorem mapQuotes_eq_self (l : List Nat) (h : NoPat curlyAt l) : mapQuotes l = l := by
  induction l using mapQuotes.induct with
  | case1 => rfl
  | case2 a => rfl
  | case3 a b ih => simp [mapQuotes]
  | case4 a b c rest hq ih =>
    exfalso
    have h1 : curlyAt (a :: b :: c :: rest) = false := h.1
    obtain ⟨ha, hb, hc⟩ := hq
    subst ha hb
    rcases hc with hc | hc <;> subst hc <;> simp [curlyAt] at h1
  | case5 a b c rest hq ih =>
    simp only [mapQuotes, if_neg hq]
    rw [ih h.2]

theorem collapse_eq_self (p : Bool) (l : List Nat)
    (hsp : ∀ c ∈ l, isspace c = true → c = 32) (hd : NoPat doubleAt l)
    (hp : p = true → ∀ x, l.head? = some x → isspace x = false) : collapse p l = l := by
  induction l generalizing p with
  | nil => rfl
  | cons a t ih =>
    have hsp' : ∀ c ∈ t, isspace c = true → c = 32 := fun c hc =>
      hsp c (List.mem_cons_of_mem _ hc)
    by_cases ha : isspace a = true
    · have h32 := hsp a (List.mem_cons_self _ _) ha
      subst h32
      have hpf : p = false := by
        cases p
        · rfl
        · have := hp rfl 32 rfl
          rw [this] at ha
          cases ha
      subst hpf
      rw [collapse_cons_space false 32 t ha]
      simp only [Bool.false_eq_true, if_false]
      rw [ih true hsp' hd.2]
      intro _ x hx
      have h1 : doubleAt (32 :: t) = false := hd.1
      cases t with
      | nil => simp at hx
      | cons b r =>
        simp only [List.head?_cons, Option.some.injEq] at hx
        subst hx
        by_contra hb
        have hb32 := hsp' b (List.mem_cons_self _ _) (by simpa using hb)
        subst hb32
        simp [doubleAt] at h1
    · rw [collapse_cons_other p a t ha, ih false hsp' hd.2 (fun h => by cases h)]

theorem map_tolower_eq_self (l : List Nat) (h : ∀ c ∈ l, tolower c = c) :
    l.map tolower = l := by
  induction l with
  | nil => rfl
  | cons a t ih =>
    rw [List.map_cons, h a (List.mem_cons_self _ _),
      ih (fun c hc => h c (List.mem_cons_of_mem _ hc))]

/-- Applying `normalize` to a result of `normalize` changes nothing. -/
theorem normalize_normalize (s : List Nat) : normalize (normalize s) = normalize s := by
  have hhead : ∀ c, (normalize s).head? = some c → isTrimChar c = false :=
    fun c hc => trim_head_not_ws _ c hc
  have hlast : ∀ c, (normalize s).getLast? = some c → isTrimChar c = false :=
    fun c hc => trim_last_not_ws _ c hc
  have hsp := normalize_space s
  rw [normalize_unfold (normalize s), trim_eq_self _ hhead hlast,
    mapQuotes_eq_self _ (normalize_noCurly s),
    collapse_eq_self false _ hsp (normalize_noDouble s) (fun h => by cases h),
    map_tolower_eq_self _ (normalize_lowered s), trim_eq_self _ hhead hlast]

/-- Normalizing after any number of normalizations is normalizing once. -/
theorem normalize_iterate (n : Nat) (s : List Nat) :
    normalize ((normalize^[n]) s) = normalize s := by
  induction n generalizing s with
  | zero => rfl
  | succ k ih => rw [Function.iterate_succ_apply, ih, normalize_normalize]

/-! ## C21: idempotence -/

/-- C21: for every byte string `normalize (normalize s) = normalize s`
(`tolower` acting on `A..Z` only), and so is every further application; hence
`is_setup_who` gives the same verdict whatever number of times the input and
the setup were normalized before, and so do `is_whos_there` and `is_yes`. -/
theorem normalize_idempotent (s : List Nat) :
    normalize (normalize s) = normalize s ∧
    (∀ n : Nat, (normalize^[n + 1]) s = normalize s) ∧
    (∀ (setup : List Nat) (m n : Nat),
      is_setup_who ((normalize^[m]) s) ((normalize^[n]) setup) = is_setup_who s setup) ∧
    (∀ m : Nat, is_whos_there ((normalize^[m]) s) = is_whos_there s) ∧
    (∀ m : Nat, is_yes ((normalize^[m]) s) = is_yes s) := by
  refine ⟨normalize_normalize s, ?_, ?_, ?_, ?_⟩
  · intro n
    rw [Function.iterate_succ_apply', normalize_iterate]
  · intro setup m n
    simp only [is_setup_who, normalize_iterate]
  · intro m
    simp only [is_whos_there, normalize_iterate]
  · intro m
    simp only [is_yes, normalize_iterate]

end JokeServer

namespace MatrixOp

/-! ## Matrix service: the loops -/

/-- A `for` loop over `0 .. n-1` whose body never fails under an invariant
runs to its end and establishes the invariant at `n`. -/
theorem foldlM_range_inv {β : Type} (f : β → Nat → Option β) (P : Nat → β → Prop) (n : Nat)
    (b : β) (h0 : P 0 b)
    (hstep : ∀ i b, i < n → P i b → ∃ b', f b i = some b' ∧ P (i + 1) b') :
    ∃ b', (List.range n).foldlM f b = some b' ∧ P n b' := by
  induction n with
  | zero => exact ⟨b, rfl, h0⟩
  | succ k ih =>
    obtain ⟨b1, hb1, hP1⟩ := ih (fun i b hi hP => hstep i b (Nat.lt_succ_of_lt hi) hP)
    obtain ⟨b2, hb2, hP2⟩ := hstep k b1 (Nat.lt_succ_self k) hP1
    refine ⟨b2, ?_, hP2⟩
    rw [List.range_succ, List.foldlM_append, hb1]
    simp [List.foldlM, hb2]

theorem u32_of_lt {n : Nat} (h : n < 2 ^ 32) : u32 n = n := Nat.mod_eq_of_lt h

theorem u64_of_lt {n : Nat} (h : n < 2 ^ 64) : u64 n = n := Nat.mod_eq_of_lt h

/-- The index `i * cols + j` of an entry lies below `rows * cols`. -/
theorem index_lt {rows cols i j : Nat} (hi : i < rows) (hj : j < cols) :
    i * cols + j < rows * cols := by
  have h : (i + 1) * cols ≤ rows * cols := Nat.mul_le_mul_right cols hi
  rw [Nat.succ_mul] at h
  omega

/-- Two entries with the same index are the same entry. -/
theorem index_inj {c i j i' j' : Nat} (hj : j < c) (hj' : j' < c)
    (h : i * c + j = i' * c + j') : i = i' ∧ j = j' := by
  have h1 : (i * c + j) % c = j := by
    rw [Nat.add_comm, Nat.add_mul_mod_self_right, Nat.mod_eq_of_lt hj]
  have h2 : (i' * c + j') % c = j' := by
    rw [Nat.add_comm, Nat.add_mul_mod_self_right, Nat.mod_eq_of_lt hj']
  have hjj : j = j' := by rw [← h1, ← h2, h]
  subst hjj
  have hc : 0 < c := by omega
  have h3 : i * c = i' * c := by omega
  exact ⟨Nat.eq_of_mul_eq_mul_right hc h3, rfl⟩

theorem store_some {D : Type} (buf : List D) (idx : Nat) (x : D) (h : idx < buf.length) :
    store buf idx x = some (buf.set idx x) := by
  simp [store, h]

/-- The inner loop of the transposition for row `i`. -/
theorem transpose_inner {D : Type} (rows cols : Nat) (input buf : List D) (i : Nat)
    (hi : i < rows) (h32 : rows * cols < 2 ^ 32) (hin : rows * cols ≤ input.length)
    (hbuf : rows * cols ≤ buf.length)
    (hprev : ∀ i1 j1, i1 < i → j1 < cols → buf[j1 * rows + i1]? = input[i1 * cols + j1]?) :
    ∃ buf', (List.range cols).foldlM
        (fun buf j =>
          match input[u32 (i * cols + j)]? with
          | some x => store buf (u32 (j * rows + i)) x
          | none => none) buf = some buf' ∧
      buf'.length = buf.length ∧
      ∀ i1 j1, i1 < i + 1 → j1 < cols → buf'[j1 * rows + i1]? = input[i1 * cols + j1]? := by
  have key := foldlM_range_inv
    (fun buf j =>
      match input[u32 (i * cols + j)]? with
      | some x => store buf (u32 (j * rows + i)) x
      | none => none)
    (fun j b => b.length = buf.length ∧
      (∀ i1 j1, i1 < i → j1 < cols → b[j1 * rows + i1]? = input[i1 * cols + j1]?) ∧
      (∀ j1, j1 < j → b[j1 * rows + i]? = input[i * cols + j1]?))
    cols buf ⟨rfl, hprev, fun j1 h => absurd h (Nat.not_lt_zero _)⟩ ?_
  · obtain ⟨b', hb', hlen, hP, hQ⟩ := key
    refine ⟨b', hb', hlen, ?_⟩
    intro i1 j1 hi1 hj1
    rcases Nat.lt_succ_iff_lt_or_eq.mp hi1 with h | h
    · exact hP i1 j1 h hj1
    · subst h
      exact hQ j1 hj1
  · intro j b hj ⟨hlen, hP, hQ⟩
    have hsrc : i * cols + j < rows * cols := index_lt hi hj
    have hdst : j * rows + i < rows * cols := by
      rw [Nat.mul_comm rows cols]
      exact index_lt hj hi
    have hx : input[i * cols + j]? = some (input[i * cols + j]) :=
      List.getElem?_eq_getElem (by omega)
    refine ⟨b.set (j * rows + i) (input[i * cols + j]), ?_, ?_, ?_, ?_⟩
    · simp only [u32_of_lt (Nat.lt_trans hsrc h32), u32_of_lt (Nat.lt_trans hdst h32), hx]
      exact store_some _ _ _ (by omega)
    · simp [hlen]
    · intro i1 j1 hi1 hj1
      have hne : j * rows + i ≠ j1 * rows + i1 := by
        intro h
        have := (index_inj hi (Nat.lt_trans hi1 hi) h).2
        omega
      rw [List.getElem?_set_ne hne]
      exact hP i1 j1 hi1 hj1
    · intro j1 hj1
      rcases Nat.lt_succ_iff_lt_or_eq.mp hj1 with h | h
      · have hne : j * rows + i ≠ j1 * rows + i := by
          intro h'
          have := (index_inj hi hi h').1
          omega
        rw [List.getElem?_set_ne hne]
        exact hQ j1 h
      · subst h
        rw [hx, List.getElem?_set_self (show j1 * rows + i < b.length by omega)]

/-- The two loops of the transposition run to their end inside the buffers and
store entry `(i, j)` of the input at index `j * rows + i`. -/
theorem transpose_loops_spec {D : Type} (rows cols : Nat) (input buf : List D)
    (h32 : rows * cols < 2 ^ 32) (hin : rows * cols ≤ input.length)
    (hbuf : rows * cols ≤ buf.length) :
    ∃ buf', transpose_loops rows cols input buf = some buf' ∧ buf'.length = buf.length ∧
      ∀ i j, i < rows → j < cols → buf'[j * rows + i]? = input[i * cols + j]? := by
  have key := foldlM_range_inv
    (fun buf i =>
      (List.range cols).foldlM
        (fun buf j =>
          match input[u32 (i * cols + j)]? with
          | some x => store buf (u32 (j * rows + i)) x
          | none => none) buf)
    (fun i b => b.length = buf.length ∧
      ∀ i1 j1, i1 < i → j1 < cols → b[j1 * rows + i1]? = input[i1 * cols + j1]?)
    rows buf ⟨rfl, fun i1 j1 h => absurd h (Nat.not_lt_zero _)⟩ ?_
  · obtain ⟨b', hb', hlen, hP⟩ := key
    exact ⟨b', hb', hlen, hP⟩
  · intro i b hi ⟨hlen, hP⟩
    obtain ⟨b', hb', hlen', hP'⟩ := transpose_inner rows cols input b i hi h32 hin (by omega) hP
    exact ⟨b', hb', by omega, hP'⟩

/-- The loop of the addition runs to its end inside the buffers and stores
`a[i] + b[i]` at every index below `elements`. -/
theorem add_loop_spec {D : Type} (add : D → D → D) (elements : Nat) (a b buf : List D)
    (ha : elements ≤ a.length) (hb : elements ≤ b.length) (hbuf : elements ≤ buf.length) :
    ∃ buf', add_loop add elements a b buf = some buf' ∧ buf'.length = buf.length ∧
      ∀ i, i < elements → buf'[i]? = (List.zipWith add a b)[i]? := by
  have key := foldlM_range_inv
    (fun buf i =>
      match a[i]?, b[i]? with
      | some x, some y => store buf i (add x y)
      | _, _ => none)
    (fun k w => w.length = buf.length ∧ ∀ i, i < k → w[i]? = (List.zipWith add a b)[i]?)
    elements buf ⟨rfl, fun i h => absurd h (Nat.not_lt_zero _)⟩ ?_
  · obtain ⟨b', hb', hlen, hP⟩ := key
    exact ⟨b', hb', hlen, hP⟩
  · intro i w hi ⟨hlen, hP⟩
    have hxa : a[i]? = some (a[i]) := List.getElem?_eq_getElem (by omega)
    have hxb : b[i]? = some (b[i]) := List.getElem?_eq_getElem (by omega)
    refine ⟨w.set i (add a[i] b[i]), ?_, ?_, ?_⟩
    · simp only [hxa, hxb]
      exact store_some _ _ _ (by omega)
    · simp [hlen]
    · intro i1 hi1
      rcases Nat.lt_succ_iff_lt_or_eq.mp hi1 with h | h
      · rw [List.getElem?_set_ne (by omega)]
        exact hP i1 h
      · subst h
        rw [List.getElem?_set_self (show i1 < w.length by omega)]
        simp [List.getElem?_zipWith, hxa, hxb]

/-! ## Matrix service: validation -/

theorem validMatrix_lt {D : Type} {MAX : Nat} {m : matrix D} (hMAX : MAX < 2 ^ 31)
    (hv : validMatrix MAX m) : m.rows * m.cols < 2 ^ 32 := by
  have := hv.2.2.1
  omega

/-- A valid matrix passes `ensure_valid_matrix`, which leaves the result as it is. -/
theorem ensure_valid_matrix_valid {D : Type} (MAX LEN : Nat) (result : matrix_result D)
    (m : matrix D) (name : List Nat) (hMAX : MAX < 2 ^ 31) (hv : validMatrix MAX m) :
    ensure_valid_matrix MAX LEN result (some m) name = (true, result) := by
  obtain ⟨hr, hc, hle, hlen, hdata⟩ := hv
  have hpos : 0 < m.rows * m.cols := Nat.mul_pos hr hc
  have h64 : u64 (m.rows * m.cols) = m.rows * m.cols := u64_of_lt (by omega)
  have h1 : ¬ (m.rows = 0 ∨ m.cols = 0) := by omega
  have h2 : ¬ (m.rows * m.cols = 0 ∨ m.rows * m.cols > MAX) := by omega
  have h3 : ¬ (m.data_val.isNone = true ∧ m.rows * m.cols > 0) := by
    intro h
    have := h.1
    rw [Option.isNone_iff_eq_none] at this
    rw [this] at hdata
    cases hdata
  simp only [ensure_valid_matrix, h64, if_neg h1, if_neg h2, hlen, ne_eq, not_true_eq_false,
    if_false, if_neg h3]

/-- A matrix that is not valid fails `ensure_valid_matrix`, which sets an error
with status 1 and a message that starts with the name. -/
theorem ensure_valid_matrix_invalid {D : Type} (MAX LEN : Nat) (result : matrix_result D)
    (m : matrix D) (name : List Nat) (hr : m.rows < 2 ^ 32) (hc : m.cols < 2 ^ 32)
    (hv : ¬ validMatrix MAX m) :
    ∃ text, ensure_valid_matrix MAX LEN result (some m) name =
      (false, set_error LEN result 1 (name ++ text)) := by
  have hprod : m.rows * m.cols < 2 ^ 64 := by
    calc m.rows * m.cols < 2 ^ 32 * 2 ^ 32 := Nat.mul_lt_mul'' hr hc
      _ = 2 ^ 64 := by norm_num
  have h64 : u64 (m.rows * m.cols) = m.rows * m.cols := u64_of_lt hprod
  simp only [ensure_valid_matrix, h64]
  split_ifs with h1 h2 h3 h4
  · exact ⟨_, rfl⟩
  · exact ⟨JokeServer.bytes " exceeds maximum supported elements (" ++ (dec MAX ++
      JokeServer.bytes ")"), by simp only [List.append_assoc]⟩
  · exact ⟨JokeServer.bytes " payload size (" ++ (dec m.data_len ++
      (JokeServer.bytes ") does not match " ++ (dec m.rows ++ (JokeServer.bytes " x " ++
        (dec m.cols ++ JokeServer.bytes " matrix"))))), by simp only [List.append_assoc]⟩
  · exact ⟨_, rfl⟩
  · exfalso
    apply hv
    refine ⟨by omega, by omega, by omega, by simpa using h3, ?_⟩
    cases hd : m.data_val with
    | some d => rfl
    | none =>
      exfalso
      apply h4
      rw [hd]
      exact ⟨rfl, by omega⟩

/-- The message of an error is not empty when it starts with a non-empty name
and the message buffer has room for one character. -/
theorem set_error_message {D : Type} (LEN : Nat) (result : matrix_result D) (status : Int)
    (name text : List Nat) (hLEN : 2 ≤ LEN) (hname : name ≠ []) :
    (set_error LEN result status (name ++ text)).message ≠ [] := by
  obtain ⟨k, hk⟩ : ∃ k, LEN - 1 = k + 1 := ⟨LEN - 2, by omega⟩
  cases name with
  | nil => exact absurd rfl hname
  | cons x t => simp [set_error, vsnprintf, hk]

/-! ## Matrix service: transposition -/

/-- Transposition of a valid matrix whose data buffer holds `data_len` elements. -/
theorem matrix_transpose_spec {D : Type} (MAX LEN : Nat) (buf0 : List D) (A : matrix D)
    (data : List D) (hMAX : MAX < 2 ^ 31) (hbuf0 : buf0.length = MAX)
    (hr : 0 < A.rows) (hc : 0 < A.cols) (hle : A.rows * A.cols ≤ MAX)
    (hlen : A.data_len = A.rows * A.cols)
    (hdata : A.data_val = some data) (hdl : data.length = A.data_len) :
    ∃ T, matrix_transpose_1_svc MAX LEN buf0 (some A) = some T ∧
      T.status = 0 ∧ T.rows = A.cols ∧ T.cols = A.rows ∧ T.data_len = A.rows * A.cols ∧
      T.message = [] ∧ T.data.length = A.rows * A.cols ∧
      ∀ i j, i < A.rows → j < A.cols → T.data[j * A.rows + i]? = data[i * A.cols + j]? := by
  have hv : validMatrix MAX A := ⟨hr, hc, hle, hlen, by rw [hdata]; rfl⟩
  have h32 : A.rows * A.cols < 2 ^ 32 := validMatrix_lt hMAX hv
  obtain ⟨buf, hloops, hblen, hent⟩ := transpose_loops_spec A.rows A.cols data buf0 h32
    (by omega) (by omega)
  refine ⟨write_success_matrix { prepare_result buf0 with result_buffer := buf } A.cols A.rows
    (u32 (A.rows * A.cols)), ?_, ?_⟩
  · simp only [matrix_transpose_1_svc, ensure_valid_matrix_valid MAX LEN _ A _ hMAX hv,
      Bool.not_true, Bool.false_eq_true, if_false, hdata, prepare_result, hloops]
  · simp only [write_success_matrix, matrix_result.data, u32_of_lt h32, List.length_take,
      true_and]
    refine ⟨by omega, ?_⟩
    intro i j hi hj
    have hdst : j * A.rows + i < A.rows * A.cols := by
      rw [Nat.mul_comm A.rows A.cols]
      exact index_lt hj hi
    rw [List.getElem?_take_of_lt hdst]
    exact hent i j hi hj

/-- Two lists of the same length `r * c` that agree at every index `j * c + i`
with `j < r`, `i < c` are equal. -/
theorem ext_of_entries {D : Type} (r c : Nat) (u v : List D) (hu : u.length = r * c)
    (hv : v.length = r * c)
    (h : ∀ i j, i < c → j < r → u[j * c + i]? = v[j * c + i]?) : u = v := by
  apply List.ext_getElem?
  intro k
  by_cases hk : k < r * c
  · have hc : 0 < c := by
      rcases Nat.eq_zero_or_pos c with h0 | h0
      · rw [h0] at hk
        simp at hk
      · exact h0
    have h1 : k % c < c := Nat.mod_lt k hc
    have h2 : k / c < r := by
      rw [Nat.div_lt_iff_lt_mul hc]
      exact hk
    have h3 : k / c * c + k % c = k := Nat.div_add_mod' k c
    have := h (k % c) (k / c) h1 h2
    rwa [h3] at this
  · rw [List.getElem?_eq_none (by omega), List.getElem?_eq_none (by omega)]

/-! ## C22: transposition -/

/-- C22: for a valid `r x c` matrix `A` (`r, c > 0`, `r * c ≤ MAX`,
`data_len = r * c`, a data buffer of `data_len` elements),
`matrix_transpose_1_svc` returns status 0 and a `c x r` matrix of `r * c`
elements whose element `j * r + i` is element `i * c + j` of `A`; the
transposition of that result returns the rows, the columns and the data of
`A`.  `MAX` is the constant `MAX_MATRIX_ELEMENTS`, an `int`, and the size of
`result_buffer`. -/
theorem transpose_valid_matrix {D : Type} (MAX LEN : Nat) (buf0 buf1 : List D) (A : matrix D)
    (data : List D) (hMAX : MAX < 2 ^ 31) (hbuf0 : buf0.length = MAX)
    (hbuf1 : buf1.length = MAX) (hr : 0 < A.rows) (hc : 0 < A.cols)
    (hle : A.rows * A.cols ≤ MAX) (hlen : A.data_len = A.rows * A.cols)
    (hdata : A.data_val = some data) (hdl : data.length = A.data_len) :
    ∃ T, matrix_transpose_1_svc MAX LEN buf0 (some A) = some T ∧
      T.status = 0 ∧ T.rows = A.cols ∧ T.cols = A.rows ∧ T.data_len = A.rows * A.cols ∧
      T.data.length = A.rows * A.cols ∧
      (∀ i j, i < A.rows → j < A.cols → T.data[j * A.rows + i]? = data[i * A.cols + j]?) ∧
      ∃ U, matrix_transpose_1_svc MAX LEN buf1 (some T.value) = some U ∧
        U.status = 0 ∧ U.rows = A.rows ∧ U.cols = A.cols ∧ U.data_len = A.data_len ∧
        U.data = data := by
  obtain ⟨T, hT, hst, hrows, hcols, hdlen, _, hTlen, hTent⟩ :=
    matrix_transpose_spec MAX LEN buf0 A data hMAX hbuf0 hr hc hle hlen hdata hdl
  have hcomm : A.cols * A.rows = A.rows * A.cols := Nat.mul_comm _ _
  obtain ⟨U, hU, hUst, hUrows, hUcols, hUdlen, _, hUlen, hUent⟩ :=
    matrix_transpose_spec MAX LEN buf1 T.value T.data hMAX hbuf1
      (by simp only [matrix_result.value, hrows]; exact hc)
      (by simp only [matrix_result.value, hcols]; exact hr)
      (by simp only [matrix_result.value, hrows, hcols, hcomm]; exact hle)
      (by simp only [matrix_result.value, hrows, hcols, hcomm]; exact hdlen)
      rfl
      (by simp only [matrix_result.value, hTlen, hdlen])
  simp only [matrix_result.value, hrows, hcols, hcomm] at hUrows hUcols hUdlen hUlen hUent
  refine ⟨T, hT, hst, hrows, hcols, hdlen, hTlen, hTent, U, hU, hUst, hUrows, hUcols,
    by rw [hUdlen, hlen], ?_⟩
  apply ext_of_entries A.rows A.cols U.data data hUlen (by rw [hdl, hlen])
  intro i j hi hj
  rw [hUent i j hi hj, hTent j i hj hi]

theorem transpose_valid_matrix_witness :
    ∃ T, matrix_transpose_1_svc 8 64 (List.replicate 8 0) (some sampleMatrix) = some T ∧
      T.status = 0 ∧ T.rows = 3 ∧ T.cols = 2 ∧ T.data_len = 2 * 3 ∧
      T.data.length = 2 * 3 ∧
      (∀ i j, i < 2 → j < 3 → T.data[j * 2 + i]? = [1, 2, 3, 4, 5, 6][i * 3 + j]?) ∧
      ∃ U, matrix_transpose_1_svc 8 64 [9, 9, 9, 9, 9, 9, 9, 9] (some T.value) = some U ∧
        U.status = 0 ∧ U.rows = 2 ∧ U.cols = 3 ∧ U.data_len = 6 ∧
        U.data = [1, 2, 3, 4, 5, 6] :=
  transpose_valid_matrix 8 64 (List.replicate 8 0) [9, 9, 9, 9, 9, 9, 9, 9] sampleMatrix
    [1, 2, 3, 4, 5, 6] (by decide) (by decide) (by decide) (by decide) (by decide) (by decide)
    rfl rfl rfl

/-! ## C23: addition -/

/-- C23: `matrix_add_1_svc` returns, and its status is 0 exactly when both
operands are valid (positive rows and columns, `rows * cols ≤ MAX`,
`data_len = rows * cols`, data present) and have the same rows and the same
columns.  With status 0 the result has the rows and columns of `A`,
`data_len = rows * cols` and the elements `a[i] + b[i]`; otherwise the status
is 1, rows, columns and `data_len` are 0 and the message is not empty.  `MAX`
is the constant `MAX_MATRIX_ELEMENTS`, an `int`, and the size of
`result_buffer`; `LEN` is `ERROR_MESSAGE_LEN`; rows and columns are `u_int`,
and a data buffer that is present holds `data_len` elements. -/
theorem matrix_add_status {D : Type} (MAX LEN : Nat) (add : D → D → D) (buf0 : List D)
    (argp : matrix_pair D) (hMAX : MAX < 2 ^ 31) (hbuf0 : buf0.length = MAX) (hLEN : 2 ≤ LEN)
    (har : argp.a.rows < 2 ^ 32) (hac : argp.a.cols < 2 ^ 32)
    (hbr : argp.b.rows < 2 ^ 32) (hbc : argp.b.cols < 2 ^ 32)
    (hda : ∀ d, argp.a.data_val = some d → d.length = argp.a.data_len)
    (hdb : ∀ d, argp.b.data_val = some d → d.length = argp.b.data_len) :
    ∃ R, matrix_add_1_svc MAX LEN add buf0 argp = some R ∧
      (R.status = 0 ↔
        validMatrix MAX argp.a ∧ validMatrix MAX argp.b ∧
          argp.a.rows = argp.b.rows ∧ argp.a.cols = argp.b.cols) ∧
      (R.status = 0 →
        R.rows = argp.a.rows ∧ R.cols = argp.a.cols ∧
        R.data_len = argp.a.rows * argp.a.cols ∧
        ∃ a b, argp.a.data_val = some a ∧ argp.b.data_val = some b ∧
          R.data = List.zipWith add a b ∧ R.data.length = argp.a.rows * argp.a.cols) ∧
      (R.status ≠ 0 →
        R.status = 1 ∧ R.rows = 0 ∧ R.cols = 0 ∧ R.data_len = 0 ∧ R.message ≠ []) := by
  by_cases hva : validMatrix MAX argp.a
  swap
  · obtain ⟨text, ht⟩ := ensure_valid_matrix_invalid MAX LEN (prepare_result buf0) argp.a
      (JokeServer.bytes "Matrix A") har hac hva
    refine ⟨set_error LEN (prepare_result buf0) 1 (JokeServer.bytes "Matrix A" ++ text),
      ?_, ?_, ?_, ?_⟩
    · simp only [matrix_add_1_svc, ht, Bool.not_false, if_true]
    · constructor
      · intro h
        simp [set_error] at h
      · intro h
        exact absurd h.1 hva
    · intro h
      simp [set_error] at h
    · intro _
      exact ⟨rfl, rfl, rfl, rfl, set_error_message LEN _ 1 _ text hLEN (by decide)⟩
  have hea := ensure_valid_matrix_valid MAX LEN (prepare_result buf0) argp.a
    (JokeServer.bytes "Matrix A") hMAX hva
  by_cases hvb : validMatrix MAX argp.b
  swap
  · obtain ⟨text, ht⟩ := ensure_valid_matrix_invalid MAX LEN (prepare_result buf0) argp.b
      (JokeServer.bytes "Matrix B") hbr hbc hvb
    refine ⟨set_error LEN (prepare_result buf0) 1 (JokeServer.bytes "Matrix B" ++ text),
      ?_, ?_, ?_, ?_⟩
    · simp only [matrix_add_1_svc, hea, ht, Bool.not_false, Bool.not_true, Bool.false_eq_true,
        if_true, if_false]
    · constructor
      · intro h
        simp [set_error] at h
      · intro h
        exact absurd h.2.1 hvb
    · intro h
      simp [set_error] at h
    · intro _
      exact ⟨rfl, rfl, rfl, rfl, set_error_message LEN _ 1 _ text hLEN (by decide)⟩
  have heb := ensure_valid_matrix_valid MAX LEN (prepare_result buf0) argp.b
    (JokeServer.bytes "Matrix B") hMAX hvb
  by_cases hdim : argp.a.rows ≠ argp.b.rows ∨ argp.a.cols ≠ argp.b.cols
  · refine ⟨set_error LEN (prepare_result buf0) 1
        (JokeServer.bytes "Matrix dimensions must match for addition"), ?_, ?_, ?_, ?_⟩
    · simp only [matrix_add_1_svc, hea, heb, Bool.not_true, Bool.false_eq_true, if_false,
        if_pos hdim]
    · constructor
      · intro h
        simp [set_error] at h
      · intro h
        omega
    · intro h
      simp [set_error] at h
    · intro _
      exact ⟨rfl, rfl, rfl, rfl,
        set_error_message LEN _ 1 (JokeServer.bytes "Matrix dimensions must match for addition")
          [] hLEN (by decide) |> fun h => by simpa using h⟩
  have hrows : argp.a.rows = argp.b.rows := by omega
  have hcols : argp.a.cols = argp.b.cols := by omega
  have h32 : argp.a.rows * argp.a.cols < 2 ^ 32 := validMatrix_lt hMAX hva
  obtain ⟨a, ha⟩ := Option.isSome_iff_exists.mp hva.2.2.2.2
  obtain ⟨b, hb⟩ := Option.isSome_iff_exists.mp hvb.2.2.2.2
  have hal : a.length = argp.a.rows * argp.a.cols := by rw [hda a ha, hva.2.2.2.1]
  have hbl : b.length = argp.a.rows * argp.a.cols := by
    rw [hdb b hb, hvb.2.2.2.1, hrows, hcols]
  have hle : argp.a.rows * argp.a.cols ≤ MAX := hva.2.2.1
  obtain ⟨buf, hloop, hblen, hent⟩ := add_loop_spec add (argp.a.rows * argp.a.cols) a b buf0
    (by omega) (by omega) (by omega)
  refine ⟨write_success_matrix { prepare_result buf0 with result_buffer := buf } argp.a.rows
    argp.a.cols (u32 (argp.a.rows * argp.a.cols)), ?_, ?_, ?_, ?_⟩
  · simp only [matrix_add_1_svc, hea, heb, Bool.not_true, Bool.false_eq_true, if_false,
      if_neg hdim, ha, hb, u32_of_lt h32]
    rw [show (prepare_result buf0).result_buffer = buf0 from rfl, hloop]
  · exact ⟨fun _ => ⟨hva, hvb, hrows, hcols⟩, fun _ => rfl⟩
  · intro _
    have hdata : (write_success_matrix { prepare_result buf0 with result_buffer := buf }
        argp.a.rows argp.a.cols (u32 (argp.a.rows * argp.a.cols))).data =
        List.zipWith add a b := by
      apply List.ext_getElem?
      intro k
      simp only [write_success_matrix, matrix_result.data, u32_of_lt h32]
      by_cases hk : k < argp.a.rows * argp.a.cols
      · rw [List.getElem?_take_of_lt hk]
        exact hent k hk
      · rw [List.getElem?_eq_none (by simp only [List.length_take]; omega),
          List.getElem?_eq_none (by simp only [List.length_zipWith]; omega)]
    refine ⟨rfl, rfl, ?_, a, b, ha, hb, hdata, ?_⟩
    · simp only [write_success_matrix, u32_of_lt h32]
    · rw [hdata, List.length_zipWith]
      omega
  · intro h
    exact absurd rfl h

theorem matrix_add_status_witness :
    ∃ R, matrix_add_1_svc 8 64 (fun x y : Int => x + y) (List.replicate 8 0)
        { a := sampleMatrix, b := sampleMatrixB } = some R ∧
      (R.status = 0 ↔
        validMatrix 8 sampleMatrix ∧ validMatrix 8 sampleMatrixB ∧
          sampleMatrix.rows = sampleMatrixB.rows ∧ sampleMatrix.cols = sampleMatrixB.cols) ∧
      (R.status = 0 →
        R.rows = sampleMatrix.rows ∧ R.cols = sampleMatrix.cols ∧
        R.data_len = sampleMatrix.rows * sampleMatrix.cols ∧
        ∃ a b, sampleMatrix.data_val = some a ∧ sampleMatrixB.data_val = some b ∧
          R.data = List.zipWith (fun x y : Int => x + y) a b ∧
          R.data.length = sampleMatrix.rows * sampleMatrix.cols) ∧
      (R.status ≠ 0 →
        R.status = 1 ∧ R.rows = 0 ∧ R.cols = 0 ∧ R.data_len = 0 ∧ R.message ≠ []) :=
  matrix_add_status 8 64 (fun x y : Int => x + y) (List.replicate 8 0)
    { a := sampleMatrix, b := sampleMatrixB } (by decide) (by decide) (by decide)
    (by decide) (by decide) (by decide) (by decide)
    (by intro d h; cases h; rfl) (by intro d h; cases h; rfl)

end MatrixOp
